import Mathlib

/-!
# dubdutduc: hash to melody

A shallow embedding of `main.go` (package `main` of Chaine-de-Blocs/dubdutduc)
and the properties of its generation algorithm.

Conventions of the embedding

* A Go `string` is modelled by the list of its runes (`String.data`); `len`
  is the byte length of the UTF-8 encoding, as in Go. Strings that are not
  valid UTF-8 are outside the model.
* `int32` values are `Int`, reduced by `wrapInt32` after every addition or
  subtraction; `uint8`, `uint32` and Go `int` counters are `Nat` or `Int`.
* `sort.Slice` belongs to the Go standard library. It is a parameter of
  `NewMelody`, constrained by `SliceSorts`, the contract its documentation
  gives: the result is a rearrangement of the input, ordered by `less`, and
  "the sort is not guaranteed to be stable".
-/

set_option linter.dupNamespace false

namespace Dubdutduc

/-! ## Constants -/

def C : Int := 0
def Db : Int := 1
def D : Int := 2
def Eb : Int := 3
def E : Int := 4
def F : Int := 5
def Gb : Int := 6
def G : Int := 7
def Ab : Int := 8
def A : Int := 9
def Bb : Int := 10
def B : Int := 11
def Rest : Int := 12

def Fb : Int := E
def Cb : Int := B

/-- Go `type Mode uint8`. -/
abbrev Mode := Nat

def Ionian : Mode := 0
def Dorian : Mode := 1
def Phrygian : Mode := 2
def Lydian : Mode := 3
def Mixolydian : Mode := 4
def Aeolian : Mode := 5
def Locrian : Mode := 6

/-- Go `type NoteDuration uint32`. -/
abbrev NoteDuration := Nat

def Minim : NoteDuration := 2
def CrochtetDot : NoteDuration := 3
def Crochtet : NoteDuration := 4
def Quaver : NoteDuration := 8
def Semiquaver : NoteDuration := 16

/-- Two's complement reduction of an integer to the `int32` range. -/
def wrapInt32 (x : Int) : Int := (x + 2147483648) % 4294967296 - 2147483648

/-! ## Strings -/

/-- Go `len(s)`: the number of bytes of the string. -/
def len (s : List Char) : Nat := (s.map Char.utf8Size).sum

/-- Go `strings.TrimLeft(s, cutset)`: `s` without its leading runes that belong
to `cutset`. -/
def TrimLeft (s : List Char) (cutset : List Char) : List Char :=
  s.dropWhile (fun c => cutset.contains c)

/-! ## Time signature -/

structure TimeSignature where
  Numerator : Nat
  Denominator : Nat
deriving DecidableEq, Repr

/-- Source: `NewTimeSignature`. `leftZeros` is a Go `int`, never negative
(`len_TrimLeft_le`); the numerator is converted to `uint8`. -/
def NewTimeSignature (hash : String) : TimeSignature :=
  let hashLen := len hash.data
  let hashTrimmedLen := len (TrimLeft hash.data ['0'])
  let leftZeros := hashLen - hashTrimmedLen
  let numerator := ((leftZeros % 3) + 2) % 256
  { Numerator := numerator, Denominator := 4 }

/-- The number of leading `'0'` characters of a hash, as the specification
words it. -/
def leadingZeros (hash : String) : Nat :=
  (hash.data.takeWhile (fun c => c == '0')).length

/-! ## Notes and melodies -/

structure Note where
  Note : Int
  Velocity : Int
  Duration : NoteDuration
  Tone : Int
deriving DecidableEq, Repr

/-- Source: `Melody`. `Phrases` is the Go map from a measure to its notes, as
an association list; `NewMelody` leaves it and `Measures` at their zero
values. -/
structure Melody where
  Notes : List Note
  Scale : Int
  Mode : Mode
  TimeSignature : TimeSignature
  Measures : Nat
  Phrases : List (Nat × List Note)
deriving Repr

/-! ## Scale degrees -/

def Melody.Tonic (m : Melody) : Int :=
  m.Scale

def Melody.Second (m : Melody) : Int :=
  if m.Mode = Phrygian ∨ m.Mode = Locrian then wrapInt32 (m.Scale + 1)
  else wrapInt32 (m.Scale + 2)

def Melody.Third (m : Melody) : Int :=
  if m.Mode = Ionian ∨ m.Mode = Lydian ∨ m.Mode = Mixolydian then wrapInt32 (m.Scale + 4)
  else wrapInt32 (m.Scale + 3)

def Melody.Quarte (m : Melody) : Int :=
  if m.Mode = Lydian then wrapInt32 (m.Scale + 6)
  else wrapInt32 (m.Scale + 5)

def Melody.Quinte (m : Melody) : Int :=
  if m.Mode = Locrian then wrapInt32 (m.Scale + 6)
  else wrapInt32 (m.Scale + 7)

def Melody.Sixte (m : Melody) : Int :=
  if m.Mode = Phrygian ∨ m.Mode = Aeolian ∨ m.Mode = Locrian then wrapInt32 (m.Scale + 8)
  else wrapInt32 (m.Scale + 9)

def Melody.Seventh (m : Melody) : Int :=
  if m.Mode = Ionian ∨ m.Mode = Lydian then wrapInt32 (m.Scale + 11)
  else wrapInt32 (m.Scale + 10)

/-! ## Classification of the hash -/

/-- Source: the local `type classifier` of `NewMelody`; `count` is a Go `int`
that holds a slice length. -/
structure Classifier where
  char : Char
  count : Nat
deriving DecidableEq, Repr

/-- Source: the local `runes` of `NewMelody`, the fixed scan order. -/
def runes : List Char :=
  ['a', 'b', 'c', 'd', 'e', 'f', '0', '1', '2', '3', '4', '5', '6', '7', '8', '9']

/-- Source: `len(regexp.MustCompile(string(c)).FindAllStringIndex(s, -1))`.
For a rune of `runes` the pattern is one literal character, so the matches
are the occurrences of that character. -/
def countMatches (c : Char) (s : List Char) : Nat :=
  s.count c

/-- Source: the first loop of `NewMelody`, the classifiers before the sort. -/
def classify (trimmedHash : List Char) : List Classifier :=
  runes.map (fun c => { char := c, count := countMatches c trimmedHash })

/-- Source: the `less` closure given to `sort.Slice`, on the two elements the
indices stand for. -/
def less (x y : Classifier) : Bool :=
  decide (x.count > y.count)

/-- The contract of `sort.Slice` with the closure `less`: the slice is
rearranged, and afterwards no element is `less` than one before it. Nothing is
said of the order of elements that are not `less` either way. -/
def SliceSorts (sortSlice : List Classifier → List Classifier) : Prop :=
  ∀ l, (sortSlice l).Perm l ∧ (sortSlice l).Pairwise (fun x y => less y x = false)

/-- Source: the classifiers after `sort.Slice`, the ranking. -/
def ranking (sortSlice : List Classifier → List Classifier) (hash : String) :
    List Classifier :=
  sortSlice (classify (TrimLeft hash.data ['0']))

/-- Source: `loop_scale`. The zero value of `scale` stands when no classifier
matches. -/
def loopScale : List Classifier → Int
  | [] => 0
  | c :: rest =>
    match c.char with
    | '4' => Ab
    | 'a' => A
    | '5' => Bb
    | 'b' => B
    | 'c' => C
    | '6' => Db
    | 'd' => D
    | '7' => Eb
    | 'e' => E
    | 'f' => F
    | '8' => Gb
    | '9' => G
    | _ => loopScale rest

/-- Source: `loop_mode`. -/
def loopMode : List Classifier → Mode
  | [] => 0
  | c :: rest =>
    match c.char with
    | '0' => Ionian
    | '1' => Dorian
    | '2' => Phrygian
    | '3' => Lydian
    | '4' => Mixolydian
    | '5' => Aeolian
    | '6' => Locrian
    | _ => loopMode rest

/-! ## Melody notes -/

/-- Source: the loop that sets `indexOfC`, at position `i` of the classifiers:
the index of the first classifier of the rune, 0 when there is none. -/
def indexLoop (c : Char) : List Classifier → Nat → Nat
  | [], _ => 0
  | cl :: rest, i => if cl.char = c then i else indexLoop c rest (i + 1)

def indexOfC (classifiers : List Classifier) (c : Char) : Nat :=
  indexLoop c classifiers 0

/-- The state of the phrase between two notes: `notePerPhrase` (a Go `int`)
and `noteDurationForPhrase`. -/
structure PhraseState where
  notePerPhrase : Int
  noteDurationForPhrase : NoteDuration
deriving DecidableEq, Repr

/-- Source: `loop_duration`, over the runes of `trimmedHash[indexH+1:]`. -/
def loopDuration : List Char → PhraseState → PhraseState
  | [], st => st
  | dc :: rest, st =>
    let st1 : PhraseState := { st with notePerPhrase := st.notePerPhrase + 1 }
    match dc with
    | '0' => { st1 with noteDurationForPhrase := Minim }
    | '1' => { st1 with noteDurationForPhrase := CrochtetDot }
    | '2' => { st1 with noteDurationForPhrase := Crochtet }
    | '3' => { st1 with noteDurationForPhrase := Quaver }
    | '4' => { st1 with noteDurationForPhrase := Quaver }
    | '5' => { st1 with noteDurationForPhrase := Semiquaver }
    | '6' => { st1 with noteDurationForPhrase := Semiquaver }
    | _ => loopDuration rest st1

/-- The runes Go reads from `trimmedHash[indexH+1:]` when the rune at byte
`indexH` is `c` and `rest` follows it: the slice starts one byte after the start
of `c`, so each further byte of `c` is read as the replacement rune U+FFFD, one
byte wide, and then `rest` is read. -/
def sliceAfterFirstByte (c : Char) (rest : List Char) : List Char :=
  List.replicate (c.utf8Size - 1) (Char.ofNat 0xFFFD) ++ rest

/-- Source: the `switch indexOfC` of `NewMelody`; `note.Note` keeps its zero
value on the indices the switch does not list. -/
def noteOfIndex (m : Melody) (indexOfC : Nat) : Int :=
  match indexOfC with
  | 0 => m.Quinte
  | 10 => m.Quinte
  | 1 => m.Third
  | 7 => m.Third
  | 11 => m.Third
  | 2 => m.Tonic
  | 9 => m.Tonic
  | 3 => m.Seventh
  | 8 => m.Seventh
  | 4 => m.Quarte
  | 5 => m.Second
  | 12 => m.Second
  | 6 => m.Sixte
  | 15 => m.Sixte
  | _ => 0

/-- Source: the register of a new note, 5 moved by one when the interval from
a previous note that is not `Rest` leaves [-13, 13]. -/
def toneOf (prevNote : Option Note) (note : Int) : Int :=
  match prevNote with
  | none => 5
  | some p =>
    if p.Note ≠ Rest then
      let toneInterval := wrapInt32 (p.Note - note)
      if toneInterval < -13 then wrapInt32 (5 + 1)
      else if toneInterval > 13 then wrapInt32 (5 - 1)
      else 5
    else 5

/-- Source: the loop `for indexH, c := range trimmedHash` of `NewMelody`, on
the runes still to read, with the phrase state and `prevNote`. -/
def notesLoop (m : Melody) (classifiers : List Classifier) :
    List Char → PhraseState → Option Note → List Note
  | [], _, _ => []
  | c :: rest, st, prevNote =>
    let idx := indexOfC classifiers c
    let st1 := if st.notePerPhrase = 0 then loopDuration (sliceAfterFirstByte c rest) st else st
    let pitch := noteOfIndex m idx
    let note : Note :=
      { Note := pitch, Velocity := 100, Duration := st1.noteDurationForPhrase,
        Tone := toneOf prevNote pitch }
    note :: notesLoop m classifiers rest
      { st1 with notePerPhrase := st1.notePerPhrase - 1 } (some note)

/-- Source: `NewMelody`, with the library sort `sortSlice` it calls. -/
def NewMelody (sortSlice : List Classifier → List Classifier) (hash : String) : Melody :=
  let trimmedHash := TrimLeft hash.data ['0']
  let classifiers := sortSlice (classify trimmedHash)
  let scale := loopScale classifiers
  let mode := loopMode classifiers
  let ts := NewTimeSignature hash
  let melody : Melody :=
    { Notes := [], Scale := scale, Mode := mode, TimeSignature := ts, Measures := 0,
      Phrases := [] }
  { melody with
    Notes := notesLoop melody classifiers trimmedHash
      { notePerPhrase := 0, noteDurationForPhrase := 0 } none }

/-! ## Chords -/

/-- Go `type Degree uint8`. -/
abbrev Degree := Nat

def I : Degree := 0
def II : Degree := 1
def III : Degree := 2
def IV : Degree := 3
def V : Degree := 4
def VI : Degree := 5
def VII : Degree := 6

structure Chord where
  Notes : List Note
deriving DecidableEq, Repr

/-- Source: `Melody.BuildChord`, the chord it builds and then plays. The
three voices start as zero notes with register 3 and the given duration; a
degree outside I..VII leaves their pitches at zero. The alteration argument is
not read. -/
def Melody.BuildChord (m : Melody) (d : Degree) (duration : NoteDuration) : Chord :=
  let f : Note := { Note := 0, Velocity := 0, Duration := duration, Tone := 3 }
  let t : Note := { Note := 0, Velocity := 0, Duration := duration, Tone := 3 }
  let q : Note := { Note := 0, Velocity := 0, Duration := duration, Tone := 3 }
  let (f, t, q) :=
    if d = I then
      ({ f with Note := m.Tonic }, { t with Note := m.Third }, { q with Note := m.Quinte })
    else if d = II then
      ({ f with Note := m.Second }, { t with Note := m.Quarte }, { q with Note := m.Sixte })
    else if d = III then
      ({ f with Note := m.Third }, { t with Note := m.Quinte }, { q with Note := m.Seventh })
    else if d = IV then
      ({ f with Note := m.Quarte }, { t with Note := m.Sixte },
        { q with Note := m.Tonic, Tone := wrapInt32 (q.Tone + 1) })
    else if d = V then
      ({ f with Note := m.Quinte }, { t with Note := m.Seventh },
        { q with Note := m.Second, Tone := wrapInt32 (q.Tone + 1) })
    else if d = VI then
      ({ f with Note := m.Sixte }, { t with Note := m.Tonic, Tone := wrapInt32 (t.Tone + 1) },
        { q with Note := m.Third, Tone := wrapInt32 (q.Tone + 1) })
    else if d = VII then
      ({ f with Note := m.Seventh },
        { t with Note := m.Second, Tone := wrapInt32 (t.Tone + 1) },
        { q with Note := m.Quarte, Tone := wrapInt32 (q.Tone + 1) })
    else (f, t, q)
  { Notes := [{ f with Velocity := 100 }, { t with Velocity := 100 },
      { q with Velocity := 100 }] }

/-! ## The MIDI writer -/

/-- Modelled from the spec: the tick-resolution provider of the specification,
the writer `writer.SMF` of the MIDI library, which is not part of the
repository. It keeps a running position in ticks (`wr.Position()`) and the
resolution, the number of ticks of a quarter note
(`wr.MetricTicks.Resolution()`). -/
structure SMF where
  Position : Nat
  Resolution : Nat
deriving DecidableEq, Repr

/-- Modelled from the spec: `wr.MetricTicks.Ticks4th()`, the ticks of a
quarter note. -/
def SMF.Ticks4th (wr : SMF) : Nat :=
  wr.Resolution

/-- Modelled from the spec: `wr.MetricTicks.Ticks8th()`. -/
def SMF.Ticks8th (wr : SMF) : Nat :=
  wr.Ticks4th / 2

/-- Modelled from the spec: `wr.MetricTicks.Ticks16th()`. -/
def SMF.Ticks16th (wr : SMF) : Nat :=
  wr.Ticks4th / 4

/-- Modelled from the spec: `writer.Forward(wr, 0, num, denom)` followed by an
event, which moves the position by `num/denom` of a whole note, four quarter
notes; nothing moves on a zero denominator. -/
def SMF.Forward (wr : SMF) (num denom : Nat) : SMF :=
  { wr with Position := wr.Position + 4 * wr.Resolution * num / denom }

/-- Source: `TimeSignature.GetTicksOfDuration`. The `float64` values are
rationals here: when the resolution is a positive multiple of 4 (960 by
default) every value is a multiple of 1/4 below 8, which `float64` holds and
adds exactly. -/
def TimeSignature.GetTicksOfDuration (_ts : TimeSignature) (d : NoteDuration) (wr : SMF) : ℚ :=
  let resolution : ℚ := wr.Resolution
  if d = Minim then ((wr.Ticks4th : ℚ) * 2) / resolution
  else if d = CrochtetDot then ((wr.Ticks4th : ℚ) + (wr.Ticks8th : ℚ)) / resolution
  else if d = Crochtet then (wr.Ticks4th : ℚ) / resolution
  else if d = Quaver then (wr.Ticks8th : ℚ) / resolution
  else if d = Semiquaver then (wr.Ticks16th : ℚ) / resolution
  else 0

/-- Source: `Note.ApplyMeterDuration`. -/
def Note.ApplyMeterDuration (n : Dubdutduc.Note) (wr : SMF) : SMF :=
  if n.Duration = CrochtetDot then wr.Forward 3 Quaver
  else wr.Forward 1 n.Duration

/-- Source: `Note.Play`, as far as the position of the writer goes: the note
or the silence starts, the position moves by the duration, the note ends. The
two branches of `if n.Note == Rest` are not told apart: the position moves at
once for a Rest as for a pitched note, whereas a writer that keeps the move
pending until the next message it writes reports the position of a Rest late. -/
def Note.Play (n : Dubdutduc.Note) (wr : SMF) : SMF :=
  n.ApplyMeterDuration wr

/-- Source: `Melody.CurrentMeasure`; the measure is a `uint8`. -/
def Melody.CurrentMeasure (m : Melody) (wr : SMF) : Nat × Nat :=
  let tickPosition := wr.Position / wr.Resolution
  if tickPosition < m.TimeSignature.Numerator then (1, tickPosition)
  else ((tickPosition / m.TimeSignature.Numerator % 256 + 1) % 256, tickPosition)

/-! ## Measures -/

/-- Source: `m.Phrases[measure] = append(m.Phrases[measure], n)`. -/
def appendPhrase : List (Nat × List Note) → Nat → Note → List (Nat × List Note)
  | [], measure, n => [(measure, [n])]
  | (k, ns) :: rest, measure, n =>
    if k = measure then (k, ns ++ [n]) :: rest
    else (k, ns) :: appendPhrase rest measure n

/-- What the groove of `BuildMelody` leaves for one note: the writer, the
phrases, the note and `nextRelativePosition`. -/
structure Grooved where
  wr : SMF
  Phrases : List (Nat × List Note)
  n : Note
  nextRelativePosition : ℚ

/-- Source: the block "let's groove" of `BuildMelody`, for the note `n` in the
measure `measure`. -/
def groove (m : Melody) (wr : SMF) (phrases : List (Nat × List Note)) (measure : Nat) (n : Note)
    (relativePosition nextRelativePosition : ℚ) : Grooved :=
  if nextRelativePosition > (m.TimeSignature.Numerator : ℚ) then
    let remainingTicks : ℚ := (m.TimeSignature.Numerator : ℚ) - relativePosition
    let grooveRest : Note := { Duration := Quaver, Note := Rest, Velocity := 100, Tone := 5 }
    let g : Grooved :=
      if remainingTicks = 0.25 then
        { wr := wr, Phrases := phrases, n := { n with Duration := Semiquaver },
          nextRelativePosition := nextRelativePosition }
      else if remainingTicks = 0.5 then
        { wr := wr, Phrases := phrases, n := { n with Duration := Quaver },
          nextRelativePosition := nextRelativePosition }
      else if remainingTicks = 0.75 then
        let grooveRest : Note := { grooveRest with Duration := Quaver }
        { wr := grooveRest.Play wr, Phrases := appendPhrase phrases measure grooveRest,
          n := { n with Duration := Semiquaver }, nextRelativePosition := nextRelativePosition }
      else if remainingTicks = 1 then
        { wr := wr, Phrases := phrases, n := { n with Duration := Crochtet },
          nextRelativePosition := nextRelativePosition }
      else if remainingTicks = 1.5 then
        let grooveRest : Note := { grooveRest with Duration := Quaver }
        { wr := grooveRest.Play wr, Phrases := appendPhrase phrases measure grooveRest,
          n := { n with Duration := Crochtet }, nextRelativePosition := nextRelativePosition }
      else
        { wr := wr, Phrases := phrases, n := n, nextRelativePosition := nextRelativePosition }
    { g with nextRelativePosition := 0 }
  else
    { wr := wr, Phrases := phrases, n := n, nextRelativePosition := nextRelativePosition }

/-- The state of the loop of `BuildMelody` between two notes; `Notes` are the
notes already read, with the durations the loop left them. -/
structure MelodyState where
  wr : SMF
  Phrases : List (Nat × List Note)
  nextRelativePosition : ℚ
  Notes : List Note

/-- Source: the body of the loop of `BuildMelody`, for the note `n`. -/
def melodyStep (m : Melody) (n : Note) (st : MelodyState) : MelodyState :=
  let measure := (m.CurrentMeasure st.wr).1
  let relativePosition := st.nextRelativePosition
  let nextRelativePosition :=
    st.nextRelativePosition + m.TimeSignature.GetTicksOfDuration n.Duration st.wr
  let g := groove m st.wr st.Phrases measure n relativePosition nextRelativePosition
  let nextRelativePosition :=
    if g.nextRelativePosition = relativePosition then 0 else g.nextRelativePosition
  { wr := g.n.Play g.wr, Phrases := appendPhrase g.Phrases measure g.n,
    nextRelativePosition := nextRelativePosition, Notes := st.Notes ++ [g.n] }

/-- Source: the loop of `BuildMelody` over `m.Notes`. -/
def melodyLoop (m : Melody) : List Note → MelodyState → MelodyState
  | [], st => st
  | n :: rest, st => melodyLoop m rest (melodyStep m n st)

/-- Source: `Melody.BuildMelody`: the melody with its phrases, its measures and
its notes as the loop left them, and the writer. -/
def Melody.BuildMelody (m : Melody) (wr : SMF) : Melody × SMF :=
  let st := melodyLoop m m.Notes
    { wr := wr, Phrases := [], nextRelativePosition := 0, Notes := [] }
  ({ m with Notes := st.Notes, Phrases := st.Phrases, Measures := (m.CurrentMeasure st.wr).1 },
    st.wr)

/-! ## Harmony -/

/-- A call `BuildHarmony` makes: `m.BuildChord(wr, d, nil, duration)`,
`m.Silence(wr, duration)` or `note.Play(wr)`. -/
inductive Action where
  | buildChord (d : Degree) (duration : NoteDuration)
  | silence (duration : NoteDuration)
  | play (note : Note)
deriving DecidableEq, Repr

/-- Source: the loop of `countLinkedDuration`, with its counter `next`. -/
def countLinkedLoop (d : NoteDuration) : List Note → Nat → Nat
  | [], next => next
  | nextNote :: rest, next =>
    if nextNote.Duration = d ∧ nextNote.Note ≠ Rest then countLinkedLoop d rest (next + 1)
    else next

/-- Source: `countLinkedDuration`. -/
def countLinkedDuration (notes : List Note) (d : NoteDuration) : Nat :=
  countLinkedLoop d notes 0

/-- Source: the counters `nextMinim`, ... of `BuildHarmony`, Go `int`s that
hold counts of notes. -/
structure Counters where
  nextMinim : Nat
  nextQuaver : Nat
  nextSemiquaver : Nat
  nextCrochtet : Nat
  nextCrochtetDot : Nat
deriving DecidableEq, Repr

/-- Source: the closure `resetCountersExcept` of `BuildHarmony`. -/
def resetCountersExcept (cs : Counters) (d : NoteDuration) : Counters :=
  if d = Minim then
    { cs with nextCrochtet := 0, nextQuaver := 0, nextSemiquaver := 0, nextCrochtetDot := 0 }
  else if d = Crochtet then
    { cs with nextMinim := 0, nextQuaver := 0, nextSemiquaver := 0, nextCrochtetDot := 0 }
  else if d = Quaver then
    { cs with nextMinim := 0, nextCrochtet := 0, nextSemiquaver := 0, nextCrochtetDot := 0 }
  else if d = Semiquaver then
    { cs with nextMinim := 0, nextQuaver := 0, nextCrochtet := 0, nextCrochtetDot := 0 }
  else if d = CrochtetDot then
    { cs with nextMinim := 0, nextQuaver := 0, nextSemiquaver := 0, nextCrochtet := 0 }
  else
    { nextMinim := 0, nextQuaver := 0, nextSemiquaver := 0, nextCrochtet := 0,
      nextCrochtetDot := 0 }

/-- Source: `switch nextMinim` of `BuildHarmony`. -/
def minimActions (d : Degree) (nextMinim : Nat) : List Action :=
  match nextMinim with
  | 1 => [.silence Quaver, .buildChord d Crochtet, .silence Quaver]
  | 2 => [.buildChord d Minim, .silence Crochtet, .buildChord d Crochtet]
  | 3 => [.buildChord d Minim, .silence Minim, .buildChord d Crochtet, .buildChord d Crochtet]
  | _ => []

/-- Source: `switch nextCrochtetDot` of `BuildHarmony`; the default case is
the loop `for nc := 1; nc <= nextCrochtetDot; nc++`. -/
def crochtetDotActions (d : Degree) (nextCrochtetDot : Nat) : List Action :=
  match nextCrochtetDot with
  | 2 => [.silence CrochtetDot, .buildChord d Crochtet, .silence Quaver]
  | 3 => [.buildChord d CrochtetDot, .buildChord d Quaver, .silence Crochtet,
      .buildChord d CrochtetDot]
  | 4 => [.silence Quaver, .buildChord d CrochtetDot, .silence CrochtetDot,
      .buildChord d Crochtet]
  | 5 => [.buildChord d CrochtetDot, .buildChord d CrochtetDot, .silence CrochtetDot,
      .buildChord d CrochtetDot, .silence CrochtetDot]
  | n => List.replicate n (.buildChord d CrochtetDot)

/-- Source: `switch nextCrochtet` of `BuildHarmony`. -/
def crochtetActions (d : Degree) (nextCrochtet : Nat) : List Action :=
  match nextCrochtet with
  | 2 => [.buildChord d Minim]
  | 3 => [.silence Quaver, .buildChord d Crochtet, .silence Quaver, .buildChord d Crochtet]
  | 4 => [.buildChord d Minim, .silence Crochtet, .buildChord d Crochtet]
  | 5 => [.buildChord d Minim, .silence Crochtet, .buildChord d Crochtet, .silence Crochtet]
  | _ => [.buildChord d Crochtet]

/-- Source: `switch nextQuaver` of `BuildHarmony`. -/
def quaverActions (d : Degree) (nextQuaver : Nat) : List Action :=
  match nextQuaver with
  | 1 => [.silence Quaver]
  | 2 => [.silence Quaver, .buildChord d Quaver]
  | 3 => [.buildChord d CrochtetDot]
  | 4 => [.silence Crochtet, .buildChord d CrochtetDot]
  | 5 => [.silence Quaver, .buildChord d Minim]
  | 6 => [.buildChord d Crochtet, .silence Quaver, .buildChord d Crochtet, .silence Quaver]
  | 7 => [.buildChord d Minim, .silence Crochtet, .buildChord d Crochtet]
  | 8 => [.buildChord d Minim, .silence Crochtet, .buildChord d CrochtetDot]
  | 9 => [.silence Quaver, .buildChord d Crochtet, .silence Quaver, .buildChord d Crochtet,
      .buildChord d Minim]
  | 10 => [.buildChord d Minim, .silence Quaver, .buildChord d Crochtet, .silence Quaver,
      .buildChord d Crochtet, .silence Quaver, .buildChord d Quaver]
  | _ => []

/-- Source: `switch nextSemiquaver` of `BuildHarmony`. -/
def semiquaverActions (d : Degree) (nextSemiquaver : Nat) : List Action :=
  match nextSemiquaver with
  | 1 => [.silence Semiquaver]
  | 2 => [.silence Quaver]
  | 3 => [.silence Quaver, .buildChord d Semiquaver]
  | 4 => [.buildChord d Crochtet]
  | 5 => [.silence Semiquaver, .buildChord d Crochtet]
  | 6 => [.silence Crochtet, .buildChord d Quaver]
  | 7 => [.silence Crochtet, .silence Semiquaver, .buildChord d Quaver]
  | 8 => [.buildChord d Crochtet, .buildChord d Crochtet]
  | 9 => [.buildChord d Crochtet, .silence Semiquaver, .buildChord d Crochtet]
  | 10 => [.silence Quaver, .buildChord d Minim]
  | 11 => [.buildChord d Minim, .silence Semiquaver, .buildChord d Quaver]
  | 12 => [.buildChord d Minim, .silence Crochtet]
  | 13 => [.buildChord d Minim, .silence Semiquaver, .buildChord d Crochtet]
  | 14 => [.silence Quaver, .buildChord d Quaver, .buildChord d Quaver, .buildChord d Minim]
  | 15 => [.silence Quaver, .buildChord d Quaver, .silence Semiquaver, .buildChord d Quaver,
      .buildChord d Minim]
  | 16 => [.silence Quaver, .buildChord d Minim, .silence Quaver, .buildChord d Crochtet]
  | 17 => [.silence Quaver, .buildChord d Minim, .silence Quaver, .silence Semiquaver,
      .buildChord d Crochtet]
  | 18 => [.buildChord d Minim, .silence Quaver, .buildChord d Crochtet, .silence Quaver,
      .buildChord d Quaver]
  | 19 => [.silence Semiquaver, .buildChord d Minim, .silence Quaver, .buildChord d Crochtet,
      .silence Quaver, .buildChord d Quaver]
  | 20 => [.buildChord d Minim, .silence Quaver, .buildChord d Crochtet, .silence Quaver,
      .buildChord d Crochtet]
  | _ => []

/-- Source: the loop `for j, note := range m.Phrases[i]` of `BuildHarmony`, on
the notes from index `j` on (`m.Phrases[i][j:]`), with the degree `d` of the
measure and the counters. -/
def harmonyLoop (d : Degree) : List Note → Counters → List Action
  | [], _ => []
  | note :: rest, cs =>
    if note.Note = Rest then
      let cs1 := resetCountersExcept cs 99
      (if note.Duration = Quaver then [Action.buildChord d Quaver] else [Action.play note]) ++
        harmonyLoop d rest cs1
    else if note.Duration = Minim then
      if cs.nextMinim > 0 then harmonyLoop d rest cs
      else
        let cs1 := { cs with nextMinim := countLinkedDuration (note :: rest) Minim }
        minimActions d cs1.nextMinim ++
          harmonyLoop d rest (resetCountersExcept cs1 note.Duration)
    else if note.Duration = CrochtetDot then
      if cs.nextCrochtetDot > 0 then harmonyLoop d rest cs
      else
        let cs1 := { cs with nextCrochtetDot := countLinkedDuration (note :: rest) CrochtetDot }
        crochtetDotActions d cs1.nextCrochtetDot ++
          harmonyLoop d rest (resetCountersExcept cs1 note.Duration)
    else if note.Duration = Crochtet then
      if cs.nextCrochtet > 0 then harmonyLoop d rest cs
      else
        let cs1 := { cs with nextCrochtet := countLinkedDuration (note :: rest) Crochtet }
        crochtetActions d cs1.nextCrochtet ++
          harmonyLoop d rest (resetCountersExcept cs1 note.Duration)
    else if note.Duration = Quaver then
      if cs.nextQuaver > 0 then harmonyLoop d rest cs
      else
        let cs1 := { cs with nextQuaver := countLinkedDuration (note :: rest) Quaver }
        quaverActions d cs1.nextQuaver ++
          harmonyLoop d rest (resetCountersExcept cs1 note.Duration)
    else if note.Duration = Semiquaver then
      if cs.nextSemiquaver > 0 then harmonyLoop d rest cs
      else
        let cs1 := { cs with nextSemiquaver := countLinkedDuration (note :: rest) Semiquaver }
        semiquaverActions d cs1.nextSemiquaver ++
          harmonyLoop d rest (resetCountersExcept cs1 note.Duration)
    else harmonyLoop d rest (resetCountersExcept cs note.Duration)

/-- Source: the `switch n.Note` of `BuildHarmony` on the first note of the
phrase; the cases are tried in order. -/
def pickDegree (m : Melody) (n : Note) : Degree :=
  if n.Note = m.Second then II
  else if n.Note = m.Third then III
  else if n.Note = m.Quarte then IV
  else if n.Note = m.Quinte then V
  else if n.Note = m.Sixte then VI
  else if n.Note = m.Seventh then VII
  else I

/-- Source: the `switch note.Duration` of `BuildHarmony` for a note that opens
a run of `count` notes: the calls of the case of the duration. -/
def runActions (d : Degree) (duration : NoteDuration) (count : Nat) : List Action :=
  if duration = Minim then minimActions d count
  else if duration = CrochtetDot then crochtetDotActions d count
  else if duration = Crochtet then crochtetActions d count
  else if duration = Quaver then quaverActions d count
  else if duration = Semiquaver then semiquaverActions d count
  else []

/-- The counter of `BuildHarmony` for a duration. -/
def Counters.ofDuration (cs : Counters) (duration : NoteDuration) : Nat :=
  if duration = Minim then cs.nextMinim
  else if duration = CrochtetDot then cs.nextCrochtetDot
  else if duration = Crochtet then cs.nextCrochtet
  else if duration = Quaver then cs.nextQuaver
  else if duration = Semiquaver then cs.nextSemiquaver
  else 0

/-- The counters after the counter of a duration is set. -/
def Counters.setDuration (cs : Counters) (duration : NoteDuration) (count : Nat) : Counters :=
  if duration = Minim then { cs with nextMinim := count }
  else if duration = CrochtetDot then { cs with nextCrochtetDot := count }
  else if duration = Crochtet then { cs with nextCrochtet := count }
  else if duration = Quaver then { cs with nextQuaver := count }
  else if duration = Semiquaver then { cs with nextSemiquaver := count }
  else cs

/-- The counters at the start of a measure. -/
def zeroCounters : Counters :=
  { nextMinim := 0, nextQuaver := 0, nextSemiquaver := 0, nextCrochtet := 0,
    nextCrochtetDot := 0 }

/-- Source: the body of the loop over measures of `BuildHarmony` for a measure
with the recorded phrase `phrase`; `none` is the panic of `m.Phrases[i][0]` on
an empty phrase. -/
def harmonyMeasure (m : Melody) (phrase : List Note) : Option (List Action) :=
  match phrase with
  | [] => none
  | n :: _ => some (harmonyLoop (pickDegree m n) phrase zeroCounters)

/-- How a run of `BuildHarmony` ends: it returns after the calls it made, it
panics, or it is still in its loop when the steps allowed are used up. -/
inductive Outcome where
  | returned (calls : List Action)
  | panicked
  | unfinished
deriving DecidableEq, Repr

/-- The calls `calls` made before the outcome `o`. -/
def Outcome.after (calls : List Action) : Outcome → Outcome
  | .returned later => .returned (calls ++ later)
  | .panicked => .panicked
  | .unfinished => .unfinished

/-- Source: the loop `for i := uint8(1); i <= m.Measures; i++` of
`BuildHarmony`, from the value `i` of the counter, for at most `steps`
evaluations of the loop condition. The increment is that of a `uint8`. -/
def harmonyMeasures (m : Melody) : Nat → Nat → Outcome
  | 0, _ => .unfinished
  | steps + 1, i =>
    if i ≤ m.Measures then
      match m.Phrases.lookup i with
      | none => harmonyMeasures m steps ((i + 1) % 256)
      | some phrase =>
        match harmonyMeasure m phrase with
        | none => .panicked
        | some calls => (harmonyMeasures m steps ((i + 1) % 256)).after calls
    else .returned []

/-- Source: `Melody.BuildHarmony`, for at most `steps` evaluations of the
condition of its loop over measures. -/
def Melody.BuildHarmony (m : Melody) (steps : Nat) : Outcome :=
  harmonyMeasures m steps 1

/-- Source: `Note.GetNoteTone`, the absolute pitch, in `int32`. -/
def Note.GetNoteTone (n : Dubdutduc.Note) : Int :=
  wrapInt32 (n.Note + wrapInt32 (12 * n.Tone))

/-! ## Two sorts that meet the contract of `sort.Slice` -/

/-- Descending order of counts, the order `less` sorts by. -/
def countGe (x y : Classifier) : Prop :=
  x.count ≥ y.count

instance : DecidableRel countGe :=
  fun x y => inferInstanceAs (Decidable (x.count ≥ y.count))

instance : IsTotal Classifier countGe :=
  ⟨fun x y => Nat.le_total y.count x.count⟩

instance : IsTrans Classifier countGe :=
  ⟨fun _ _ _ hxy hyz => Nat.le_trans hyz hxy⟩

/-- A stable sort: insertion sort, which keeps elements of equal count in
their order of arrival. -/
def stableSort (l : List Classifier) : List Classifier :=
  l.insertionSort countGe

/-- An unstable sort: a slice already in order is returned as it is, any other
slice is reversed and then sorted by insertion. -/
def presortedOrReverseSort (l : List Classifier) : List Classifier :=
  if l.Sorted countGe then l else l.reverse.insertionSort countGe

/-! ## The specification's tables -/

/-- The interval vector of a mode, as the specification lists it. -/
def modeIntervals (mode : Mode) : List Int :=
  if mode = Ionian then [0, 2, 4, 5, 7, 9, 11]
  else if mode = Dorian then [0, 2, 3, 5, 7, 9, 10]
  else if mode = Phrygian then [0, 1, 3, 5, 7, 8, 10]
  else if mode = Lydian then [0, 2, 4, 6, 7, 9, 11]
  else if mode = Mixolydian then [0, 2, 4, 5, 7, 9, 10]
  else if mode = Aeolian then [0, 2, 3, 5, 7, 8, 10]
  else if mode = Locrian then [0, 1, 3, 5, 6, 8, 10]
  else []

/-- The seven degree values of a melody, from Tonic to Seventh. -/
def degrees (m : Melody) : List Int :=
  [m.Tonic, m.Second, m.Third, m.Quarte, m.Quinte, m.Sixte, m.Seventh]

/-- The natural notes, the white keys. -/
def naturalNotes : List Int :=
  [C, D, E, F, G, A, B]

/-- Each mode with its white-key tonic. -/
def whiteKeyModes : List (Int × Mode) :=
  [(C, Ionian), (D, Dorian), (E, Phrygian), (F, Lydian), (G, Mixolydian), (A, Aeolian),
    (B, Locrian)]

/-- The order the specification gives the ranking: descending count, and the
scan order of `runes` among equal counts. -/
def RankedBefore (x y : Classifier) : Prop :=
  x.count > y.count ∨ (x.count = y.count ∧ runes.indexOf x.char < runes.indexOf y.char)

instance : DecidableRel RankedBefore :=
  fun x y => inferInstanceAs
    (Decidable (x.count > y.count ∨
      (x.count = y.count ∧ runes.indexOf x.char < runes.indexOf y.char)))

/-- The ranking as the specification words it: the stable descending sort of
the scan-order list of classifiers. -/
def stableRanking (hash : String) : List Classifier :=
  (classify (TrimLeft hash.data ['0'])).insertionSort countGe

/-- The scale dictionary of the specification. -/
def scaleDictionary : List (Char × Int) :=
  [('4', Ab), ('a', A), ('5', Bb), ('b', B), ('c', C), ('6', Db), ('d', D), ('7', Eb),
    ('e', E), ('f', F), ('8', Gb), ('9', G)]

/-- The mode dictionary of the specification. -/
def modeDictionary : List (Char × Mode) :=
  [('0', Ionian), ('1', Dorian), ('2', Phrygian), ('3', Lydian), ('4', Mixolydian),
    ('5', Aeolian), ('6', Locrian)]

/-- The symbols of the mode dictionary, '0' to '6'. -/
def modeDigits : List Char :=
  modeDictionary.map Prod.fst

/-- The symbols of the scale dictionary. -/
def scaleSymbols : List Char :=
  scaleDictionary.map Prod.fst

/-- Two hashes of equal length that differ only at positions where both
characters lie outside `dict`. -/
def DifferOnlyOutside (dict : List Char) (h1 h2 : List Char) : Prop :=
  List.Forall₂ (fun a b => a = b ∨ (a ∉ dict ∧ b ∉ dict)) h1 h2

/-- The rank index of a symbol: its position in the ranking. -/
def rankIndex (ranked : List Classifier) (c : Char) : Nat :=
  (ranked.map Classifier.char).indexOf c

/-- The pitch the specification gives a rank index: the degree function of
its table, and 0 for the ranks the table leaves out. -/
def degreeOfRank (m : Melody) (k : Nat) : Int :=
  if k ∈ [0, 10] then m.Quinte
  else if k ∈ [1, 7, 11] then m.Third
  else if k ∈ [2, 9] then m.Tonic
  else if k ∈ [3, 8] then m.Seventh
  else if k = 4 then m.Quarte
  else if k ∈ [5, 12] then m.Second
  else if k ∈ [6, 15] then m.Sixte
  else 0

/-- The closed set of duration classes of the specification. -/
def durationClasses : List NoteDuration :=
  [Minim, CrochtetDot, Crochtet, Quaver, Semiquaver]

/-- The duration class the specification maps from a digit '0' to '6'. -/
def durationDictionary : List (Char × NoteDuration) :=
  [('0', Minim), ('1', CrochtetDot), ('2', Crochtet), ('3', Quaver), ('4', Quaver),
    ('5', Semiquaver), ('6', Semiquaver)]

/-- The voice `j` (0, 1, 2) of the chord on the degree of index `k`, as the
claim words it: the degree function of index k + 2j modulo 7, velocity 100, the
given duration, register 3, or 4 when k + 2j passes the seventh degree. -/
def chordVoice (m : Melody) (k : Nat) (duration : NoteDuration) (j : Nat) : Note :=
  { Note := (degrees m).getD ((k + 2 * j) % 7) 0, Velocity := 100, Duration := duration,
    Tone := if k + 2 * j < 7 then 3 else 4 }

/-- The cases of the `switch` that picks the degree of a measure, in the order
of the source. -/
def degreeCases (m : Melody) : List (Int × Degree) :=
  [(m.Second, II), (m.Third, III), (m.Quarte, IV), (m.Quinte, V), (m.Sixte, VI),
    (m.Seventh, VII)]

/-- The degree a `switch` picks when it tries `cases` in their order: that of
the first case equal to the pitch, I when there is none. -/
def firstCase (cases : List (Int × Degree)) (pitch : Int) : Degree :=
  (cases.lookup pitch).getD I

/-- An entry of the fixed pattern table of the specification: `C(x)`, a chord
of duration x, or `-(x)`, a silence of duration x. -/
inductive Fill where
  | chord (x : NoteDuration)
  | silence (x : NoteDuration)
deriving DecidableEq, Repr

/-- The call that performs an entry of the pattern table on the degree `d`. -/
def Fill.toAction (d : Degree) : Fill → Action
  | .chord x => .buildChord d x
  | .silence x => .silence x

namespace PatternTable

def Q : NoteDuration := Quaver
def S : NoteDuration := Semiquaver
def Cr : NoteDuration := Crochtet
def Cd : NoteDuration := CrochtetDot
def M : NoteDuration := Minim

/-- The chord `C(x)` of the table. -/
def c (x : NoteDuration) : Fill := Fill.chord x

/-- The silence `-(x)` of the table. -/
def r (x : NoteDuration) : Fill := Fill.silence x

/-- Minim runs of length 1 to 3. -/
def minimRuns : List (List Fill) :=
  [[r Q, c Cr, r Q],
    [c M, r Cr, c Cr],
    [c M, r M, c Cr, c Cr]]

/-- CrochtetDot runs of length 2 to 5. -/
def crochtetDotRuns : List (List Fill) :=
  [[r Cd, c Cr, r Q],
    [c Cd, c Q, r Cr, c Cd],
    [r Q, c Cd, r Cd, c Cr],
    [c Cd, c Cd, r Cd, c Cd, r Cd]]

/-- Crochtet runs of length 2 to 5. -/
def crochtetRuns : List (List Fill) :=
  [[c M],
    [r Q, c Cr, r Q, c Cr],
    [c M, r Cr, c Cr],
    [c M, r Cr, c Cr, r Cr]]

/-- Quaver runs of length 1 to 10. -/
def quaverRuns : List (List Fill) :=
  [[r Q],
    [r Q, c Q],
    [c Cd],
    [r Cr, c Cd],
    [r Q, c M],
    [c Cr, r Q, c Cr, r Q],
    [c M, r Cr, c Cr],
    [c M, r Cr, c Cd],
    [r Q, c Cr, r Q, c Cr, c M],
    [c M, r Q, c Cr, r Q, c Cr, r Q, c Q]]

/-- Semiquaver runs of length 1 to 20. -/
def semiquaverRuns : List (List Fill) :=
  [[r S],
    [r Q],
    [r Q, c S],
    [c Cr],
    [r S, c Cr],
    [r Cr, c Q],
    [r Cr, r S, c Q],
    [c Cr, c Cr],
    [c Cr, r S, c Cr],
    [r Q, c M],
    [c M, r S, c Q],
    [c M, r Cr],
    [c M, r S, c Cr],
    [r Q, c Q, c Q, c M],
    [r Q, c Q, r S, c Q, c M],
    [r Q, c M, r Q, c Cr],
    [r Q, c M, r Q, r S, c Cr],
    [c M, r Q, c Cr, r Q, c Q],
    [r S, c M, r Q, c Cr, r Q, c Q],
    [c M, r Q, c Cr, r Q, c Cr]]

end PatternTable

/-- The entry of the fixed pattern table of the specification for a run of
`count` notes of a duration class: the listed sequence, `count` chords of
CrochtetDot or one chord of Crochtet for the other lengths of these two
classes, and nothing for the lengths the table does not list. -/
def specPattern (duration : NoteDuration) (count : Nat) : List Fill :=
  if duration = Minim then
    if 1 ≤ count ∧ count ≤ 3 then PatternTable.minimRuns.getD (count - 1) [] else []
  else if duration = CrochtetDot then
    if 2 ≤ count ∧ count ≤ 5 then PatternTable.crochtetDotRuns.getD (count - 2) []
    else List.replicate count (Fill.chord CrochtetDot)
  else if duration = Crochtet then
    if 2 ≤ count ∧ count ≤ 5 then PatternTable.crochtetRuns.getD (count - 2) []
    else [Fill.chord Crochtet]
  else if duration = Quaver then
    if 1 ≤ count ∧ count ≤ 10 then PatternTable.quaverRuns.getD (count - 1) [] else []
  else if duration = Semiquaver then
    if 1 ≤ count ∧ count ≤ 20 then PatternTable.semiquaverRuns.getD (count - 1) [] else []
  else []

/-- The length of the maximal run at the head of `notes`: the longest prefix
of notes of the duration `duration` none of which is a Rest. -/
def runLength (notes : List Note) (duration : NoteDuration) : Nat :=
  (notes.takeWhile (fun n => decide (n.Duration = duration ∧ n.Note ≠ Rest))).length

/-- The note `n` goes on the run of the note before it: that note is not a
Rest and has the duration of `n`. -/
def continuesRun (prev : Option Note) (n : Note) : Prop :=
  ∃ p, prev = some p ∧ p.Note ≠ Rest ∧ p.Duration = n.Duration

instance (prev : Option Note) (n : Note) : Decidable (continuesRun prev n) :=
  match prev with
  | none => isFalse (fun ⟨_, h, _⟩ => by cases h)
  | some p =>
    if h : p.Note ≠ Rest ∧ p.Duration = n.Duration then isTrue ⟨p, rfl, h⟩
    else isFalse (fun ⟨q, hq, hr⟩ => by cases hq; exact h hr)

/-- The calls of a pass over a phrase as the claim words them, note by note,
`prev` being the note before: a Rest gives its own call, the first note of a
run gives the calls of the run, of its duration and its length, and the other
notes of a run give nothing. -/
def expectedCalls (d : Degree) : Option Note → List Note → List Action
  | _, [] => []
  | prev, n :: rest =>
    (if n.Note = Rest then
        (if n.Duration = Quaver then [Action.buildChord d Quaver] else [Action.play n])
      else if continuesRun prev n then []
      else runActions d n.Duration (runLength (n :: rest) n.Duration)) ++
      expectedCalls d (some n) rest

/-- The counters agree with the note before: the counter of a duration class
is set exactly when the note before is not a Rest and has that duration. -/
def CountersFollow (cs : Counters) (prev : Option Note) : Prop :=
  ∀ d ∈ durationClasses,
    (0 < cs.ofDuration d ↔ ∃ p, prev = some p ∧ p.Note ≠ Rest ∧ p.Duration = d)

/-- The length of a duration class in quarter-note beats, as the
specification gives it: Minim 2, CrochtetDot 1.5, Crochtet 1, Quaver 0.5,
Semiquaver 0.25; 0 for a value that is no duration class. -/
def beats (d : NoteDuration) : ℚ :=
  if d = Minim then 2
  else if d = CrochtetDot then 1.5
  else if d = Crochtet then 1
  else if d = Quaver then 0.5
  else if d = Semiquaver then 0.25
  else 0

/-- The rest the groove inserts: an eighth-note rest. -/
def quaverRest : Note :=
  { Note := Rest, Velocity := 100, Duration := Quaver, Tone := 5 }

/-- The duration class of the last character '0' to '6' of `xs`, and `init`
when `xs` has none. -/
def lastDuration (init : NoteDuration) (xs : List Char) : NoteDuration :=
  (xs.reverse.findSome? (fun c => durationDictionary.lookup c)).getD init

/-- The duration of the note of index `i` as the specification words it, from
the trimmed hash `t`: the class of the first character '0' to '6' after index
`i`; when there is none, the class of the last character '0' to '6' at an index
1 or more; when there is none either, the unset value 0. -/
def specDuration (t : List Char) (i : Nat) : NoteDuration :=
  ((t.drop (i + 1)).findSome? (fun c => durationDictionary.lookup c)).getD
    (lastDuration 0 (t.drop 1))

/-- The phrase state before the note of the first rune of `l` agrees with the
runes read so far, `cur` being the class of the last duration digit read (the
first rune of `l` included): either the phrase is over and its duration is
`cur`; or the phrase has `pre.length` notes left, up to the next duration digit
`d`, whose class is its duration; or no duration digit is left in `l` and the
duration is `cur`. -/
def PhraseFollows (st : PhraseState) (l : List Char) (cur : NoteDuration) : Prop :=
  (st.notePerPhrase = 0 ∧ st.noteDurationForPhrase = cur) ∨
  (∃ pre d post dv, l = pre ++ d :: post ∧ pre ≠ [] ∧
      st.notePerPhrase = (pre.length : Int) ∧
      (∀ x ∈ pre, durationDictionary.lookup x = none) ∧
      durationDictionary.lookup d = some dv ∧ st.noteDurationForPhrase = dv) ∨
  ((∀ x ∈ l, durationDictionary.lookup x = none) ∧ st.noteDurationForPhrase = cur)

/-- A hash of 254 characters: 253 times 'c', then '0'. It has no leading '0',
and its only duration digit is its last character. -/
def minimHash : String :=
  ⟨List.replicate 253 'c' ++ ['0']⟩

/-- The interval vectors of the seven modes. -/
def intervalVectors : List (List Int) :=
  [Ionian, Dorian, Phrygian, Lydian, Mixolydian, Aeolian, Locrian].map modeIntervals

/-- The length of a call of `BuildHarmony` in quarter-note beats: that of the
duration of the chord, of the silence or of the note played. -/
def Action.beats : Action → ℚ
  | .buildChord _ duration => Dubdutduc.beats duration
  | .silence duration => Dubdutduc.beats duration
  | .play n => Dubdutduc.beats n.Duration

/-- The total duration of a sequence of calls, in quarter-note beats. -/
def totalBeats (calls : List Action) : ℚ :=
  (calls.map Action.beats).sum

/-- The runs whose calls do not last as long as their notes: 4 notes of
CrochtetDot, 6 or more of Crochtet, and 4, 7, 8, 9 or 10 of Quaver. -/
def UnevenRun (duration : NoteDuration) (count : Nat) : Prop :=
  (duration = CrochtetDot ∧ count = 4) ∨ (duration = Crochtet ∧ 6 ≤ count) ∨
    (duration = Quaver ∧ count ∈ [4, 7, 8, 9, 10])

/-! ## Lemmas on strings -/

theorem len_TrimLeft_le (s cutset : List Char) : len (TrimLeft s cutset) ≤ len s := by
  induction s with
  | nil => simp [TrimLeft]
  | cons c s ih =>
    unfold TrimLeft at ih ⊢
    rw [List.dropWhile_cons]
    split
    · exact le_trans ih (by simp [len])
    · exact le_refl _

theorem len_sub_len_TrimLeft_zero (s : List Char) :
    len s - len (TrimLeft s ['0']) = (s.takeWhile (fun c => c == '0')).length := by
  induction s with
  | nil => simp [TrimLeft, len]
  | cons c s ih =>
    by_cases hc : c = '0'
    · subst hc
      have hle := len_TrimLeft_le s ['0']
      have h1 : TrimLeft ('0' :: s) ['0'] = TrimLeft s ['0'] := by
        simp [TrimLeft, List.dropWhile_cons]
      have h2 : len ('0' :: s) = 1 + len s := by
        simp [len]
        rfl
      rw [h1, h2]
      simp [List.takeWhile_cons]
      omega
    · have h1 : TrimLeft (c :: s) ['0'] = c :: s := by
        simp [TrimLeft, List.dropWhile_cons, hc]
      rw [h1]
      simp [List.takeWhile_cons, hc]

/-! ## Time signature: theorems -/

/-- C1: for every hash string, `NewTimeSignature` returns
Numerator = (z mod 3) + 2 and Denominator = 4, where z is the number of leading
'0' characters of the untrimmed hash. -/
theorem C1_time_signature_formula (hash : String) :
    (NewTimeSignature hash).Numerator = leadingZeros hash % 3 + 2 ∧
      (NewTimeSignature hash).Denominator = 4 := by
  refine ⟨?_, rfl⟩
  show ((len hash.data - len (TrimLeft hash.data ['0'])) % 3 + 2) % 256 = _
  rw [len_sub_len_TrimLeft_zero]
  unfold leadingZeros
  omega

/-- C2 (the code at the fixtures of `TestTimeSignature`): the two fixtures
with one and two leading zeros give 3/4 and 4/4 as the test wants, but
"000123" gives 2/4 where the test wants 5/4, and "0000123" gives 3/4 where the
test wants 2/4. -/
theorem C2_time_signature_fixtures :
    NewTimeSignature "0123" = { Numerator := 3, Denominator := 4 } ∧
      NewTimeSignature "00123" = { Numerator := 4, Denominator := 4 } ∧
      NewTimeSignature "000123" = { Numerator := 2, Denominator := 4 } ∧
      NewTimeSignature "000123" ≠ { Numerator := 5, Denominator := 4 } ∧
      NewTimeSignature "0000123" = { Numerator := 3, Denominator := 4 } ∧
      NewTimeSignature "0000123" ≠ { Numerator := 2, Denominator := 4 } := by
  decide

/-! ## Arithmetic of `int32` -/

theorem wrapInt32_eq_self (x : Int) (hlo : -2147483648 ≤ x) (hhi : x ≤ 2147483647) :
    wrapInt32 x = x := by
  unfold wrapInt32
  omega

/-! ## Scale degrees: theorems -/

/-- C3: for every scale s (any `int32` value that leaves room for the largest
interval) and each of the seven modes, the seven degree functions return s plus
the interval vector of the mode, not reduced modulo 12; and each mode on its
white-key tonic yields only natural notes modulo 12. -/
theorem C3_degrees_are_scale_plus_intervals (m : Melody)
    (hlo : -2147483648 ≤ m.Scale) (hhi : m.Scale ≤ 2147483636) (hmode : m.Mode ≤ Locrian) :
    degrees m = (modeIntervals m.Mode).map (fun k => m.Scale + k) ∧
      ((m.Scale, m.Mode) ∈ whiteKeyModes → ∀ d ∈ degrees m, d % 12 ∈ naturalNotes) := by
  obtain ⟨notes, scale, mode, ts, measures, phrases⟩ := m
  simp only [Locrian] at hmode hlo hhi
  have w : ∀ k : Int, 0 ≤ k → k ≤ 11 → wrapInt32 (scale + k) = scale + k := fun k h0 h1 =>
    wrapInt32_eq_self _ (by omega) (by omega)
  constructor
  · interval_cases mode <;>
      simp [degrees, modeIntervals, Melody.Tonic, Melody.Second, Melody.Third, Melody.Quarte,
        Melody.Quinte, Melody.Sixte, Melody.Seventh, Ionian, Dorian, Phrygian, Lydian,
        Mixolydian, Aeolian, Locrian, w]
  · intro hw
    have hd : degrees (Melody.mk notes scale mode ts measures phrases) =
        (modeIntervals mode).map (fun k => scale + k) := by
      interval_cases mode <;>
        simp [degrees, modeIntervals, Melody.Tonic, Melody.Second, Melody.Third, Melody.Quarte,
          Melody.Quinte, Melody.Sixte, Melody.Seventh, Ionian, Dorian, Phrygian, Lydian,
          Mixolydian, Aeolian, Locrian, w]
    rw [hd]
    simp only [whiteKeyModes, List.mem_cons, Prod.mk.injEq, List.mem_nil_iff, or_false] at hw
    rcases hw with h | h | h | h | h | h | h <;> obtain ⟨h1, h2⟩ := h <;> subst h1 <;>
      subst h2 <;> decide

/-- C3, at a concrete melody: D Dorian. -/
theorem C3_degrees_witness :
    degrees (Melody.mk [] D Dorian (TimeSignature.mk 4 4) 0 []) = [2, 4, 5, 7, 9, 11, 12] ∧
      ∀ d ∈ degrees (Melody.mk [] D Dorian (TimeSignature.mk 4 4) 0 []), d % 12 ∈ naturalNotes :=
  ⟨(C3_degrees_are_scale_plus_intervals (Melody.mk [] D Dorian (TimeSignature.mk 4 4) 0 [])
      (by decide) (by decide) (by decide)).1.trans (by decide),
    (C3_degrees_are_scale_plus_intervals (Melody.mk [] D Dorian (TimeSignature.mk 4 4) 0 [])
      (by decide) (by decide) (by decide)).2 (by decide)⟩

/-! ## The sorts meet the contract -/

theorem less_eq_false_iff (x y : Classifier) : less y x = false ↔ countGe x y := by
  simp [less, countGe]

theorem pairwise_less_of_sorted {l : List Classifier} (h : l.Sorted countGe) :
    l.Pairwise (fun x y => less y x = false) :=
  List.Pairwise.imp (fun {x y} hxy => (less_eq_false_iff x y).2 hxy) h

theorem stableSort_sorts : SliceSorts stableSort := fun l =>
  ⟨List.perm_insertionSort countGe l, pairwise_less_of_sorted (List.sorted_insertionSort countGe l)⟩

theorem presortedOrReverseSort_sorts : SliceSorts presortedOrReverseSort := by
  intro l
  unfold presortedOrReverseSort
  split
  · next h => exact ⟨List.Perm.refl l, pairwise_less_of_sorted h⟩
  · exact ⟨(List.perm_insertionSort countGe l.reverse).trans (List.reverse_perm l),
      pairwise_less_of_sorted (List.sorted_insertionSort countGe l.reverse)⟩

/-! ## The ranking -/

theorem map_char_classify (t : List Char) : (classify t).map Classifier.char = runes := by
  simp [classify, Function.comp_def]

theorem count_of_mem_classify {t : List Char} {c : Classifier} (h : c ∈ classify t) :
    c.count = t.count c.char := by
  simp only [classify, List.mem_map] at h
  obtain ⟨r, _, rfl⟩ := h
  rfl

theorem ranking_perm {sortSlice : List Classifier → List Classifier} (hs : SliceSorts sortSlice)
    (hash : String) : (ranking sortSlice hash).Perm (classify (TrimLeft hash.data ['0'])) :=
  (hs _).1

theorem ranking_sorted {sortSlice : List Classifier → List Classifier}
    (hs : SliceSorts sortSlice) (hash : String) :
    (ranking sortSlice hash).Pairwise (fun x y => x.count ≥ y.count) :=
  List.Pairwise.imp (fun {x y} hxy => (less_eq_false_iff x y).1 hxy) (hs _).2

/-- Insertion into a list ranked in the specification's order keeps that order
when the new element comes before the others in the scan order. -/
theorem orderedInsert_rankedBefore (a : Classifier) :
    ∀ l : List Classifier, l.Pairwise RankedBefore →
      (∀ b ∈ l, runes.indexOf a.char < runes.indexOf b.char) →
      (l.orderedInsert countGe a).Pairwise RankedBefore
  | [], _, _ => by simp
  | b :: t, hl, ha => by
    rw [List.pairwise_cons] at hl
    rw [List.orderedInsert]
    split
    · next hab =>
      refine List.Pairwise.cons ?_ (List.Pairwise.cons hl.1 hl.2)
      intro x hx
      have hbx : x.count ≤ b.count := by
        rcases List.mem_cons.1 hx with rfl | hxt
        · exact le_refl _
        · rcases hl.1 x hxt with h | h
          · exact le_of_lt h
          · exact le_of_eq h.1.symm
      have hax : x.count ≤ a.count := le_trans hbx hab
      rcases Nat.lt_or_ge x.count a.count with h | h
      · exact Or.inl h
      · exact Or.inr ⟨le_antisymm h hax, ha x hx⟩
    · next hab =>
      have hba : a.count < b.count := Nat.lt_of_not_ge hab
      refine List.Pairwise.cons ?_
        (orderedInsert_rankedBefore a t hl.2 (fun x hx => ha x (List.mem_cons_of_mem _ hx)))
      intro x hx
      rcases (List.mem_orderedInsert countGe).1 hx with rfl | hxt
      · exact Or.inl hba
      · exact hl.1 x hxt

theorem insertionSort_rankedBefore :
    ∀ l : List Classifier,
      l.Pairwise (fun x y => runes.indexOf x.char < runes.indexOf y.char) →
      (l.insertionSort countGe).Pairwise RankedBefore
  | [], _ => by simp
  | a :: t, hl => by
    rw [List.pairwise_cons] at hl
    rw [List.insertionSort]
    refine orderedInsert_rankedBefore a _ (insertionSort_rankedBefore t hl.2) ?_
    intro b hb
    exact hl.1 b ((List.mem_insertionSort countGe).1 hb)

/-- The specification's ranking is a rearrangement of the scan-order list in
descending order of count, equal counts in scan order. -/
theorem stableRanking_spec (hash : String) :
    (stableRanking hash).Perm (classify (TrimLeft hash.data ['0'])) ∧
      (stableRanking hash).Pairwise RankedBefore := by
  refine ⟨List.perm_insertionSort countGe _, insertionSort_rankedBefore _ ?_⟩
  have h : ((classify (TrimLeft hash.data ['0'])).map Classifier.char).Pairwise
      (fun x y => runes.indexOf x < runes.indexOf y) := by
    rw [map_char_classify]
    decide
  exact (List.pairwise_map (f := Classifier.char)).1 h

/-- C4, as stated, fails: with a sort that meets the contract of `sort.Slice`,
the ranking of "9944" starts with '9' then '4', both of count 2, while '4'
comes before '9' in the scan order; the ranking is not the stable sort. -/
theorem C4_counterexample_ties_not_in_scan_order :
    SliceSorts presortedOrReverseSort ∧
      (ranking presortedOrReverseSort "9944").take 2 = [⟨'9', 2⟩, ⟨'4', 2⟩] ∧
      runes.indexOf '4' < runes.indexOf '9' ∧
      ¬ (ranking presortedOrReverseSort "9944").Pairwise RankedBefore ∧
      ranking presortedOrReverseSort "9944" ≠ stableRanking "9944" :=
  ⟨presortedOrReverseSort_sorts, by decide, by decide, by decide, by decide⟩

/-- C4, amended: for every hash and every sort that meets the contract of
`sort.Slice`, the ranking is a rearrangement of the 16 scan-order classifiers,
its symbols are the 16 symbols, each with its number of occurrences in the
trimmed hash, and the counts descend; the order among equal counts is not
fixed. -/
theorem C4_ranking_is_descending_permutation (sortSlice : List Classifier → List Classifier)
    (hs : SliceSorts sortSlice) (hash : String) :
    (ranking sortSlice hash).Perm (classify (TrimLeft hash.data ['0'])) ∧
      ((ranking sortSlice hash).map Classifier.char).Perm runes ∧
      (∀ c ∈ ranking sortSlice hash, c.count = (TrimLeft hash.data ['0']).count c.char) ∧
      (ranking sortSlice hash).Pairwise (fun x y => x.count ≥ y.count) := by
  refine ⟨ranking_perm hs hash, ?_, ?_, ranking_sorted hs hash⟩
  · rw [← map_char_classify (TrimLeft hash.data ['0'])]
    exact (ranking_perm hs hash).map _
  · intro c hc
    exact count_of_mem_classify ((ranking_perm hs hash).mem_iff.1 hc)

/-- C4 amended, at the hash "9944" with the unstable sort. -/
theorem C4_ranking_witness :
    (ranking presortedOrReverseSort "9944").Perm (classify ['9', '9', '4', '4']) ∧
      (ranking presortedOrReverseSort "9944").Pairwise (fun x y => x.count ≥ y.count) :=
  ⟨(C4_ranking_is_descending_permutation presortedOrReverseSort presortedOrReverseSort_sorts
      "9944").1,
    (C4_ranking_is_descending_permutation presortedOrReverseSort presortedOrReverseSort_sorts
      "9944").2.2.2⟩

/-! ## Scale and mode selection -/

theorem lookup_cons_ne {β : Type} {a k : Char} {b : β} {es : List (Char × β)} (h : ¬ a = k) :
    List.lookup a ((k, b) :: es) = List.lookup a es := by
  have hf : (a == k) = false := by simpa using h
  rw [List.lookup, hf]

theorem loopScale_cons (c : Classifier) (rest : List Classifier) :
    loopScale (c :: rest) = (scaleDictionary.lookup c.char).getD (loopScale rest) := by
  rw [loopScale]
  split
  case h_13 h1 h2 h3 h4 h5 h6 h7 h8 h9 h10 h11 h12 =>
    rw [scaleDictionary, lookup_cons_ne h1, lookup_cons_ne h2, lookup_cons_ne h3,
      lookup_cons_ne h4, lookup_cons_ne h5, lookup_cons_ne h6, lookup_cons_ne h7,
      lookup_cons_ne h8, lookup_cons_ne h9, lookup_cons_ne h10, lookup_cons_ne h11,
      lookup_cons_ne h12]
    rfl
  all_goals simp_all [scaleDictionary, List.lookup]

theorem loopMode_cons (c : Classifier) (rest : List Classifier) :
    loopMode (c :: rest) = (modeDictionary.lookup c.char).getD (loopMode rest) := by
  rw [loopMode]
  split
  case h_8 h1 h2 h3 h4 h5 h6 h7 =>
    rw [modeDictionary, lookup_cons_ne h1, lookup_cons_ne h2, lookup_cons_ne h3,
      lookup_cons_ne h4, lookup_cons_ne h5, lookup_cons_ne h6, lookup_cons_ne h7]
    rfl
  all_goals simp_all [modeDictionary, List.lookup]

theorem loopScale_eq_findSome (l : List Classifier) :
    loopScale l = (l.findSome? (fun c => scaleDictionary.lookup c.char)).getD C := by
  induction l with
  | nil => rfl
  | cons c rest ih =>
    rw [loopScale_cons, List.findSome?_cons, ih]
    cases scaleDictionary.lookup c.char <;> rfl

theorem loopMode_eq_findSome (l : List Classifier) :
    loopMode l = (l.findSome? (fun c => modeDictionary.lookup c.char)).getD Ionian := by
  induction l with
  | nil => rfl
  | cons c rest ih =>
    rw [loopMode_cons, List.findSome?_cons, ih]
    cases modeDictionary.lookup c.char <;> rfl

theorem NewMelody_Scale (sortSlice : List Classifier → List Classifier) (hash : String) :
    (NewMelody sortSlice hash).Scale = loopScale (ranking sortSlice hash) :=
  rfl

theorem NewMelody_Mode (sortSlice : List Classifier → List Classifier) (hash : String) :
    (NewMelody sortSlice hash).Mode = loopMode (ranking sortSlice hash) :=
  rfl

/-- C5: for every hash (and whatever the sort returns), `NewMelody` sets Scale
to the pitch the scale dictionary maps from the first symbol of the ranking, in
ranked order, that belongs to the scale dictionary (C when there is none), and
independently sets Mode to the mode the mode dictionary maps from the first
symbol of the ranking that belongs to the mode dictionary (Ionian when there is
none). -/
theorem C5_scale_and_mode_from_first_ranked (sortSlice : List Classifier → List Classifier)
    (hash : String) :
    (NewMelody sortSlice hash).Scale =
        ((ranking sortSlice hash).findSome? (fun c => scaleDictionary.lookup c.char)).getD C ∧
      (NewMelody sortSlice hash).Mode =
        ((ranking sortSlice hash).findSome? (fun c => modeDictionary.lookup c.char)).getD
          Ionian :=
  ⟨loopScale_eq_findSome _, loopMode_eq_findSome _⟩

/-! ## Dominant symbols -/

theorem mem_keys_of_lookup {β : Type} {a : Char} {b : β} :
    ∀ {l : List (Char × β)}, List.lookup a l = some b → a ∈ l.map Prod.fst
  | [], h => by simp at h
  | (k, v) :: es, h => by
    by_cases hak : a = k
    · simp [hak]
    · rw [lookup_cons_ne hak] at h
      exact List.mem_cons_of_mem _ (mem_keys_of_lookup h)

theorem mem_runes_of_scale {x : Char} (h : (scaleDictionary.lookup x).isSome) : x ∈ runes := by
  obtain ⟨p, hp⟩ := Option.isSome_iff_exists.1 h
  have hk := mem_keys_of_lookup hp
  have hsub : ∀ k ∈ scaleDictionary.map Prod.fst, k ∈ runes := by decide
  exact hsub x hk

theorem mem_runes_of_mode {x : Char} (h : (modeDictionary.lookup x).isSome) : x ∈ runes := by
  obtain ⟨p, hp⟩ := Option.isSome_iff_exists.1 h
  have hk := mem_keys_of_lookup hp
  have hsub : ∀ k ∈ modeDictionary.map Prod.fst, k ∈ runes := by decide
  exact hsub x hk

theorem mem_classify_of_mem_runes {x : Char} (t : List Char) (h : x ∈ runes) :
    (⟨x, t.count x⟩ : Classifier) ∈ classify t :=
  List.mem_map.2 ⟨x, h, rfl⟩

/-- In a list in descending order of count, the first element that a
dictionary `f` knows is the element whose count is strictly above the counts of
the other elements `f` knows. -/
theorem findSome_of_dominant {β : Type} (f : Char → Option β) (c : Classifier) (p : β)
    (hf : f c.char = some p) :
    ∀ l : List Classifier, l.Pairwise (fun x y => x.count ≥ y.count) → c ∈ l →
      (∀ d ∈ l, (f d.char).isSome → d.char ≠ c.char → d.count < c.count) →
      l.findSome? (fun d => f d.char) = some p
  | [], _, hc, _ => by simp at hc
  | a :: t, hl, hc, hdom => by
    rw [List.pairwise_cons] at hl
    rw [List.findSome?_cons]
    cases hfa : f a.char with
    | some q =>
      by_cases hac : a.char = c.char
      · rw [hac, hf] at hfa
        simp [← hfa]
      · exfalso
        have hlt := hdom a (List.mem_cons_self _ _) (by simp [hfa]) hac
        have hct : c ∈ t := by
          rcases List.mem_cons.1 hc with h | h
          · exact absurd (congrArg Classifier.char h).symm hac
          · exact h
        have hge := hl.1 c hct
        omega
    | none =>
      have hct : c ∈ t := by
        rcases List.mem_cons.1 hc with h | h
        · rw [h, hfa] at hf
          simp at hf
        · exact h
      exact findSome_of_dominant f c p hf t hl.2 hct
        (fun d hd => hdom d (List.mem_cons_of_mem _ hd))

/-- The first symbol of the ranking that a dictionary knows, when one of its
symbols occurs strictly more often in the trimmed hash than its other
symbols. -/
theorem ranking_findSome_of_dominant {β : Type} (f : Char → Option β)
    {sortSlice : List Classifier → List Classifier} (hs : SliceSorts sortSlice) (hash : String)
    (x : Char) (p : β) (hx : f x = some p) (hxr : x ∈ runes)
    (hdom : ∀ y, y ≠ x → (f y).isSome →
      (TrimLeft hash.data ['0']).count y < (TrimLeft hash.data ['0']).count x) :
    (ranking sortSlice hash).findSome? (fun d => f d.char) = some p := by
  refine findSome_of_dominant f ⟨x, (TrimLeft hash.data ['0']).count x⟩ p hx _
    (ranking_sorted hs hash) ?_ ?_
  · exact (ranking_perm hs hash).mem_iff.2 (mem_classify_of_mem_runes _ hxr)
  · intro d hd hfd hne
    rw [count_of_mem_classify ((ranking_perm hs hash).mem_iff.1 hd)]
    exact hdom d.char hne hfd

theorem scale_of_dominant (sortSlice : List Classifier → List Classifier)
    (hs : SliceSorts sortSlice) (hash : String) (x : Char) (p : Int)
    (hx : scaleDictionary.lookup x = some p)
    (hdom : ∀ y, y ≠ x → (scaleDictionary.lookup y).isSome →
      (TrimLeft hash.data ['0']).count y < (TrimLeft hash.data ['0']).count x) :
    (NewMelody sortSlice hash).Scale = p := by
  rw [NewMelody_Scale, loopScale_eq_findSome,
    ranking_findSome_of_dominant (fun c => scaleDictionary.lookup c) hs hash x p hx
      (mem_runes_of_scale (by simp [hx])) hdom]
  rfl

theorem mode_of_dominant (sortSlice : List Classifier → List Classifier)
    (hs : SliceSorts sortSlice) (hash : String) (x : Char) (q : Mode)
    (hx : modeDictionary.lookup x = some q)
    (hdom : ∀ y, y ≠ x → (modeDictionary.lookup y).isSome →
      (TrimLeft hash.data ['0']).count y < (TrimLeft hash.data ['0']).count x) :
    (NewMelody sortSlice hash).Mode = q := by
  rw [NewMelody_Mode, loopMode_eq_findSome,
    ranking_findSome_of_dominant (fun c => modeDictionary.lookup c) hs hash x q hx
      (mem_runes_of_mode (by simp [hx])) hdom]
  rfl

theorem mem_keys_of_isSome {β : Type} {a : Char} {l : List (Char × β)}
    (h : (List.lookup a l).isSome) : a ∈ l.map Prod.fst := by
  obtain ⟨b, hb⟩ := Option.isSome_iff_exists.1 h
  exact mem_keys_of_lookup hb

theorem head_of_ranking_4455 {sortSlice : List Classifier → List Classifier}
    (hs : SliceSorts sortSlice) :
    ∃ t, ranking sortSlice "4455" = ⟨'4', 2⟩ :: t ∨ ranking sortSlice "4455" = ⟨'5', 2⟩ :: t := by
  have hperm := ranking_perm hs "4455"
  have hsorted := ranking_sorted hs "4455"
  have hmem : (⟨'4', 2⟩ : Classifier) ∈ ranking sortSlice "4455" :=
    hperm.mem_iff.2 (by decide)
  cases hl : ranking sortSlice "4455" with
  | nil => rw [hl] at hmem; simp at hmem
  | cons a t =>
    rw [hl] at hperm hsorted hmem
    rw [List.pairwise_cons] at hsorted
    have ha : a ∈ classify (TrimLeft ("4455" : String).data ['0']) :=
      hperm.mem_iff.1 (List.mem_cons_self _ _)
    have hcases : ∀ d ∈ classify (TrimLeft ("4455" : String).data ['0']), 2 ≤ d.count →
        d = ⟨'4', 2⟩ ∨ d = ⟨'5', 2⟩ := by decide
    have h2 : 2 ≤ a.count := by
      rcases List.mem_cons.1 hmem with h | h
      · rw [← h]
      · exact hsorted.1 _ h
    rcases hcases a ha h2 with h | h
    · exact ⟨t, Or.inl (by rw [h])⟩
    · exact ⟨t, Or.inr (by rw [h])⟩

/-! ## Scale and mode selection: theorems -/

/-- The symbols shared by the two dictionaries: for x = '4' and m = '5' no
order of the tied symbols gives both Scale = Ab and Mode = Aeolian on "4455",
since the first of '4' and '5' in the ranking gives both the scale and the
mode; and on "9944" a sort that keeps the scan order among ties gives
Scale = Ab, not G. -/
theorem shared_symbols_4455_and_9944 :
    (¬ ∃ sortSlice : List Classifier → List Classifier, SliceSorts sortSlice ∧
        (NewMelody sortSlice "4455").Scale = Ab ∧ (NewMelody sortSlice "4455").Mode = Aeolian) ∧
      scaleDictionary.lookup '4' = some Ab ∧ modeDictionary.lookup '5' = some Aeolian ∧
      SliceSorts stableSort ∧ (NewMelody stableSort "9944").Scale = Ab ∧
      scaleDictionary.lookup '9' = some G := by
  refine ⟨?_, by decide, by decide, stableSort_sorts, by decide, by decide⟩
  rintro ⟨sortSlice, hs, hscale, hmode⟩
  rw [NewMelody_Scale] at hscale
  rw [NewMelody_Mode] at hmode
  obtain ⟨t, h | h⟩ := head_of_ranking_4455 hs
  · have hl : modeDictionary.lookup (⟨'4', 2⟩ : Classifier).char = some Mixolydian := by decide
    rw [h, loopMode_cons, hl, Option.getD_some] at hmode
    exact absurd hmode (by decide)
  · have hl : scaleDictionary.lookup (⟨'5', 2⟩ : Classifier).char = some Bb := by decide
    rw [h, loopScale_cons, hl, Option.getD_some] at hscale
    exact absurd hscale (by decide)

/-- Where the two symbols belong to one dictionary each: for every
scale-dictionary symbol x and mode digit m with x ≠ m, and every sort that
meets the contract of `sort.Slice`, the hash made of x twice followed by m
twice yields Scale = the pitch of x when m is not itself a scale-dictionary
symbol, and Mode = the mode of m when x is not itself a mode digit. -/
theorem doubled_symbols_select (sortSlice : List Classifier → List Classifier)
    (hs : SliceSorts sortSlice) (x m : Char) (p : Int) (q : Mode)
    (hx : scaleDictionary.lookup x = some p) (hm : modeDictionary.lookup m = some q)
    (hxm : x ≠ m) :
    (scaleDictionary.lookup m = none →
        (NewMelody sortSlice (String.mk [x, x, m, m])).Scale = p) ∧
      (modeDictionary.lookup x = none →
        (NewMelody sortSlice (String.mk [x, x, m, m])).Mode = q) := by
  have hx0 : x ≠ '0' := by
    rintro rfl
    have h0 : scaleDictionary.lookup '0' = none := by decide
    rw [h0] at hx
    cases hx
  have hmx : m ≠ x := fun h => hxm h.symm
  have htrim : TrimLeft (String.mk [x, x, m, m]).data ['0'] = [x, x, m, m] := by
    simp [TrimLeft, List.dropWhile_cons, hx0]
  constructor
  · intro hnone
    refine scale_of_dominant sortSlice hs _ x p hx ?_
    · intro y hy hsome
      have hym : y ≠ m := by
        rintro rfl
        rw [hnone] at hsome
        simp at hsome
      rw [htrim]
      simp [List.count_cons, hy, hym, hxm, Ne.symm hy, Ne.symm hym, hmx]
  · intro hnone
    refine mode_of_dominant sortSlice hs _ m q hm ?_
    · intro y hy hsome
      have hyx : y ≠ x := by
        rintro rfl
        rw [hnone] at hsome
        simp at hsome
      rw [htrim]
      simp [List.count_cons, hy, hyx, hxm, Ne.symm hy, Ne.symm hyx, hmx]

/-- The fixture "cc00": C Ionian, with the unstable sort. -/
theorem doubled_symbols_select_at_cc00 :
    (NewMelody presortedOrReverseSort "cc00").Scale = C ∧
      (NewMelody presortedOrReverseSort "cc00").Mode = Ionian :=
  ⟨(doubled_symbols_select presortedOrReverseSort presortedOrReverseSort_sorts 'c' '0' C Ionian
      (by decide) (by decide) (by decide)).1 (by decide),
    (doubled_symbols_select presortedOrReverseSort presortedOrReverseSort_sorts 'c' '0' C Ionian
      (by decide) (by decide) (by decide)).2 (by decide)⟩

/-- The ranking of "9944" starts with '4' or with '9', the two symbols of
count 2; the contract of `sort.Slice` does not say which. -/
theorem head_of_ranking_9944 {sortSlice : List Classifier → List Classifier}
    (hs : SliceSorts sortSlice) :
    (∃ t, ranking sortSlice "9944" = ⟨'4', 2⟩ :: t) ∨
      (∃ t, ranking sortSlice "9944" = ⟨'9', 2⟩ :: t) := by
  have hperm := ranking_perm hs "9944"
  have hsorted := ranking_sorted hs "9944"
  have hmem : (⟨'4', 2⟩ : Classifier) ∈ ranking sortSlice "9944" :=
    hperm.mem_iff.2 (by decide)
  cases hl : ranking sortSlice "9944" with
  | nil => rw [hl] at hmem; simp at hmem
  | cons a t =>
    rw [hl] at hperm hsorted hmem
    rw [List.pairwise_cons] at hsorted
    have ha : a ∈ classify (TrimLeft ("9944" : String).data ['0']) :=
      hperm.mem_iff.1 (List.mem_cons_self _ _)
    have hcases : ∀ d ∈ classify (TrimLeft ("9944" : String).data ['0']), 2 ≤ d.count →
        d = ⟨'4', 2⟩ ∨ d = ⟨'9', 2⟩ := by decide
    have h2 : 2 ≤ a.count := by
      rcases List.mem_cons.1 hmem with h | h
      · rw [← h]
      · exact hsorted.1 _ h
    rcases hcases a ha h2 with h | h
    · exact Or.inl ⟨t, by rw [h]⟩
    · exact Or.inr ⟨t, by rw [h]⟩

/-- C6 fails on the code at the fixture "9944" of `TestGMixolydianMode`. The
symbols '9' and '4' both have the count 2, and '4' is in the scale dictionary
(Ab) as well as in the mode dictionary: for every sort that meets the contract
of `sort.Slice` the mode is Mixolydian, and the ranking starts with '4' or with
'9'; the scale is Ab, not G, when it starts with '4', as it does when the sort
leaves the tied symbols in the scan order; it is G only when '9' comes first. -/
theorem C6_fixture_9944_follows_the_tie_order (sortSlice : List Classifier → List Classifier)
    (hs : SliceSorts sortSlice) :
    (NewMelody sortSlice "9944").Mode = Mixolydian ∧
      ((∃ t, ranking sortSlice "9944" = ⟨'4', 2⟩ :: t) ∨
        (∃ t, ranking sortSlice "9944" = ⟨'9', 2⟩ :: t)) ∧
      ((∃ t, ranking sortSlice "9944" = ⟨'4', 2⟩ :: t) →
        (NewMelody sortSlice "9944").Scale = Ab) ∧
      ((∃ t, ranking sortSlice "9944" = ⟨'9', 2⟩ :: t) →
        (NewMelody sortSlice "9944").Scale = G) ∧
      scaleDictionary.lookup '9' = some G ∧ modeDictionary.lookup '4' = some Mixolydian ∧
      (Ab : Int) ≠ G ∧ runes.indexOf '4' < runes.indexOf '9' ∧
      (stableRanking "9944").take 2 = [⟨'4', 2⟩, ⟨'9', 2⟩] := by
  refine ⟨?_, head_of_ranking_9944 hs, ?_, ?_, by decide, by decide, by decide, by decide,
    by decide⟩
  · refine mode_of_dominant sortSlice hs "9944" '4' Mixolydian (by decide) ?_
    intro y hy hsome
    have hkeys := mem_keys_of_isSome hsome
    have hall : ∀ z ∈ modeDictionary.map Prod.fst, z ≠ '4' →
        (TrimLeft ("9944" : String).data ['0']).count z <
          (TrimLeft ("9944" : String).data ['0']).count '4' := by decide
    exact hall y hkeys hy
  · rintro ⟨t, ht⟩
    rw [NewMelody_Scale, ht]
    rfl
  · rintro ⟨t, ht⟩
    rw [NewMelody_Scale, ht]
    rfl

/-- C6 at the fixture "9944" under the sort that keeps the scan order among
ties: Ab Mixolydian. -/
theorem C6_fixture_9944_witness :
    SliceSorts stableSort ∧ (NewMelody stableSort "9944").Scale = Ab ∧
      (NewMelody stableSort "9944").Mode = Mixolydian :=
  ⟨stableSort_sorts,
    (C6_fixture_9944_follows_the_tie_order stableSort stableSort_sorts).2.2.1
      ⟨(ranking stableSort "9944").tail, by decide⟩,
    (C6_fixture_9944_follows_the_tie_order stableSort stableSort_sorts).1⟩

/-- C7: for every hash and every sort that meets the contract of `sort.Slice`
(whatever order it gives to tied symbols): if one scale-dictionary symbol
occurs in the trimmed hash strictly more often than every other
scale-dictionary symbol, Scale is the pitch of that symbol, and if one mode
digit occurs strictly more often than every other mode digit, Mode is the mode
of that digit. -/
theorem C7_strictly_most_frequent_symbol_wins
    (sortSlice : List Classifier → List Classifier) (hs : SliceSorts sortSlice)
    (hash : String) :
    (∀ x p, scaleDictionary.lookup x = some p →
        (∀ y, y ≠ x → (scaleDictionary.lookup y).isSome →
          (TrimLeft hash.data ['0']).count y < (TrimLeft hash.data ['0']).count x) →
        (NewMelody sortSlice hash).Scale = p) ∧
      (∀ x q, modeDictionary.lookup x = some q →
        (∀ y, y ≠ x → (modeDictionary.lookup y).isSome →
          (TrimLeft hash.data ['0']).count y < (TrimLeft hash.data ['0']).count x) →
        (NewMelody sortSlice hash).Mode = q) :=
  ⟨fun x p hx hdom => scale_of_dominant sortSlice hs hash x p hx hdom,
    fun x q hx hdom => mode_of_dominant sortSlice hs hash x q hx hdom⟩

/-- C7, at the fixture "bbb66" with the unstable sort: B Locrian. -/
theorem C7_witness_bbb66 :
    (NewMelody presortedOrReverseSort "bbb66").Scale = B ∧
      (NewMelody presortedOrReverseSort "bbb66").Mode = Locrian :=
  ⟨(C7_strictly_most_frequent_symbol_wins presortedOrReverseSort presortedOrReverseSort_sorts
      "bbb66").1 'b' B (by decide)
      (fun y hy hsome =>
        (by decide : ∀ k ∈ scaleDictionary.map Prod.fst, k ≠ 'b' →
          (TrimLeft ("bbb66" : String).data ['0']).count k <
            (TrimLeft ("bbb66" : String).data ['0']).count 'b') y (mem_keys_of_isSome hsome) hy),
    (C7_strictly_most_frequent_symbol_wins presortedOrReverseSort presortedOrReverseSort_sorts
      "bbb66").2 '6' Locrian (by decide)
      (fun y hy hsome =>
        (by decide : ∀ k ∈ modeDictionary.map Prod.fst, k ≠ '6' →
          (TrimLeft ("bbb66" : String).data ['0']).count k <
            (TrimLeft ("bbb66" : String).data ['0']).count '6') y (mem_keys_of_isSome hsome) hy)⟩

/-- In a list in the order of the specification (descending count, scan order
among equal counts) where every scale symbol has the count 0, the first scale
symbol is 'a', the first symbol of the scan order. -/
theorem findSome_scale_of_scan_order :
    ∀ l : List Classifier, l.Pairwise RankedBefore → (⟨'a', 0⟩ : Classifier) ∈ l →
      (∀ c ∈ l, (scaleDictionary.lookup c.char).isSome → c.count = 0) →
      l.findSome? (fun c => scaleDictionary.lookup c.char) = some A
  | [], _, ha, _ => by simp at ha
  | x :: t, hl, ha, hzero => by
    rw [List.pairwise_cons] at hl
    rw [List.findSome?_cons]
    by_cases hx : x = ⟨'a', 0⟩
    · rw [hx]
      rfl
    · have hat : (⟨'a', 0⟩ : Classifier) ∈ t := by
        rcases List.mem_cons.1 ha with h | h
        · exact absurd h.symm hx
        · exact h
      have hbefore := hl.1 _ hat
      cases hfx : scaleDictionary.lookup x.char with
      | none =>
        exact findSome_scale_of_scan_order t hl.2 hat
          (fun c hc => hzero c (List.mem_cons_of_mem _ hc))
      | some q =>
        exfalso
        have h0 := hzero x (List.mem_cons_self _ _) (by rw [hfx]; rfl)
        have hidx : runes.indexOf 'a' = 0 := by decide
        unfold RankedBefore at hbefore
        simp only [hidx] at hbefore
        omega

/-- C8, as stated, fails: with a sort that keeps the scan order among ties, an
empty trimmed hash and the trimmed hash "123" hold no scale-dictionary symbol,
yet Scale is A, not C: the twelve scale symbols are in the ranking with count 0
and 'a' is the first of them. With the unstable sort "0123" gives G. -/
theorem C8_counterexample_scale_is_not_default :
    SliceSorts stableSort ∧
      (∀ c ∈ TrimLeft ("" : String).data ['0'], scaleDictionary.lookup c = none) ∧
      (NewMelody stableSort "").Scale = A ∧
      (∀ c ∈ TrimLeft ("0123" : String).data ['0'], scaleDictionary.lookup c = none) ∧
      (NewMelody stableSort "0123").Scale = A ∧ A ≠ C ∧
      SliceSorts presortedOrReverseSort ∧ (NewMelody presortedOrReverseSort "0123").Scale = G ∧
      G ≠ C :=
  ⟨stableSort_sorts, by decide, by decide, by decide, by decide, by decide,
    presortedOrReverseSort_sorts, by decide, by decide⟩

/-- C8, amended: for every hash whose trimmed form contains no symbol of the
scale dictionary, and every sort that meets the contract of `sort.Slice`, the
ranking still holds each of the twelve scale symbols, all with count 0, and
Scale is the pitch of the first of them in the ranking, which is A when the
ranking keeps the scan order among ties; the zero-value default is not what
selects it. -/
theorem C8_scale_without_scale_symbols (sortSlice : List Classifier → List Classifier)
    (hs : SliceSorts sortSlice) (hash : String)
    (hnone : ∀ c ∈ TrimLeft hash.data ['0'], scaleDictionary.lookup c = none) :
    (ranking sortSlice hash).findSome? (fun c => scaleDictionary.lookup c.char) =
        some (NewMelody sortSlice hash).Scale ∧
      (∀ c ∈ ranking sortSlice hash, (scaleDictionary.lookup c.char).isSome → c.count = 0) ∧
      (∀ x, (scaleDictionary.lookup x).isSome →
        (⟨x, 0⟩ : Classifier) ∈ ranking sortSlice hash) ∧
      ((ranking sortSlice hash).Pairwise RankedBefore →
        (NewMelody sortSlice hash).Scale = A) := by
  have hzero : ∀ x, (scaleDictionary.lookup x).isSome →
      (TrimLeft hash.data ['0']).count x = 0 := by
    intro x hx
    apply List.count_eq_zero_of_not_mem
    intro hmem
    rw [hnone x hmem] at hx
    simp at hx
  have hin : ∀ x, (scaleDictionary.lookup x).isSome →
      (⟨x, 0⟩ : Classifier) ∈ ranking sortSlice hash := by
    intro x hx
    have h := mem_classify_of_mem_runes (TrimLeft hash.data ['0']) (mem_runes_of_scale hx)
    rw [hzero x hx] at h
    exact (ranking_perm hs hash).mem_iff.2 h
  have hcount : ∀ c ∈ ranking sortSlice hash, (scaleDictionary.lookup c.char).isSome →
      c.count = 0 := by
    intro c hc hsome
    rw [count_of_mem_classify ((ranking_perm hs hash).mem_iff.1 hc)]
    exact hzero c.char hsome
  refine ⟨?_, hcount, hin, ?_⟩
  · rw [NewMelody_Scale, loopScale_eq_findSome]
    cases hfind : (ranking sortSlice hash).findSome? (fun c => scaleDictionary.lookup c.char) with
    | none =>
      rw [List.findSome?_eq_none_iff] at hfind
      have ha := hfind ⟨'a', 0⟩ (hin 'a' (by decide))
      revert ha
      decide
    | some p => rfl
  · intro hord
    rw [NewMelody_Scale, loopScale_eq_findSome,
      findSome_scale_of_scan_order _ hord (hin 'a' (by decide)) hcount]
    rfl

/-- C8 amended, at the hash "0123": with the unstable sort, and with the
stable sort, whose ranking keeps the scan order among ties and gives A. -/
theorem C8_scale_without_scale_symbols_witness :
    (ranking presortedOrReverseSort "0123").findSome? (fun c => scaleDictionary.lookup c.char) =
        some (NewMelody presortedOrReverseSort "0123").Scale ∧
      (ranking stableSort "0123").Pairwise RankedBefore ∧
      (NewMelody stableSort "0123").Scale = A :=
  ⟨(C8_scale_without_scale_symbols presortedOrReverseSort presortedOrReverseSort_sorts "0123"
      (by decide)).1,
    by decide,
    (C8_scale_without_scale_symbols stableSort stableSort_sorts "0123" (by decide)).2.2.2
      (by decide)⟩

/-! ## Independence of scale and mode -/

theorem count_eq_of_differOnlyOutside {dict : List Char} {d : Char} (hd : d ∈ dict) :
    ∀ {l1 l2 : List Char}, DifferOnlyOutside dict l1 l2 → l1.count d = l2.count d := by
  intro l1 l2 h
  induction h with
  | nil => rfl
  | @cons a b t1 t2 hab _ ih =>
    rw [List.count_cons, List.count_cons, ih]
    rcases hab with rfl | ⟨ha, hb⟩
    · rfl
    · have had : ¬ a = d := fun h => ha (h.symm ▸ hd)
      have hbd : ¬ b = d := fun h => hb (h.symm ▸ hd)
      simp [had, hbd]

theorem count_TrimLeft_of_ne_zero {d : Char} (hd : d ≠ '0') (l : List Char) :
    (TrimLeft l ['0']).count d = l.count d := by
  induction l with
  | nil => rfl
  | cons c t ih =>
    by_cases hc : c = '0'
    · subst hc
      have h1 : TrimLeft ('0' :: t) ['0'] = TrimLeft t ['0'] := by
        simp [TrimLeft, List.dropWhile_cons]
      rw [h1, ih, List.count_cons]
      simp [Ne.symm hd]
    · have h1 : TrimLeft (c :: t) ['0'] = c :: t := by
        simp [TrimLeft, List.dropWhile_cons, hc]
      rw [h1]

theorem differOnlyOutside_TrimLeft {dict : List Char} (h0 : '0' ∈ dict) :
    ∀ {l1 l2 : List Char}, DifferOnlyOutside dict l1 l2 →
      DifferOnlyOutside dict (TrimLeft l1 ['0']) (TrimLeft l2 ['0']) := by
  intro l1 l2 h
  induction h with
  | nil => exact List.Forall₂.nil
  | @cons a b t1 t2 hab ht ih =>
    by_cases ha : a = '0'
    · have hb : b = '0' := by
        rcases hab with h | ⟨hna, _⟩
        · rw [← h, ha]
        · exact absurd (ha ▸ h0) hna
      subst ha
      subst hb
      have h1 : ∀ t : List Char, TrimLeft ('0' :: t) ['0'] = TrimLeft t ['0'] := by
        intro t
        simp [TrimLeft, List.dropWhile_cons]
      rw [h1, h1]
      exact ih
    · have hb : b ≠ '0' := by
        rcases hab with h | ⟨_, hnb⟩
        · rw [← h]
          exact ha
        · exact fun h => hnb (h ▸ h0)
      have h1 : ∀ c : Char, c ≠ '0' → ∀ t : List Char, TrimLeft (c :: t) ['0'] = c :: t := by
        intro c hc t
        simp [TrimLeft, List.dropWhile_cons, hc]
      rw [h1 a ha, h1 b hb]
      exact List.Forall₂.cons hab ht

/-- C9, as stated, fails: with a sort that meets the contract of `sort.Slice`,
"a" and "9" differ only outside the mode dictionary and get the modes Ionian
and Locrian; "0" and "1" differ only outside the scale dictionary and get the
scales A and G. -/
theorem C9_counterexample_ties_follow_other_symbols :
    SliceSorts presortedOrReverseSort ∧
      DifferOnlyOutside modeDigits ("a" : String).data ("9" : String).data ∧
      (NewMelody presortedOrReverseSort "a").Mode = Ionian ∧
      (NewMelody presortedOrReverseSort "9").Mode = Locrian ∧
      DifferOnlyOutside scaleSymbols ("0" : String).data ("1" : String).data ∧
      (NewMelody presortedOrReverseSort "0").Scale = A ∧
      (NewMelody presortedOrReverseSort "1").Scale = G :=
  ⟨presortedOrReverseSort_sorts,
    List.Forall₂.cons (Or.inr ⟨by decide, by decide⟩) List.Forall₂.nil,
    by decide, by decide,
    List.Forall₂.cons (Or.inr ⟨by decide, by decide⟩) List.Forall₂.nil,
    by decide, by decide⟩

/-- C9, amended: for every sort that meets the contract of `sort.Slice` and
any two hashes of equal length that differ only at positions where both
characters lie outside the mode dictionary, every mode digit has the same count
in the two trimmed hashes, and when one mode digit occurs strictly more often
than every other mode digit both hashes get the mode of that digit; likewise
for the scale dictionary and Scale. -/
theorem C9_same_selection_when_one_symbol_leads
    (sortSlice : List Classifier → List Classifier) (hs : SliceSorts sortSlice)
    (h1 h2 : String) :
    (DifferOnlyOutside modeDigits h1.data h2.data →
        (∀ d ∈ modeDigits,
          (TrimLeft h1.data ['0']).count d = (TrimLeft h2.data ['0']).count d) ∧
        (∀ x q, modeDictionary.lookup x = some q →
          (∀ y, y ≠ x → (modeDictionary.lookup y).isSome →
            (TrimLeft h1.data ['0']).count y < (TrimLeft h1.data ['0']).count x) →
          (NewMelody sortSlice h1).Mode = q ∧ (NewMelody sortSlice h2).Mode = q)) ∧
      (DifferOnlyOutside scaleSymbols h1.data h2.data →
        (∀ d ∈ scaleSymbols,
          (TrimLeft h1.data ['0']).count d = (TrimLeft h2.data ['0']).count d) ∧
        (∀ x p, scaleDictionary.lookup x = some p →
          (∀ y, y ≠ x → (scaleDictionary.lookup y).isSome →
            (TrimLeft h1.data ['0']).count y < (TrimLeft h1.data ['0']).count x) →
          (NewMelody sortSlice h1).Scale = p ∧ (NewMelody sortSlice h2).Scale = p)) := by
  constructor
  · intro hdiff
    have hcount : ∀ d ∈ modeDigits,
        (TrimLeft h1.data ['0']).count d = (TrimLeft h2.data ['0']).count d :=
      fun d hd => count_eq_of_differOnlyOutside hd
        (differOnlyOutside_TrimLeft (by decide) hdiff)
    refine ⟨hcount, ?_⟩
    intro x q hx hdom
    have hxm : x ∈ modeDigits := mem_keys_of_lookup hx
    refine ⟨(mode_of_dominant sortSlice hs h1 x q hx hdom), mode_of_dominant sortSlice hs h2 x q hx ?_⟩
    intro y hy hsome
    rw [← hcount y (mem_keys_of_isSome hsome), ← hcount x hxm]
    exact hdom y hy hsome
  · intro hdiff
    have hcount : ∀ d ∈ scaleSymbols,
        (TrimLeft h1.data ['0']).count d = (TrimLeft h2.data ['0']).count d := by
      intro d hd
      have hd0 : d ≠ '0' := by
        rintro rfl
        revert hd
        decide
      rw [count_TrimLeft_of_ne_zero hd0, count_TrimLeft_of_ne_zero hd0]
      exact count_eq_of_differOnlyOutside hd hdiff
    refine ⟨hcount, ?_⟩
    intro x p hx hdom
    have hxm : x ∈ scaleSymbols := mem_keys_of_lookup hx
    refine ⟨(scale_of_dominant sortSlice hs h1 x p hx hdom), scale_of_dominant sortSlice hs h2 x p hx ?_⟩
    intro y hy hsome
    rw [← hcount y (mem_keys_of_isSome hsome), ← hcount x hxm]
    exact hdom y hy hsome

/-- C9 amended, at "a1" and "91" (mode Dorian) and at "c0" and "c1" (scale C),
with the unstable sort. -/
theorem C9_same_selection_witness :
    ((NewMelody presortedOrReverseSort "a1").Mode = Dorian ∧
        (NewMelody presortedOrReverseSort "91").Mode = Dorian) ∧
      ((NewMelody presortedOrReverseSort "c0").Scale = C ∧
        (NewMelody presortedOrReverseSort "c1").Scale = C) :=
  ⟨((C9_same_selection_when_one_symbol_leads presortedOrReverseSort presortedOrReverseSort_sorts
      "a1" "91").1
      (List.Forall₂.cons (Or.inr ⟨by decide, by decide⟩)
        (List.Forall₂.cons (Or.inl rfl) List.Forall₂.nil))).2 '1' Dorian (by decide)
      (fun y hy hsome =>
        (by decide : ∀ k ∈ modeDictionary.map Prod.fst, k ≠ '1' →
          (TrimLeft ("a1" : String).data ['0']).count k <
            (TrimLeft ("a1" : String).data ['0']).count '1') y (mem_keys_of_isSome hsome) hy),
    ((C9_same_selection_when_one_symbol_leads presortedOrReverseSort presortedOrReverseSort_sorts
      "c0" "c1").2
      (List.Forall₂.cons (Or.inl rfl)
        (List.Forall₂.cons (Or.inr ⟨by decide, by decide⟩) List.Forall₂.nil))).2 'c' C
      (by decide)
      (fun y hy hsome =>
        (by decide : ∀ k ∈ scaleDictionary.map Prod.fst, k ≠ 'c' →
          (TrimLeft ("c0" : String).data ['0']).count k <
            (TrimLeft ("c0" : String).data ['0']).count 'c') y (mem_keys_of_isSome hsome) hy)⟩

/-! ## Melody notes: theorems -/

theorem ranking_chars_perm {sortSlice : List Classifier → List Classifier}
    (hs : SliceSorts sortSlice) (hash : String) :
    ((ranking sortSlice hash).map Classifier.char).Perm runes := by
  rw [← map_char_classify (TrimLeft hash.data ['0'])]
  exact (ranking_perm hs hash).map _

theorem indexLoop_eq (c : Char) :
    ∀ (l : List Classifier) (i : Nat), c ∈ l.map Classifier.char →
      indexLoop c l i = i + (l.map Classifier.char).indexOf c
  | [], _, h => by simp at h
  | cl :: rest, i, h => by
    rw [indexLoop, List.map_cons]
    by_cases hc : cl.char = c
    · rw [if_pos hc, List.indexOf_cons_eq _ hc]
      rfl
    · rw [if_neg hc, List.indexOf_cons_ne _ hc]
      have hr : c ∈ rest.map Classifier.char := by
        rcases List.mem_cons.1 h with h | h
        · exact absurd h.symm hc
        · exact h
      rw [indexLoop_eq c rest (i + 1) hr]
      omega

theorem indexOfC_eq_rankIndex {l : List Classifier} {c : Char}
    (h : c ∈ l.map Classifier.char) : indexOfC l c = rankIndex l c := by
  rw [indexOfC, indexLoop_eq c l 0 h, rankIndex]
  omega

theorem noteOfIndex_eq_degreeOfRank (m : Melody) (k : Nat) :
    noteOfIndex m k = degreeOfRank m k := by
  by_cases hk : k < 16
  · interval_cases k <;> rfl
  · unfold noteOfIndex degreeOfRank
    split <;> first | omega | (simp; omega)

theorem noteOfIndex_congr {m m1 : Melody} (hscale : m.Scale = m1.Scale)
    (hmode : m.Mode = m1.Mode) (k : Nat) : noteOfIndex m k = noteOfIndex m1 k := by
  unfold noteOfIndex Melody.Tonic Melody.Second Melody.Third Melody.Quarte Melody.Quinte
    Melody.Sixte Melody.Seventh
  rw [hscale, hmode]

theorem notesLoop_length (m : Melody) (cls : List Classifier) :
    ∀ (t : List Char) (st : PhraseState) (prev : Option Note),
      (notesLoop m cls t st prev).length = t.length
  | [], _, _ => rfl
  | c :: rest, st, prev => by
    rw [notesLoop]
    simp only [List.length_cons]
    rw [notesLoop_length m cls rest]

theorem notesLoop_getElem (m : Melody) (cls : List Classifier) :
    ∀ (t : List Char) (st : PhraseState) (prev : Option Note) (i : Nat) (c : Char),
      t[i]? = some c →
      ∃ note : Note, (notesLoop m cls t st prev)[i]? = some note ∧ note.Velocity = 100 ∧
        note.Note = noteOfIndex m (indexOfC cls c)
  | [], _, _, i, c, h => by simp at h
  | d :: rest, st, prev, 0, c, h => by
    simp only [List.getElem?_cons_zero, Option.some.injEq] at h
    subst h
    rw [notesLoop]
    exact ⟨_, List.getElem?_cons_zero, rfl, rfl⟩
  | d :: rest, st, prev, i + 1, c, h => by
    rw [List.getElem?_cons_succ] at h
    rw [notesLoop]
    simp only [List.getElem?_cons_succ]
    exact notesLoop_getElem m cls rest _ _ i c h

/-- C10: for every hash over the 16-symbol alphabet and every sort that meets
the contract of `sort.Slice`, `NewMelody(hash).Notes` holds exactly one note
per character of the trimmed hash, in order, each with velocity 100; the rank
index of the i-th character in the ranking is below 16 and the pitch of the
i-th note is the degree function the table gives that rank index, 0 for the
ranks 13 and 14. -/
theorem C10_notes_follow_rank_index (sortSlice : List Classifier → List Classifier)
    (hs : SliceSorts sortSlice) (hash : String) (halpha : ∀ c ∈ hash.data, c ∈ runes) :
    (NewMelody sortSlice hash).Notes.length = (TrimLeft hash.data ['0']).length ∧
      ∀ (i : Nat) (c : Char), (TrimLeft hash.data ['0'])[i]? = some c →
        ∃ note : Note, (NewMelody sortSlice hash).Notes[i]? = some note ∧ note.Velocity = 100 ∧
          rankIndex (ranking sortSlice hash) c < 16 ∧
          (ranking sortSlice hash)[rankIndex (ranking sortSlice hash) c]?.map Classifier.char =
            some c ∧
          note.Note =
            degreeOfRank (NewMelody sortSlice hash) (rankIndex (ranking sortSlice hash) c) := by
  refine ⟨notesLoop_length _ _ _ _ _, ?_⟩
  intro i c hic
  have hct : c ∈ TrimLeft hash.data ['0'] := List.getElem?_mem hic
  have hcr : c ∈ runes := halpha c ((List.dropWhile_sublist _).subset hct)
  have hperm := ranking_chars_perm hs hash
  have hmem : c ∈ (ranking sortSlice hash).map Classifier.char := hperm.mem_iff.2 hcr
  have hlt : rankIndex (ranking sortSlice hash) c <
      ((ranking sortSlice hash).map Classifier.char).length := List.indexOf_lt_length.2 hmem
  have hlen : ((ranking sortSlice hash).map Classifier.char).length = 16 := by
    rw [hperm.length_eq]
    rfl
  obtain ⟨note, hnote, hvel, hpitch⟩ :=
    notesLoop_getElem
      { Notes := [], Scale := loopScale (ranking sortSlice hash),
        Mode := loopMode (ranking sortSlice hash), TimeSignature := NewTimeSignature hash,
        Measures := 0, Phrases := [] }
      (ranking sortSlice hash) (TrimLeft hash.data ['0'])
      { notePerPhrase := 0, noteDurationForPhrase := 0 } none i c hic
  refine ⟨note, hnote, hvel, by omega, ?_, ?_⟩
  · rw [← List.getElem?_map]
    rw [List.getElem?_eq_getElem hlt]
    exact congrArg some (List.getElem_indexOf hlt)
  · rw [hpitch, indexOfC_eq_rankIndex hmem, ← noteOfIndex_eq_degreeOfRank]
    exact noteOfIndex_congr rfl rfl _

/-- C10, at the fixture "bbb66" with the unstable sort: the fourth note comes
from '6', of rank index 1, and its pitch is the Third. -/
theorem C10_notes_witness :
    (NewMelody presortedOrReverseSort "bbb66").Notes.length = 5 ∧
      ∃ note : Note, (NewMelody presortedOrReverseSort "bbb66").Notes[3]? = some note ∧
        note.Velocity = 100 ∧
        rankIndex (ranking presortedOrReverseSort "bbb66") '6' < 16 ∧
        (ranking presortedOrReverseSort "bbb66")[rankIndex
          (ranking presortedOrReverseSort "bbb66") '6']?.map Classifier.char = some '6' ∧
        note.Note = degreeOfRank (NewMelody presortedOrReverseSort "bbb66")
          (rankIndex (ranking presortedOrReverseSort "bbb66") '6') :=
  ⟨(C10_notes_follow_rank_index presortedOrReverseSort presortedOrReverseSort_sorts "bbb66"
      (by decide)).1,
    (C10_notes_follow_rank_index presortedOrReverseSort presortedOrReverseSort_sorts "bbb66"
      (by decide)).2 3 '6' (by decide)⟩

/-! ## Durations of the melody notes -/

theorem loopDuration_cons (dc : Char) (rest : List Char) (st : PhraseState) :
    loopDuration (dc :: rest) st =
      match durationDictionary.lookup dc with
      | some d => { notePerPhrase := st.notePerPhrase + 1, noteDurationForPhrase := d }
      | none => loopDuration rest
          { notePerPhrase := st.notePerPhrase + 1,
            noteDurationForPhrase := st.noteDurationForPhrase } := by
  by_cases h0 : dc = '0'
  · subst h0; rfl
  by_cases h1 : dc = '1'
  · subst h1; rfl
  by_cases h2 : dc = '2'
  · subst h2; rfl
  by_cases h3 : dc = '3'
  · subst h3; rfl
  by_cases h4 : dc = '4'
  · subst h4; rfl
  by_cases h5 : dc = '5'
  · subst h5; rfl
  by_cases h6 : dc = '6'
  · subst h6; rfl
  rw [durationDictionary, lookup_cons_ne h0, lookup_cons_ne h1, lookup_cons_ne h2,
    lookup_cons_ne h3, lookup_cons_ne h4, lookup_cons_ne h5, lookup_cons_ne h6]
  rw [loopDuration]
  all_goals first | rfl | assumption

theorem loopDuration_duration (l : List Char) :
    ∀ st : PhraseState, (loopDuration l st).noteDurationForPhrase =
      (l.findSome? (fun c => durationDictionary.lookup c)).getD st.noteDurationForPhrase := by
  induction l with
  | nil => intro st; rfl
  | cons dc rest ih =>
    intro st
    rw [loopDuration_cons, List.findSome?_cons]
    cases durationDictionary.lookup dc with
    | some d => rfl
    | none => exact ih _

theorem mem_durationClasses_of_lookup {c : Char} {d : NoteDuration}
    (h : durationDictionary.lookup c = some d) : d ∈ durationClasses := by
  have hall : ∀ kv ∈ durationDictionary, kv.2 ∈ durationClasses := by decide
  have hmem : ∀ {l : List (Char × NoteDuration)}, List.lookup c l = some d → (c, d) ∈ l := by
    intro l
    induction l with
    | nil => intro h; simp at h
    | cons kv es ih =>
      obtain ⟨k, v⟩ := kv
      intro h
      by_cases hck : c = k
      · subst hck
        simp [List.lookup] at h
        simp [h]
      · rw [lookup_cons_ne hck] at h
        exact List.mem_cons_of_mem _ (ih h)
  exact hall _ (hmem h)

theorem findSome_duration_mem {l : List Char} {d : NoteDuration}
    (h : l.findSome? (fun c => durationDictionary.lookup c) = some d) : d ∈ durationClasses := by
  obtain ⟨c, _, hc⟩ := List.exists_of_findSome?_eq_some h
  exact mem_durationClasses_of_lookup hc

theorem findSome_sliceAfterFirstByte (c : Char) (rest : List Char) :
    (sliceAfterFirstByte c rest).findSome? (fun x => durationDictionary.lookup x) =
      rest.findSome? (fun x => durationDictionary.lookup x) := by
  unfold sliceAfterFirstByte
  generalize c.utf8Size - 1 = k
  induction k with
  | zero => rfl
  | succ k ih =>
    rw [List.replicate_succ, List.cons_append, List.findSome?_cons]
    have h : durationDictionary.lookup (Char.ofNat 0xFFFD) = none := by decide
    rw [h]
    exact ih

/-- The duration the note loop gives the note of the rune `c` followed by
`rest`, from the phrase state before the note. -/
theorem duration_after_scan (c : Char) (rest : List Char) (st : PhraseState) :
    (if st.notePerPhrase = 0 then loopDuration (sliceAfterFirstByte c rest) st
      else st).noteDurationForPhrase = st.noteDurationForPhrase ∨
    (if st.notePerPhrase = 0 then loopDuration (sliceAfterFirstByte c rest) st
      else st).noteDurationForPhrase ∈ durationClasses := by
  split
  · rw [loopDuration_duration, findSome_sliceAfterFirstByte]
    cases h : rest.findSome? (fun x => durationDictionary.lookup x) with
    | none => exact Or.inl rfl
    | some d => exact Or.inr (findSome_duration_mem h)
  · exact Or.inl rfl

theorem notesLoop_durations_of_set (m : Melody) (cls : List Classifier) :
    ∀ (t : List Char) (st : PhraseState) (prev : Option Note),
      st.noteDurationForPhrase ∈ durationClasses →
      ∀ n ∈ notesLoop m cls t st prev, n.Duration ∈ durationClasses
  | [], _, _, _, n, hn => by simp [notesLoop] at hn
  | c :: rest, st, prev, hst, n, hn => by
    rw [notesLoop] at hn
    have hd := duration_after_scan c rest st
    have hd1 : (if st.notePerPhrase = 0 then loopDuration (sliceAfterFirstByte c rest) st
        else st).noteDurationForPhrase ∈ durationClasses := by
      rcases hd with h | h
      · rw [h]; exact hst
      · exact h
    rcases List.mem_cons.1 hn with h | h
    · rw [h]
      exact hd1
    · refine notesLoop_durations_of_set m cls rest _ _ ?_ n h
      exact hd1

theorem notesLoop_durations_unset (m : Melody) (cls : List Classifier) :
    ∀ (t : List Char) (st : PhraseState) (prev : Option Note),
      st.noteDurationForPhrase = 0 →
      (∀ c ∈ t.tail, durationDictionary.lookup c = none) →
      ∀ n ∈ notesLoop m cls t st prev, n.Duration = 0
  | [], _, _, _, _, n, hn => by simp [notesLoop] at hn
  | c :: rest, st, prev, hst, hrest, n, hn => by
    rw [notesLoop] at hn
    have hnone : rest.findSome? (fun x => durationDictionary.lookup x) = none :=
      List.findSome?_eq_none_iff.2 hrest
    have hd1 : (if st.notePerPhrase = 0 then loopDuration (sliceAfterFirstByte c rest) st
        else st).noteDurationForPhrase = 0 := by
      split
      · rw [loopDuration_duration, findSome_sliceAfterFirstByte, hnone]
        exact hst
      · exact hst
    rcases List.mem_cons.1 hn with h | h
    · rw [h]
      exact hd1
    · refine notesLoop_durations_unset m cls rest _ _ ?_ ?_ n h
      · exact hd1
      · intro x hx
        exact hrest x (List.mem_of_mem_tail hx)

/-- C11, as stated, fails: the hash "a" has no duration digit after its first
character, and its only note keeps the unset duration 0, which is not a
duration class; likewise every note of "00cab". -/
theorem C11_counterexample_unset_duration :
    (NewMelody stableSort "a").Notes.map Note.Duration = [0] ∧
      (NewMelody presortedOrReverseSort "a").Notes.map Note.Duration = [0] ∧
      (NewMelody stableSort "00cab").Notes.map Note.Duration = [0, 0, 0] ∧
      (0 : NoteDuration) ∉ durationClasses := by
  decide

/-- C11, amended: for every hash (and whatever the sort returns), when the
trimmed hash has a character '0' to '6' after its first character every note of
`NewMelody(hash).Notes` has a duration in the closed set of duration classes,
and when it has none every note has the unset duration 0. -/
theorem C11_durations_set_or_all_unset (sortSlice : List Classifier → List Classifier)
    (hash : String) :
    ((∃ c ∈ (TrimLeft hash.data ['0']).tail, (durationDictionary.lookup c).isSome) →
        ∀ n ∈ (NewMelody sortSlice hash).Notes, n.Duration ∈ durationClasses) ∧
      ((∀ c ∈ (TrimLeft hash.data ['0']).tail, durationDictionary.lookup c = none) →
        ∀ n ∈ (NewMelody sortSlice hash).Notes, n.Duration = 0) := by
  constructor
  · rintro ⟨x, hx, hsome⟩ n hn
    unfold NewMelody at hn
    simp only at hn
    cases ht : TrimLeft hash.data ['0'] with
    | nil => rw [ht] at hx; simp at hx
    | cons c rest =>
      rw [ht] at hn hx
      rw [notesLoop] at hn
      simp only [List.tail_cons] at hx
      have hfind : ∃ d, rest.findSome? (fun x => durationDictionary.lookup x) = some d := by
        cases h : rest.findSome? (fun x => durationDictionary.lookup x) with
        | some d => exact ⟨d, rfl⟩
        | none =>
          rw [List.findSome?_eq_none_iff] at h
          rw [h x hx] at hsome
          simp at hsome
      obtain ⟨d, hd⟩ := hfind
      have hd1 : (if (0 : Int) = 0 then loopDuration (sliceAfterFirstByte c rest)
            { notePerPhrase := 0, noteDurationForPhrase := 0 }
          else { notePerPhrase := 0, noteDurationForPhrase := 0 }).noteDurationForPhrase ∈
          durationClasses := by
        rw [if_pos rfl, loopDuration_duration, findSome_sliceAfterFirstByte, hd]
        exact findSome_duration_mem hd
      rcases List.mem_cons.1 hn with h | h
      · rw [h]
        exact hd1
      · refine notesLoop_durations_of_set _ _ rest _ _ ?_ n h
        exact hd1
  · intro hnone n hn
    exact notesLoop_durations_unset _ _ _ _ _ rfl hnone n hn

/-- C11 amended, at the hashes "bbb66" (a digit follows) and "00cab" (none). -/
theorem C11_durations_witness :
    (∀ n ∈ (NewMelody stableSort "bbb66").Notes, n.Duration ∈ durationClasses) ∧
      (∀ n ∈ (NewMelody stableSort "00cab").Notes, n.Duration = 0) :=
  ⟨(C11_durations_set_or_all_unset stableSort "bbb66").1 ⟨'6', by decide, by decide⟩,
    (C11_durations_set_or_all_unset stableSort "00cab").2 (by decide)⟩

/-! ## Registers of the melody notes -/

theorem toneOf_mem (prev : Option Note) (note : Int) :
    toneOf prev note = 4 ∨ toneOf prev note = 5 ∨ toneOf prev note = 6 := by
  unfold toneOf
  split
  · exact Or.inr (Or.inl rfl)
  · split
    · simp only
      split
      · exact Or.inr (Or.inr (by decide))
      · split
        · exact Or.inl (by decide)
        · exact Or.inr (Or.inl rfl)
    · exact Or.inr (Or.inl rfl)

theorem notesLoop_tone (m : Melody) (cls : List Classifier) :
    ∀ (t : List Char) (st : PhraseState) (prev : Option Note),
      ∀ n ∈ notesLoop m cls t st prev, n.Tone = 4 ∨ n.Tone = 5 ∨ n.Tone = 6
  | [], _, _, n, hn => by simp [notesLoop] at hn
  | c :: rest, st, prev, n, hn => by
    rw [notesLoop] at hn
    rcases List.mem_cons.1 hn with h | h
    · rw [h]
      exact toneOf_mem _ _
    · exact notesLoop_tone m cls rest _ _ n h

/-- C12, as stated, fails: in the melody of "a7abcdef0123456" (the ranking is
the scan order, which is already in descending order of count) the second note
has pitch 0 and register 4 and the third has pitch 16 and register 6; neither
is a Rest and the registers differ by 2. -/
theorem C12_counterexample_registers_two_apart :
    (ranking stableSort "a7abcdef0123456").map Classifier.char = runes ∧
      ((NewMelody stableSort "a7abcdef0123456").Notes.take 3).map
          (fun n => (n.Note, n.Tone)) = [(16, 5), (0, 4), (16, 6)] ∧
      ((NewMelody presortedOrReverseSort "a7abcdef0123456").Notes.take 3).map
          (fun n => (n.Note, n.Tone)) = [(16, 5), (0, 4), (16, 6)] ∧
      (0 : Int) ≠ Rest ∧ (16 : Int) ≠ Rest := by
  decide

/-- C12, amended: for every hash (and whatever the sort returns), every note
of `NewMelody(hash).Notes` has register 4, 5 or 6, so no two consecutive notes
differ in register by more than 2. -/
theorem C12_registers_within_two (sortSlice : List Classifier → List Classifier)
    (hash : String) :
    (∀ n ∈ (NewMelody sortSlice hash).Notes, n.Tone = 4 ∨ n.Tone = 5 ∨ n.Tone = 6) ∧
      ∀ (i : Nat) (a b : Note), (NewMelody sortSlice hash).Notes[i]? = some a →
        (NewMelody sortSlice hash).Notes[i + 1]? = some b → |a.Tone - b.Tone| ≤ 2 := by
  have hall : ∀ n ∈ (NewMelody sortSlice hash).Notes, n.Tone = 4 ∨ n.Tone = 5 ∨ n.Tone = 6 :=
    fun n hn => notesLoop_tone _ _ _ _ _ n hn
  refine ⟨hall, ?_⟩
  intro i a b ha hb
  have h1 := hall a (List.getElem?_mem ha)
  have h2 := hall b (List.getElem?_mem hb)
  rw [abs_le]
  omega

/-! ## Chords: theorems -/

/-- C13: for every scale, mode, duration and degree d in I..VII, `BuildChord`
builds exactly three voices with velocity 100 and the given duration, whose
pitches are the degree functions k, k+2, k+4 modulo 7 (k the index of d) with
register 3, or 4 for the voices that wrap past the seventh degree; spelled out,
I = Tonic/Third/Quinte, II = Second/Quarte/Sixte, III = Third/Quinte/Seventh,
IV = Quarte/Sixte/Tonic, V = Quinte/Seventh/Second, VI = Sixte/Tonic/Third,
VII = Seventh/Second/Quarte, with register 4 for voice 3 of IV and V and for
voices 2 and 3 of VI and VII. -/
theorem C13_chord_voices (m : Melody) (d : Degree) (duration : NoteDuration) (hd : d ≤ VII) :
    (m.BuildChord d duration).Notes =
        [chordVoice m d duration 0, chordVoice m d duration 1, chordVoice m d duration 2] ∧
      (m.BuildChord I duration).Notes.map (fun n => (n.Note, n.Tone)) =
        [(m.Tonic, 3), (m.Third, 3), (m.Quinte, 3)] ∧
      (m.BuildChord II duration).Notes.map (fun n => (n.Note, n.Tone)) =
        [(m.Second, 3), (m.Quarte, 3), (m.Sixte, 3)] ∧
      (m.BuildChord III duration).Notes.map (fun n => (n.Note, n.Tone)) =
        [(m.Third, 3), (m.Quinte, 3), (m.Seventh, 3)] ∧
      (m.BuildChord IV duration).Notes.map (fun n => (n.Note, n.Tone)) =
        [(m.Quarte, 3), (m.Sixte, 3), (m.Tonic, 4)] ∧
      (m.BuildChord V duration).Notes.map (fun n => (n.Note, n.Tone)) =
        [(m.Quinte, 3), (m.Seventh, 3), (m.Second, 4)] ∧
      (m.BuildChord VI duration).Notes.map (fun n => (n.Note, n.Tone)) =
        [(m.Sixte, 3), (m.Tonic, 4), (m.Third, 4)] ∧
      (m.BuildChord VII duration).Notes.map (fun n => (n.Note, n.Tone)) =
        [(m.Seventh, 3), (m.Second, 4), (m.Quarte, 4)] := by
  refine ⟨?_, rfl, rfl, rfl, rfl, rfl, rfl, rfl⟩
  simp only [VII] at hd
  interval_cases d <;> rfl

/-- C13, at the chord on the degree V of D Dorian with the duration Crochtet. -/
theorem C13_chord_voices_witness :
    ((Melody.mk [] D Dorian (TimeSignature.mk 4 4) 0 []).BuildChord V Crochtet).Notes =
      [{ Note := 9, Velocity := 100, Duration := Crochtet, Tone := 3 },
        { Note := 12, Velocity := 100, Duration := Crochtet, Tone := 3 },
        { Note := 4, Velocity := 100, Duration := Crochtet, Tone := 4 }] :=
  (C13_chord_voices (Melody.mk [] D Dorian (TimeSignature.mk 4 4) 0 []) V Crochtet
    (by decide)).1.trans (by decide)

/-! ## The degree of a measure -/

theorem wrapInt32_add_ne (s a b : Int) (ha : 0 ≤ a) (ha1 : a ≤ 11) (hb : 0 ≤ b) (hb1 : b ≤ 11)
    (hab : a ≠ b) : wrapInt32 (s + a) ≠ wrapInt32 (s + b) := by
  unfold wrapInt32
  omega

theorem ne_wrapInt32_add (s a : Int) (ha : 0 < a) (ha1 : a ≤ 11) : s ≠ wrapInt32 (s + a) := by
  unfold wrapInt32
  omega

theorem nodup_of_increasing_intervals (s a2 a3 a4 a5 a6 a7 : Int)
    (h : 0 < a2 ∧ a2 < a3 ∧ a3 < a4 ∧ a4 < a5 ∧ a5 < a6 ∧ a6 < a7 ∧ a7 ≤ 11) :
    [s, wrapInt32 (s + a2), wrapInt32 (s + a3), wrapInt32 (s + a4), wrapInt32 (s + a5),
      wrapInt32 (s + a6), wrapInt32 (s + a7)].Nodup := by
  obtain ⟨h2, h3, h4, h5, h6, h7, h8⟩ := h
  have hw := wrapInt32_add_ne s
  have h0 := ne_wrapInt32_add s
  simp only [List.nodup_cons, List.mem_cons, List.mem_singleton, List.not_mem_nil,
    not_or, List.nodup_nil, or_false, and_true, not_false_eq_true]
  refine ⟨⟨?_, ?_, ?_, ?_, ?_, ?_⟩, ⟨?_, ?_, ?_, ?_, ?_⟩, ⟨?_, ?_, ?_, ?_⟩, ⟨?_, ?_, ?_⟩,
    ⟨?_, ?_⟩, ?_⟩
  all_goals first
    | (apply h0 <;> omega)
    | (apply hw <;> omega)

theorem degrees_nodup (m : Melody) : (degrees m).Nodup := by
  obtain ⟨notes, scale, mode, ts, measures, phrases⟩ := m
  simp only [degrees, Melody.Tonic, Melody.Second, Melody.Third, Melody.Quarte, Melody.Quinte,
    Melody.Sixte, Melody.Seventh, Ionian, Dorian, Phrygian, Lydian, Mixolydian, Aeolian,
    Locrian]
  split_ifs <;> first
    | exact nodup_of_increasing_intervals scale _ _ _ _ _ _ (by decide)
    | (exfalso; (try casesm* _ ∨ _) <;> simp_all)

theorem first_match_of_distinct (x a2 a3 a4 a5 a6 a7 : Int)
    (h : [a2, a3, a4, a5, a6, a7].Nodup) :
    let r : Degree := if x = a2 then II else if x = a3 then III else if x = a4 then IV
      else if x = a5 then V else if x = a6 then VI else if x = a7 then VII else I
    (r = II ↔ x = a2) ∧ (r = III ↔ x = a3) ∧ (r = IV ↔ x = a4) ∧ (r = V ↔ x = a5) ∧
      (r = VI ↔ x = a6) ∧ (r = VII ↔ x = a7) ∧
      (r = I ↔ x ≠ a2 ∧ x ≠ a3 ∧ x ≠ a4 ∧ x ≠ a5 ∧ x ≠ a6 ∧ x ≠ a7) := by
  simp only [List.nodup_cons, List.mem_cons, List.mem_singleton, List.not_mem_nil,
    not_or, List.nodup_nil, or_false, and_true, not_false_eq_true] at h
  obtain ⟨⟨h23, h24, h25, h26, h27⟩, ⟨h34, h35, h36, h37⟩, ⟨h45, h46, h47⟩, ⟨h56, h57⟩, h67⟩ := h
  intro r
  simp only [r, I, II, III, IV, V, VI, VII]
  split_ifs <;> simp_all

theorem lookup_cons_int {β : Type} (a k : Int) (b : β) (es : List (Int × β)) :
    List.lookup a ((k, b) :: es) = if a = k then some b else List.lookup a es := by
  by_cases h : a = k
  · subst h
    simp
  · have hf : (a == k) = false := by simpa using h
    rw [List.lookup, hf, if_neg h]

theorem lookup_perm_of_distinct_keys {β : Type} {l1 l2 : List (Int × β)} (hp : l1.Perm l2)
    (hd : (l1.map Prod.fst).Nodup) (k : Int) : l1.lookup k = l2.lookup k := by
  induction hp with
  | nil => rfl
  | @cons x t1 t2 _ ih =>
    obtain ⟨kx, vx⟩ := x
    rw [List.map_cons, List.nodup_cons] at hd
    simp only [List.lookup]
    split
    · rfl
    · exact ih hd.2
  | @swap x y t =>
    obtain ⟨kx, vx⟩ := x
    obtain ⟨ky, vy⟩ := y
    simp only [List.map_cons, List.nodup_cons, List.mem_cons, not_or] at hd
    have hne : ky ≠ kx := hd.1.1
    by_cases h1 : k = kx
    · subst h1
      have h2 : (k == ky) = false := by simpa using fun h => hne h.symm
      simp [List.lookup, h2]
    · have h1b : (k == kx) = false := by simpa using h1
      simp [List.lookup, h1b]
  | @trans t1 t2 t3 h12 _ ih1 ih2 =>
    rw [ih1 hd]
    exact ih2 ((h12.map Prod.fst).nodup_iff.1 hd)

theorem pickDegree_eq_firstCase (m : Melody) (n : Note) :
    pickDegree m n = firstCase (degreeCases m) n.Note := by
  unfold pickDegree firstCase degreeCases
  rw [lookup_cons_int, lookup_cons_int, lookup_cons_int, lookup_cons_int, lookup_cons_int,
    lookup_cons_int]
  split_ifs <;> rfl

/-- C20: for every melody and every measure with a recorded phrase, the degree
`BuildHarmony` picks from the first note of the phrase is II, III, IV, V, VI or
VII exactly when the pitch of that note equals the Second, Third, Quarte,
Quinte, Sixte or Seventh value of the melody, and I otherwise; the seven degree
values are pairwise distinct, so the cases tried in any other order give the
same degree. -/
theorem C20_degree_of_first_note (m : Melody) (n : Note) (rest : List Note) :
    harmonyMeasure m (n :: rest) =
        some (harmonyLoop (pickDegree m n) (n :: rest) zeroCounters) ∧
      (pickDegree m n = II ↔ n.Note = m.Second) ∧
      (pickDegree m n = III ↔ n.Note = m.Third) ∧
      (pickDegree m n = IV ↔ n.Note = m.Quarte) ∧
      (pickDegree m n = V ↔ n.Note = m.Quinte) ∧
      (pickDegree m n = VI ↔ n.Note = m.Sixte) ∧
      (pickDegree m n = VII ↔ n.Note = m.Seventh) ∧
      (pickDegree m n = I ↔ n.Note ≠ m.Second ∧ n.Note ≠ m.Third ∧ n.Note ≠ m.Quarte ∧
        n.Note ≠ m.Quinte ∧ n.Note ≠ m.Sixte ∧ n.Note ≠ m.Seventh) ∧
      (degrees m).Nodup ∧
      ∀ cases : List (Int × Degree), cases.Perm (degreeCases m) →
        firstCase cases n.Note = pickDegree m n := by
  have hnd := degrees_nodup m
  have htail : [m.Second, m.Third, m.Quarte, m.Quinte, m.Sixte, m.Seventh].Nodup :=
    (List.nodup_cons.1 hnd).2
  obtain ⟨h2, h3, h4, h5, h6, h7, h1⟩ :=
    first_match_of_distinct n.Note m.Second m.Third m.Quarte m.Quinte m.Sixte m.Seventh htail
  refine ⟨rfl, h2, h3, h4, h5, h6, h7, h1, hnd, ?_⟩
  intro cases hperm
  rw [pickDegree_eq_firstCase]
  unfold firstCase
  rw [lookup_perm_of_distinct_keys hperm]
  have hkeys : (cases.map Prod.fst).Perm ((degreeCases m).map Prod.fst) := hperm.map _
  rw [hkeys.nodup_iff]
  exact htail

/-! ## The pattern table -/

theorem minimActions_eq (d : Degree) (n : Nat) :
    minimActions d n = (specPattern Minim n).map (Fill.toAction d) := by
  by_cases h : n ≤ 3
  · interval_cases n <;> rfl
  · have h1 : ¬ (1 ≤ n ∧ n ≤ 3) := by omega
    unfold minimActions specPattern
    rw [if_pos rfl, if_neg h1]
    split <;> first | omega | rfl

theorem crochtetDotActions_eq (d : Degree) (n : Nat) :
    crochtetDotActions d n = (specPattern CrochtetDot n).map (Fill.toAction d) := by
  by_cases h : n ≤ 5
  · interval_cases n <;> rfl
  · have h1 : ¬ (2 ≤ n ∧ n ≤ 5) := by omega
    unfold crochtetDotActions specPattern
    rw [if_neg (by decide), if_pos rfl, if_neg h1]
    split <;> first | omega | simp [Fill.toAction]

theorem crochtetActions_eq (d : Degree) (n : Nat) :
    crochtetActions d n = (specPattern Crochtet n).map (Fill.toAction d) := by
  by_cases h : n ≤ 5
  · interval_cases n <;> rfl
  · have h1 : ¬ (2 ≤ n ∧ n ≤ 5) := by omega
    unfold crochtetActions specPattern
    rw [if_neg (by decide), if_neg (by decide), if_pos rfl, if_neg h1]
    split <;> first | omega | rfl

theorem quaverActions_eq (d : Degree) (n : Nat) :
    quaverActions d n = (specPattern Quaver n).map (Fill.toAction d) := by
  by_cases h : n ≤ 10
  · interval_cases n <;> rfl
  · have h1 : ¬ (1 ≤ n ∧ n ≤ 10) := by omega
    unfold quaverActions specPattern
    rw [if_neg (by decide), if_neg (by decide), if_neg (by decide), if_pos rfl, if_neg h1]
    split <;> first | omega | rfl

theorem semiquaverActions_eq (d : Degree) (n : Nat) :
    semiquaverActions d n = (specPattern Semiquaver n).map (Fill.toAction d) := by
  by_cases h : n ≤ 20
  · interval_cases n <;> rfl
  · have h1 : ¬ (1 ≤ n ∧ n ≤ 20) := by omega
    unfold semiquaverActions specPattern
    rw [if_neg (by decide), if_neg (by decide), if_neg (by decide), if_neg (by decide),
      if_pos rfl, if_neg h1]
    split <;> first | omega | rfl

theorem runActions_eq_specPattern (d : Degree) (duration : NoteDuration) (count : Nat) :
    runActions d duration count = (specPattern duration count).map (Fill.toAction d) := by
  unfold runActions
  split
  · next h => rw [h]; exact minimActions_eq d count
  split
  · next h => rw [h]; exact crochtetDotActions_eq d count
  split
  · next h => rw [h]; exact crochtetActions_eq d count
  split
  · next h => rw [h]; exact quaverActions_eq d count
  split
  · next h => rw [h]; exact semiquaverActions_eq d count
  · next h1 h2 h3 h4 h5 =>
    unfold specPattern
    rw [if_neg h1, if_neg h2, if_neg h3, if_neg h4, if_neg h5]
    rfl

/-! ## Runs of a phrase -/

theorem runLength_cons (n : Note) (rest : List Note) (d : NoteDuration) :
    runLength (n :: rest) d =
      if n.Duration = d ∧ n.Note ≠ Rest then runLength rest d + 1 else 0 := by
  unfold runLength
  rw [List.takeWhile_cons]
  by_cases h : n.Duration = d ∧ n.Note ≠ Rest
  · rw [if_pos h, decide_eq_true h]
    rfl
  · rw [if_neg h, decide_eq_false h]
    rfl

theorem countLinkedLoop_eq (d : NoteDuration) :
    ∀ (l : List Note) (next : Nat), countLinkedLoop d l next = next + runLength l d
  | [], next => rfl
  | n :: rest, next => by
    rw [countLinkedLoop, runLength_cons]
    by_cases h : n.Duration = d ∧ n.Note ≠ Rest
    · rw [if_pos h, if_pos h, countLinkedLoop_eq d rest (next + 1)]
      omega
    · rw [if_neg h, if_neg h]
      rfl

theorem countLinkedDuration_eq_runLength (l : List Note) (d : NoteDuration) :
    countLinkedDuration l d = runLength l d := by
  rw [countLinkedDuration, countLinkedLoop_eq]
  omega

theorem runLength_cons_pos (n : Note) (rest : List Note) (h : n.Note ≠ Rest) :
    0 < runLength (n :: rest) n.Duration := by
  rw [runLength_cons, if_pos ⟨rfl, h⟩]
  omega

theorem resetCountersExcept_other (cs : Counters) (d : NoteDuration)
    (h : d ∉ durationClasses) : resetCountersExcept cs d = zeroCounters := by
  simp only [durationClasses, List.mem_cons, List.mem_singleton, List.not_mem_nil, not_or,
    or_false] at h
  obtain ⟨h1, h2, h3, h4, h5⟩ := h
  unfold resetCountersExcept
  rw [if_neg h1, if_neg h3, if_neg h4, if_neg h5, if_neg h2]
  rfl

theorem harmonyLoop_cons_rest (d : Degree) (note : Note) (rest : List Note) (cs : Counters)
    (h : note.Note = Rest) :
    harmonyLoop d (note :: rest) cs =
      (if note.Duration = Quaver then [Action.buildChord d Quaver] else [Action.play note]) ++
        harmonyLoop d rest zeroCounters := by
  rw [harmonyLoop, if_pos h, resetCountersExcept_other cs 99 (by decide)]

theorem harmonyLoop_cons_other (d : Degree) (note : Note) (rest : List Note) (cs : Counters)
    (h : note.Note ≠ Rest) (hd : note.Duration ∉ durationClasses) :
    harmonyLoop d (note :: rest) cs = harmonyLoop d rest zeroCounters := by
  have hr := resetCountersExcept_other cs note.Duration hd
  simp only [durationClasses, List.mem_cons, List.mem_singleton, List.not_mem_nil, not_or,
    or_false] at hd
  obtain ⟨h1, h2, h3, h4, h5⟩ := hd
  rw [harmonyLoop, if_neg h, if_neg h1, if_neg h2, if_neg h3, if_neg h4, if_neg h5, hr]

/-- The step of the loop on a note that is not a Rest and has a duration
class: nothing when the counter of its duration is set, else the calls of the
run the note opens. -/
theorem harmonyLoop_cons_run (d : Degree) (note : Note) (rest : List Note) (cs : Counters)
    (h : note.Note ≠ Rest) (hd : note.Duration ∈ durationClasses) :
    harmonyLoop d (note :: rest) cs =
      if 0 < cs.ofDuration note.Duration then harmonyLoop d rest cs
      else runActions d note.Duration (countLinkedDuration (note :: rest) note.Duration) ++
        harmonyLoop d rest
          (resetCountersExcept
            (cs.setDuration note.Duration (countLinkedDuration (note :: rest) note.Duration))
            note.Duration) := by
  simp only [durationClasses, List.mem_cons, List.mem_singleton, List.not_mem_nil,
    or_false] at hd
  rw [harmonyLoop, if_neg h]
  rcases hd with hd | hd | hd | hd | hd <;> rw [hd] <;> rfl

theorem ofDuration_reset_set (cs : Counters) (d1 d2 : NoteDuration) (count : Nat)
    (h1 : d1 ∈ durationClasses) (h2 : d2 ∈ durationClasses) :
    (resetCountersExcept (cs.setDuration d1 count) d1).ofDuration d2 =
      if d2 = d1 then count else 0 := by
  simp only [durationClasses, List.mem_cons, List.mem_singleton, List.not_mem_nil,
    or_false] at h1 h2
  rcases h1 with h1 | h1 | h1 | h1 | h1 <;> rcases h2 with h2 | h2 | h2 | h2 | h2 <;>
    rw [h1, h2] <;> rfl

theorem countersFollow_zero_none : CountersFollow zeroCounters none := by
  intro d _
  constructor
  · intro h
    exfalso
    revert h
    unfold Counters.ofDuration zeroCounters
    split_ifs <;> simp
  · rintro ⟨p, hp, _⟩
    cases hp

theorem countersFollow_zero_of_rest {n : Note}
    (h : n.Note = Rest ∨ n.Duration ∉ durationClasses) :
    CountersFollow zeroCounters (some n) := by
  intro d hd
  constructor
  · intro h0
    exfalso
    revert h0
    unfold Counters.ofDuration zeroCounters
    split_ifs <;> simp
  · rintro ⟨p, hp, hne, hdur⟩
    cases hp
    rcases h with h | h
    · exact absurd h hne
    · exact absurd (hdur ▸ hd) h

theorem harmonyLoop_eq_expectedCalls (d : Degree) :
    ∀ (l : List Note) (cs : Counters) (prev : Option Note), CountersFollow cs prev →
      harmonyLoop d l cs = expectedCalls d prev l
  | [], _, _, _ => rfl
  | n :: rest, cs, prev, hcs => by
    rw [expectedCalls]
    by_cases hrest : n.Note = Rest
    · rw [harmonyLoop_cons_rest d n rest cs hrest, if_pos hrest,
        harmonyLoop_eq_expectedCalls d rest zeroCounters (some n)
          (countersFollow_zero_of_rest (Or.inl hrest))]
    · rw [if_neg hrest]
      by_cases hd : n.Duration ∈ durationClasses
      · rw [harmonyLoop_cons_run d n rest cs hrest hd]
        by_cases hc : 0 < cs.ofDuration n.Duration
        · have hcont : continuesRun prev n := (hcs _ hd).1 hc
          rw [if_pos hc, if_pos hcont, List.nil_append]
          apply harmonyLoop_eq_expectedCalls d rest cs (some n)
          intro d2 hd2
          obtain ⟨p, hp, hpne, hpd⟩ := hcont
          rw [hcs d2 hd2]
          constructor
          · rintro ⟨q, hq, _, hqd⟩
            rw [hp] at hq
            cases hq
            exact ⟨n, rfl, hrest, hpd.symm.trans hqd⟩
          · rintro ⟨q, hq, _, hqd⟩
            cases hq
            exact ⟨p, hp, hpne, hpd.trans hqd⟩
        · have hcont : ¬ continuesRun prev n := fun h => hc ((hcs _ hd).2 h)
          rw [if_neg hc, if_neg hcont, countLinkedDuration_eq_runLength]
          congr 1
          apply harmonyLoop_eq_expectedCalls d rest _ (some n)
          intro d2 hd2
          rw [ofDuration_reset_set cs n.Duration d2 _ hd hd2]
          have hpos := runLength_cons_pos n rest hrest
          constructor
          · intro h
            by_cases h2 : d2 = n.Duration
            · exact ⟨n, rfl, hrest, h2.symm⟩
            · rw [if_neg h2] at h
              omega
          · rintro ⟨q, hq, _, hqd⟩
            cases hq
            rw [if_pos hqd.symm]
            exact hpos
      · rw [harmonyLoop_cons_other d n rest cs hrest hd,
          harmonyLoop_eq_expectedCalls d rest zeroCounters (some n)
            (countersFollow_zero_of_rest (Or.inr hd))]
        have hnil : ∀ k, runActions d n.Duration k = [] := by
          intro k
          simp only [durationClasses, List.mem_cons, List.mem_singleton, List.not_mem_nil,
            not_or, or_false] at hd
          obtain ⟨h1, h2, h3, h4, h5⟩ := hd
          unfold runActions
          rw [if_neg h1, if_neg h2, if_neg h3, if_neg h4, if_neg h5]
        rw [hnil]
        split <;> rfl

theorem expectedCalls_congr_prev (d : Degree) (prev1 prev2 : Option Note) :
    ∀ l : List Note,
      (∀ n, l.head? = some n → n.Note = Rest ∨ (continuesRun prev1 n ↔ continuesRun prev2 n)) →
      expectedCalls d prev1 l = expectedCalls d prev2 l
  | [], _ => rfl
  | n :: rest, h => by
    rw [expectedCalls, expectedCalls]
    rcases h n rfl with h | h
    · rw [if_pos h, if_pos h]
    · by_cases hc : continuesRun prev1 n
      · rw [if_pos hc, if_pos (h.1 hc)]
      · rw [if_neg hc, if_neg (fun h2 => hc (h.2 h2))]

theorem runLength_eq_zero_of_head (l : List Note) (d : NoteDuration)
    (h : ∀ n, l.head? = some n → ¬ (n.Duration = d ∧ n.Note ≠ Rest)) : runLength l d = 0 := by
  cases l with
  | nil => rfl
  | cons n rest => rw [runLength_cons, if_neg (h n rfl)]

theorem runLength_append_of_boundary (d : NoteDuration) (post : List Note) :
    ∀ (t : List Note) (a : Note),
      (∀ p x, (a :: t).getLast? = some p → post.head? = some x →
        (p.Duration = d ∧ p.Note ≠ Rest) → ¬ (x.Duration = d ∧ x.Note ≠ Rest)) →
      runLength ((a :: t) ++ post) d = runLength (a :: t) d
  | [], a, h => by
    rw [List.cons_append, List.nil_append, runLength_cons, runLength_cons]
    by_cases ha : a.Duration = d ∧ a.Note ≠ Rest
    · rw [if_pos ha, if_pos ha, runLength_eq_zero_of_head post d (fun x hx => h a x rfl hx ha)]
      rfl
    · rw [if_neg ha, if_neg ha]
  | b :: t, a, h => by
    rw [List.cons_append, runLength_cons, runLength_cons a (b :: t) d,
      runLength_append_of_boundary d post t b]
    intro p x hp hx
    exact h p x (by rw [List.getLast?_cons_cons]; exact hp) hx

theorem expectedCalls_append (d : Degree) (post : List Note) :
    ∀ (t : List Note) (a : Note) (prev : Option Note),
      (∀ p x, (a :: t).getLast? = some p → post.head? = some x →
        p.Note = Rest ∨ x.Note = Rest ∨ p.Duration ≠ x.Duration) →
      expectedCalls d prev ((a :: t) ++ post) =
        expectedCalls d prev (a :: t) ++ expectedCalls d ((a :: t).getLast?) post
  | t, a, prev, h => by
    have hrun : runLength ((a :: t) ++ post) a.Duration = runLength (a :: t) a.Duration := by
      apply runLength_append_of_boundary
      intro p x hp hx hpd hxd
      rcases h p x hp hx with h1 | h1 | h1
      · exact hpd.2 h1
      · exact hxd.2 h1
      · exact h1 (hpd.1.trans hxd.1.symm)
    rw [List.cons_append, expectedCalls, expectedCalls, ← List.cons_append, hrun,
      List.append_assoc]
    congr 1
    cases t with
    | nil => rfl
    | cons b t =>
      rw [List.getLast?_cons_cons]
      apply expectedCalls_append d post t b (some a)
      intro p x hp hx
      exact h p x (by rw [List.getLast?_cons_cons]; exact hp) hx

theorem expectedCalls_inside_run (d : Degree) (duration : NoteDuration) (post : List Note)
    (hpost : ∀ q, post.head? = some q → q.Note = Rest ∨ q.Duration ≠ duration) :
    ∀ (rs : List Note) (p : Note), p.Note ≠ Rest → p.Duration = duration →
      (∀ n ∈ rs, n.Note ≠ Rest ∧ n.Duration = duration) →
      expectedCalls d (some p) (rs ++ post) = expectedCalls d none post
  | [], p, hp, hpd, _ => by
    rw [List.nil_append]
    apply expectedCalls_congr_prev
    intro q hq
    rcases hpost q hq with h | h
    · exact Or.inl h
    · refine Or.inr ⟨?_, ?_⟩
      · rintro ⟨p2, hp2, _, hd2⟩
        cases hp2
        exact absurd (hpd.symm.trans hd2).symm h
      · rintro ⟨p2, hp2, _⟩
        cases hp2
  | r :: rs, p, hp, hpd, hrs => by
    have hr := hrs r (List.mem_cons_self _ _)
    have hcont : continuesRun (some p) r := ⟨p, rfl, hp, hpd.trans hr.2.symm⟩
    rw [List.cons_append, expectedCalls, if_neg hr.1, if_pos hcont, List.nil_append]
    exact expectedCalls_inside_run d duration post hpost rs r hr.1 hr.2
      (fun n hn => hrs n (List.mem_cons_of_mem _ hn))

theorem runLength_of_run (duration : NoteDuration) (post : List Note)
    (hpost : ∀ q, post.head? = some q → q.Note = Rest ∨ q.Duration ≠ duration) :
    ∀ run : List Note, (∀ n ∈ run, n.Note ≠ Rest ∧ n.Duration = duration) →
      runLength (run ++ post) duration = run.length
  | [], _ => by
    rw [List.nil_append]
    apply runLength_eq_zero_of_head
    intro q hq hqd
    rcases hpost q hq with h | h
    · exact hqd.2 h
    · exact h hqd.1
  | r :: rs, hrs => by
    have hr := hrs r (List.mem_cons_self _ _)
    rw [List.cons_append, runLength_cons, if_pos ⟨hr.2, hr.1⟩,
      runLength_of_run duration post hpost rs (fun n hn => hrs n (List.mem_cons_of_mem _ hn))]
    rfl

/-- The calls for a maximal run and what follows it: the calls of the run,
once, then the calls of what follows as if it stood alone. -/
theorem expectedCalls_run (d : Degree) (duration : NoteDuration) (prev : Option Note)
    (r0 : Note) (rs post : List Note)
    (hrun : ∀ n ∈ r0 :: rs, n.Note ≠ Rest ∧ n.Duration = duration)
    (hprev : ¬ continuesRun prev r0)
    (hpost : ∀ q, post.head? = some q → q.Note = Rest ∨ q.Duration ≠ duration) :
    expectedCalls d prev ((r0 :: rs) ++ post) =
      runActions d duration (r0 :: rs).length ++ expectedCalls d none post := by
  have hr0 := hrun r0 (List.mem_cons_self _ _)
  have hlen := runLength_of_run duration post hpost (r0 :: rs) hrun
  rw [List.cons_append] at hlen ⊢
  rw [expectedCalls, if_neg hr0.1, if_neg hprev, hr0.2, hlen,
    expectedCalls_inside_run d duration post hpost rs r0 hr0.1 hr0.2
      (fun n hn => hrun n (List.mem_cons_of_mem _ hn))]

/-- C15: in the pass of `BuildHarmony` over one phrase, the first note of a
run emits the calls of the run, of its duration and its length, and the other
notes of the run emit nothing (the description note by note); and for every
maximal run of L consecutive notes that are not Rests and share one duration
D, between a part `pre` and a part `post` of the phrase, the calls of the pass
are those for `pre`, then the calls for (D, L) exactly once, then those for
`post`. -/
theorem C15_one_emission_per_run (d : Degree) (phrase : List Note) :
    harmonyLoop d phrase zeroCounters = expectedCalls d none phrase ∧
      ∀ (pre run post : List Note) (duration : NoteDuration),
        phrase = pre ++ run ++ post → run ≠ [] →
        (∀ n ∈ run, n.Note ≠ Rest ∧ n.Duration = duration) →
        (∀ p, pre.getLast? = some p → p.Note = Rest ∨ p.Duration ≠ duration) →
        (∀ q, post.head? = some q → q.Note = Rest ∨ q.Duration ≠ duration) →
        harmonyLoop d phrase zeroCounters =
          harmonyLoop d pre zeroCounters ++ runActions d duration run.length ++
            harmonyLoop d post zeroCounters := by
  refine ⟨harmonyLoop_eq_expectedCalls d phrase _ _ countersFollow_zero_none, ?_⟩
  intro pre run post duration hphrase hne hrun hpre hpost
  rw [harmonyLoop_eq_expectedCalls d phrase _ _ countersFollow_zero_none,
    harmonyLoop_eq_expectedCalls d pre _ _ countersFollow_zero_none,
    harmonyLoop_eq_expectedCalls d post _ _ countersFollow_zero_none, hphrase,
    List.append_assoc, List.append_assoc]
  cases run with
  | nil => exact absurd rfl hne
  | cons r0 rs =>
    have hr0 := hrun r0 (List.mem_cons_self _ _)
    cases pre with
    | nil =>
      rw [List.nil_append]
      have hprev : ¬ continuesRun none r0 := by
        rintro ⟨p, hp, _⟩
        cases hp
      rw [expectedCalls_run d duration none r0 rs post hrun hprev hpost]
      rfl
    | cons a t =>
      have hb : ∀ p x, (a :: t).getLast? = some p → ((r0 :: rs) ++ post).head? = some x →
          p.Note = Rest ∨ x.Note = Rest ∨ p.Duration ≠ x.Duration := by
        intro p x hp hx
        simp only [List.cons_append, List.head?_cons, Option.some.injEq] at hx
        subst hx
        rcases hpre p hp with h | h
        · exact Or.inl h
        · exact Or.inr (Or.inr (fun h2 => h (h2.trans hr0.2)))
      rw [expectedCalls_append d _ t a none hb]
      have hprev : ¬ continuesRun ((a :: t).getLast?) r0 := by
        rintro ⟨p, hp, hpn, hpd⟩
        rcases hpre p hp with h | h
        · exact hpn h
        · exact h (hpd.trans hr0.2)
      rw [expectedCalls_run d duration _ r0 rs post hrun hprev hpost]

/-- The pass over a phrase that is one run: the calls of the run. -/
theorem harmonyLoop_of_run (d : Degree) (duration : NoteDuration) (run : List Note)
    (hne : run ≠ []) (hrun : ∀ n ∈ run, n.Note ≠ Rest ∧ n.Duration = duration) :
    harmonyLoop d run zeroCounters = runActions d duration run.length := by
  cases run with
  | nil => exact absurd rfl hne
  | cons r0 rs =>
    have hprev : ¬ continuesRun none r0 := by
      rintro ⟨p, hp, _⟩
      cases hp
    have h := expectedCalls_run d duration none r0 rs [] hrun hprev (fun q hq => by cases hq)
    rw [List.append_nil] at h
    rw [harmonyLoop_eq_expectedCalls d _ _ _ countersFollow_zero_none, h]
    exact List.append_nil _

/-- C16: for every duration and run length, the calls of the `switch` of
`BuildHarmony` for a run are the entry of the fixed pattern table of the
specification (the listed sequences, L chords of CrochtetDot and one chord of
Crochtet for the other lengths of these classes, nothing for Minim L ≥ 4,
Quaver L ≥ 11 and Semiquaver L ≥ 21), and they are what the pass emits for a
phrase that is one run of L ≥ 1 notes of the duration. -/
theorem C16_run_calls_are_the_table (d : Degree) (duration : NoteDuration) (count : Nat) :
    runActions d duration count = (specPattern duration count).map (Fill.toAction d) ∧
      (∀ run : List Note, run.length = count → 1 ≤ count →
        (∀ n ∈ run, n.Note ≠ Rest ∧ n.Duration = duration) →
        harmonyLoop d run zeroCounters =
          (specPattern duration count).map (Fill.toAction d)) ∧
      (4 ≤ count → specPattern Minim count = []) ∧
      (11 ≤ count → specPattern Quaver count = []) ∧
      (21 ≤ count → specPattern Semiquaver count = []) := by
  refine ⟨runActions_eq_specPattern d duration count, ?_, ?_, ?_, ?_⟩
  · intro run hlen hpos hrun
    have hne : run ≠ [] := by
      intro h
      rw [h] at hlen
      simp at hlen
      omega
    rw [harmonyLoop_of_run d duration run hne hrun, hlen]
    exact runActions_eq_specPattern d duration count
  · intro h
    have h1 : ¬ (1 ≤ count ∧ count ≤ 3) := by omega
    unfold specPattern
    rw [if_pos rfl, if_neg h1]
  · intro h
    have h1 : ¬ (1 ≤ count ∧ count ≤ 10) := by omega
    unfold specPattern
    rw [if_neg (by decide), if_neg (by decide), if_neg (by decide), if_pos rfl, if_neg h1]
  · intro h
    have h1 : ¬ (1 ≤ count ∧ count ≤ 20) := by omega
    unfold specPattern
    rw [if_neg (by decide), if_neg (by decide), if_neg (by decide), if_neg (by decide),
      if_pos rfl, if_neg h1]

/-- C17, as stated, fails: for a phrase that is one run of 4 Minim notes, of
11 Quaver notes or of 21 Semiquaver notes the pass emits nothing, and for one
run of 6 Crochtet notes it emits one chord, not 6. -/
theorem C17_counterexample_long_runs :
    harmonyLoop I (List.replicate 4 ⟨0, 100, Minim, 5⟩) zeroCounters = [] ∧
      harmonyLoop I (List.replicate 6 ⟨0, 100, Crochtet, 5⟩) zeroCounters =
        [Action.buildChord I Crochtet] ∧
      harmonyLoop I (List.replicate 11 ⟨0, 100, Quaver, 5⟩) zeroCounters = [] ∧
      harmonyLoop I (List.replicate 21 ⟨0, 100, Semiquaver, 5⟩) zeroCounters = [] ∧
      (Melody.mk [] C Ionian ⟨4, 4⟩ 1 [(1, List.replicate 4 ⟨0, 100, Minim, 5⟩)]).BuildHarmony 3 =
        Outcome.returned [] := by
  decide

/-- C17, amended: for a run of L notes that exceeds the tabulated range of
its duration class, `BuildHarmony` emits exactly L chords of CrochtetDot for
CrochtetDot (L > 5), exactly one chord of Crochtet for Crochtet (L > 5), and
nothing for Minim (L > 3), Quaver (L > 10) and Semiquaver (L > 20). -/
theorem C17_calls_beyond_the_table (d : Degree) (duration : NoteDuration) (run : List Note)
    (hrun : ∀ n ∈ run, n.Note ≠ Rest ∧ n.Duration = duration) :
    (duration = CrochtetDot → 5 < run.length →
        harmonyLoop d run zeroCounters =
          List.replicate run.length (Action.buildChord d CrochtetDot)) ∧
      (duration = Crochtet → 5 < run.length →
        harmonyLoop d run zeroCounters = [Action.buildChord d Crochtet]) ∧
      (duration = Minim → 3 < run.length → harmonyLoop d run zeroCounters = []) ∧
      (duration = Quaver → 10 < run.length → harmonyLoop d run zeroCounters = []) ∧
      (duration = Semiquaver → 20 < run.length → harmonyLoop d run zeroCounters = []) := by
  have hloop : 0 < run.length → harmonyLoop d run zeroCounters =
      (specPattern duration run.length).map (Fill.toAction d) := by
    intro hpos
    have hne : run ≠ [] := by
      intro h
      rw [h] at hpos
      simp at hpos
    rw [harmonyLoop_of_run d duration run hne hrun]
    exact runActions_eq_specPattern d duration run.length
  refine ⟨?_, ?_, ?_, ?_, ?_⟩ <;> intro hd hlen <;> rw [hloop (by omega), hd] <;>
    unfold specPattern
  · have h1 : ¬ (2 ≤ run.length ∧ run.length ≤ 5) := by omega
    rw [if_neg (by decide), if_pos rfl, if_neg h1]
    simp [Fill.toAction]
  · have h1 : ¬ (2 ≤ run.length ∧ run.length ≤ 5) := by omega
    rw [if_neg (by decide), if_neg (by decide), if_pos rfl, if_neg h1]
    rfl
  · have h1 : ¬ (1 ≤ run.length ∧ run.length ≤ 3) := by omega
    rw [if_pos rfl, if_neg h1]
    rfl
  · have h1 : ¬ (1 ≤ run.length ∧ run.length ≤ 10) := by omega
    rw [if_neg (by decide), if_neg (by decide), if_neg (by decide), if_pos rfl, if_neg h1]
    rfl
  · have h1 : ¬ (1 ≤ run.length ∧ run.length ≤ 20) := by omega
    rw [if_neg (by decide), if_neg (by decide), if_neg (by decide), if_neg (by decide),
      if_pos rfl, if_neg h1]
    rfl

/-- C17 amended, at a run of 6 CrochtetDot notes and a run of 6 Crochtet
notes. -/
theorem C17_calls_beyond_the_table_witness :
    harmonyLoop V (List.replicate 6 ⟨0, 100, CrochtetDot, 5⟩) zeroCounters =
        List.replicate 6 (Action.buildChord V CrochtetDot) ∧
      harmonyLoop V (List.replicate 6 ⟨0, 100, Crochtet, 5⟩) zeroCounters =
        [Action.buildChord V Crochtet] :=
  ⟨(C17_calls_beyond_the_table V CrochtetDot (List.replicate 6 ⟨0, 100, CrochtetDot, 5⟩)
      (by decide)).1 rfl (by decide),
    (C17_calls_beyond_the_table V Crochtet (List.replicate 6 ⟨0, 100, Crochtet, 5⟩)
      (by decide)).2.1 rfl (by decide)⟩

/-! ## Measures: theorems -/

theorem GetTicksOfDuration_eq_beats (ts : TimeSignature) (d : NoteDuration) (wr : SMF)
    (hres : 0 < wr.Resolution) (h4 : 4 ∣ wr.Resolution) :
    ts.GetTicksOfDuration d wr = beats d := by
  obtain ⟨pos, res⟩ := wr
  obtain ⟨k, hk⟩ := h4
  simp only at hk hres
  subst hk
  have hk0 : (k : ℚ) ≠ 0 := by
    have : 0 < k := by omega
    exact_mod_cast this.ne'
  have h8 : 4 * k / 2 = 2 * k := by omega
  have h16 : 4 * k / 4 = k := by omega
  unfold TimeSignature.GetTicksOfDuration beats SMF.Ticks16th SMF.Ticks8th SMF.Ticks4th
  simp only [h8, h16]
  split_ifs <;> push_cast <;> field_simp <;> ring

/-- C14: in `BuildMelody`, for a writer whose resolution is a positive
multiple of 4, when a note would overrun the measure (nextPosition > numerator)
`nextRelativePosition` is reset to 0, and with the remaining space numerator −
position equal to 0.25, 0.5, 0.75, 1 or 1.5 beats the duration of the note is
forced to Semiquaver, Quaver, Semiquaver after an inserted Quaver rest,
Crochtet, or Crochtet after an inserted Quaver rest, the inserted rest and the
corrected note lasting exactly the remaining space; for every other remainder
the note is emitted unchanged and no rest is inserted. -/
theorem C14_groove_quantization (m : Melody) (n : Note) (st : MelodyState)
    (hres : 0 < st.wr.Resolution) (h4 : 4 ∣ st.wr.Resolution)
    (hover : st.nextRelativePosition + m.TimeSignature.GetTicksOfDuration n.Duration st.wr >
      (m.TimeSignature.Numerator : ℚ)) :
    (melodyStep m n st).nextRelativePosition = 0 ∧
      ((m.TimeSignature.Numerator : ℚ) - st.nextRelativePosition = 0.25 →
        (melodyStep m n st).Notes = st.Notes ++ [{ n with Duration := Semiquaver }] ∧
        (melodyStep m n st).Phrases =
          appendPhrase st.Phrases (m.CurrentMeasure st.wr).1 { n with Duration := Semiquaver } ∧
        (melodyStep m n st).wr = Note.Play { n with Duration := Semiquaver } st.wr ∧
        m.TimeSignature.GetTicksOfDuration Semiquaver st.wr = 0.25) ∧
      ((m.TimeSignature.Numerator : ℚ) - st.nextRelativePosition = 0.5 →
        (melodyStep m n st).Notes = st.Notes ++ [{ n with Duration := Quaver }] ∧
        (melodyStep m n st).Phrases =
          appendPhrase st.Phrases (m.CurrentMeasure st.wr).1 { n with Duration := Quaver } ∧
        (melodyStep m n st).wr = Note.Play { n with Duration := Quaver } st.wr ∧
        m.TimeSignature.GetTicksOfDuration Quaver st.wr = 0.5) ∧
      ((m.TimeSignature.Numerator : ℚ) - st.nextRelativePosition = 0.75 →
        (melodyStep m n st).Notes = st.Notes ++ [{ n with Duration := Semiquaver }] ∧
        (melodyStep m n st).Phrases =
          appendPhrase (appendPhrase st.Phrases (m.CurrentMeasure st.wr).1 quaverRest)
            (m.CurrentMeasure st.wr).1 { n with Duration := Semiquaver } ∧
        (melodyStep m n st).wr =
          Note.Play { n with Duration := Semiquaver } (quaverRest.Play st.wr) ∧
        m.TimeSignature.GetTicksOfDuration quaverRest.Duration st.wr +
          m.TimeSignature.GetTicksOfDuration Semiquaver st.wr = 0.75) ∧
      ((m.TimeSignature.Numerator : ℚ) - st.nextRelativePosition = 1 →
        (melodyStep m n st).Notes = st.Notes ++ [{ n with Duration := Crochtet }] ∧
        (melodyStep m n st).Phrases =
          appendPhrase st.Phrases (m.CurrentMeasure st.wr).1 { n with Duration := Crochtet } ∧
        (melodyStep m n st).wr = Note.Play { n with Duration := Crochtet } st.wr ∧
        m.TimeSignature.GetTicksOfDuration Crochtet st.wr = 1) ∧
      ((m.TimeSignature.Numerator : ℚ) - st.nextRelativePosition = 1.5 →
        (melodyStep m n st).Notes = st.Notes ++ [{ n with Duration := Crochtet }] ∧
        (melodyStep m n st).Phrases =
          appendPhrase (appendPhrase st.Phrases (m.CurrentMeasure st.wr).1 quaverRest)
            (m.CurrentMeasure st.wr).1 { n with Duration := Crochtet } ∧
        (melodyStep m n st).wr =
          Note.Play { n with Duration := Crochtet } (quaverRest.Play st.wr) ∧
        m.TimeSignature.GetTicksOfDuration quaverRest.Duration st.wr +
          m.TimeSignature.GetTicksOfDuration Crochtet st.wr = 1.5) ∧
      ((m.TimeSignature.Numerator : ℚ) - st.nextRelativePosition ≠ 0.25 →
        (m.TimeSignature.Numerator : ℚ) - st.nextRelativePosition ≠ 0.5 →
        (m.TimeSignature.Numerator : ℚ) - st.nextRelativePosition ≠ 0.75 →
        (m.TimeSignature.Numerator : ℚ) - st.nextRelativePosition ≠ 1 →
        (m.TimeSignature.Numerator : ℚ) - st.nextRelativePosition ≠ 1.5 →
        (melodyStep m n st).Notes = st.Notes ++ [n] ∧
        (melodyStep m n st).Phrases = appendPhrase st.Phrases (m.CurrentMeasure st.wr).1 n ∧
        (melodyStep m n st).wr = n.Play st.wr) := by
  have hticks := fun d => GetTicksOfDuration_eq_beats m.TimeSignature d st.wr hres h4
  refine ⟨?_, ?_, ?_, ?_, ?_, ?_, ?_⟩
  · simp only [melodyStep, groove, if_pos hover]
    split_ifs <;> rfl
  · intro h
    have h2 : ¬ ((m.TimeSignature.Numerator : ℚ) - st.nextRelativePosition = 0.5) := by
      rw [h]; norm_num
    simp only [melodyStep, groove, if_pos hover, if_pos h]
    refine ⟨trivial, trivial, trivial, ?_⟩
    rw [hticks]
    norm_num [beats, Semiquaver, Minim, CrochtetDot, Crochtet, Quaver]
  · intro h
    have h1 : ¬ ((m.TimeSignature.Numerator : ℚ) - st.nextRelativePosition = 0.25) := by
      rw [h]; norm_num
    simp only [melodyStep, groove, if_pos hover, if_neg h1, if_pos h]
    refine ⟨trivial, trivial, trivial, ?_⟩
    rw [hticks]
    norm_num [beats, Semiquaver, Minim, CrochtetDot, Crochtet, Quaver]
  · intro h
    have h1 : ¬ ((m.TimeSignature.Numerator : ℚ) - st.nextRelativePosition = 0.25) := by
      rw [h]; norm_num
    have h2 : ¬ ((m.TimeSignature.Numerator : ℚ) - st.nextRelativePosition = 0.5) := by
      rw [h]; norm_num
    simp only [melodyStep, groove, if_pos hover, if_neg h1, if_neg h2, if_pos h]
    refine ⟨trivial, rfl, rfl, ?_⟩
    rw [hticks, hticks]
    norm_num [beats, quaverRest, Semiquaver, Minim, CrochtetDot, Crochtet, Quaver]
  · intro h
    have h1 : ¬ ((m.TimeSignature.Numerator : ℚ) - st.nextRelativePosition = 0.25) := by
      rw [h]; norm_num
    have h2 : ¬ ((m.TimeSignature.Numerator : ℚ) - st.nextRelativePosition = 0.5) := by
      rw [h]; norm_num
    have h3 : ¬ ((m.TimeSignature.Numerator : ℚ) - st.nextRelativePosition = 0.75) := by
      rw [h]; norm_num
    simp only [melodyStep, groove, if_pos hover, if_neg h1, if_neg h2, if_neg h3, if_pos h]
    refine ⟨trivial, trivial, trivial, ?_⟩
    rw [hticks]
    norm_num [beats, Semiquaver, Minim, CrochtetDot, Crochtet, Quaver]
  · intro h
    have h1 : ¬ ((m.TimeSignature.Numerator : ℚ) - st.nextRelativePosition = 0.25) := by
      rw [h]; norm_num
    have h2 : ¬ ((m.TimeSignature.Numerator : ℚ) - st.nextRelativePosition = 0.5) := by
      rw [h]; norm_num
    have h3 : ¬ ((m.TimeSignature.Numerator : ℚ) - st.nextRelativePosition = 0.75) := by
      rw [h]; norm_num
    have h4 : ¬ ((m.TimeSignature.Numerator : ℚ) - st.nextRelativePosition = 1) := by
      rw [h]; norm_num
    simp only [melodyStep, groove, if_pos hover, if_neg h1, if_neg h2, if_neg h3, if_neg h4,
      if_pos h]
    refine ⟨trivial, rfl, rfl, ?_⟩
    rw [hticks, hticks]
    norm_num [beats, quaverRest, Semiquaver, Minim, CrochtetDot, Crochtet, Quaver]
  · intro h1 h2 h3 h4 h5
    simp only [melodyStep, groove, if_pos hover, if_neg h1, if_neg h2, if_neg h3, if_neg h4,
      if_neg h5]
    exact ⟨trivial, trivial, trivial⟩

/-- C14, at a measure of 3 beats with 0.75 beats left and a Minim note: an
eighth-note rest is inserted, the note becomes a Semiquaver, and the position
is reset. -/
theorem C14_groove_quantization_witness :
    (melodyStep (Melody.mk [] C Ionian ⟨3, 4⟩ 0 []) ⟨7, 100, Minim, 5⟩
        ⟨⟨2160, 960⟩, [], 2.25, []⟩).nextRelativePosition = 0 ∧
      (melodyStep (Melody.mk [] C Ionian ⟨3, 4⟩ 0 []) ⟨7, 100, Minim, 5⟩
        ⟨⟨2160, 960⟩, [], 2.25, []⟩).Notes = [⟨7, 100, Semiquaver, 5⟩] ∧
      (melodyStep (Melody.mk [] C Ionian ⟨3, 4⟩ 0 []) ⟨7, 100, Minim, 5⟩
        ⟨⟨2160, 960⟩, [], 2.25, []⟩).Phrases =
        [(1, [⟨Rest, 100, Quaver, 5⟩, ⟨7, 100, Semiquaver, 5⟩])] :=
  have h := C14_groove_quantization (Melody.mk [] C Ionian ⟨3, 4⟩ 0 []) ⟨7, 100, Minim, 5⟩
    ⟨⟨2160, 960⟩, [], 2.25, []⟩ (by decide) (by decide)
    (by
      rw [GetTicksOfDuration_eq_beats _ _ _ (by decide) (by decide)]
      norm_num [beats, Minim])
  have h75 := h.2.2.2.1 (by norm_num)
  ⟨h.1, h75.1, h75.2.1⟩

/-! ## The duration of each note -/

theorem lastDuration_cons (init : NoteDuration) (x : Char) (xs : List Char) :
    lastDuration init (x :: xs) = lastDuration ((durationDictionary.lookup x).getD init) xs := by
  unfold lastDuration
  rw [List.reverse_cons, List.findSome?_append]
  cases xs.reverse.findSome? (fun c => durationDictionary.lookup c) with
  | some v => rfl
  | none =>
    simp only [Option.or, List.findSome?_cons, List.findSome?_nil]
    cases durationDictionary.lookup x <;> rfl

theorem lastDuration_append_of_none (init : NoteDuration) (xs ys : List Char)
    (h : ∀ x ∈ ys, durationDictionary.lookup x = none) :
    lastDuration init (xs ++ ys) = lastDuration init xs := by
  unfold lastDuration
  rw [List.reverse_append, List.findSome?_append]
  have hnone : ys.reverse.findSome? (fun c => durationDictionary.lookup c) = none :=
    List.findSome?_eq_none_iff.2 (fun x hx => h x (List.mem_reverse.1 hx))
  rw [hnone]
  rfl

theorem loopDuration_of_none (l : List Char) :
    ∀ st : PhraseState, (∀ x ∈ l, durationDictionary.lookup x = none) →
      loopDuration l st =
        { notePerPhrase := st.notePerPhrase + l.length,
          noteDurationForPhrase := st.noteDurationForPhrase } := by
  induction l with
  | nil => intro st _; simp [loopDuration]
  | cons x xs ih =>
    intro st h
    rw [loopDuration_cons, h x (List.mem_cons_self _ _)]
    simp only
    rw [ih _ (fun y hy => h y (List.mem_cons_of_mem _ hy))]
    simp only [List.length_cons, Nat.cast_add, Nat.cast_one, PhraseState.mk.injEq, and_true]
    ring

theorem loopDuration_of_first_digit (pre : List Char) (d : Char) (post : List Char)
    (dv : NoteDuration) (hd : durationDictionary.lookup d = some dv) :
    ∀ st : PhraseState, (∀ x ∈ pre, durationDictionary.lookup x = none) →
      loopDuration (pre ++ d :: post) st =
        { notePerPhrase := st.notePerPhrase + pre.length + 1, noteDurationForPhrase := dv } := by
  induction pre with
  | nil =>
    intro st _
    rw [List.nil_append, loopDuration_cons, hd]
    simp
  | cons x xs ih =>
    intro st h
    rw [List.cons_append, loopDuration_cons, h x (List.mem_cons_self _ _)]
    simp only
    rw [ih _ (fun y hy => h y (List.mem_cons_of_mem _ hy))]
    simp only [List.length_cons, Nat.cast_add, Nat.cast_one, PhraseState.mk.injEq, and_true]
    ring

theorem split_at_first_digit (l : List Char) :
    (∀ x ∈ l, durationDictionary.lookup x = none) ∨
    ∃ pre d post dv, l = pre ++ d :: post ∧
      (∀ x ∈ pre, durationDictionary.lookup x = none) ∧
      durationDictionary.lookup d = some dv := by
  induction l with
  | nil => left; intro x hx; simp at hx
  | cons c rest ih =>
    cases hc : durationDictionary.lookup c with
    | some dv => exact Or.inr ⟨[], c, rest, dv, rfl, by intro x hx; simp at hx, hc⟩
    | none =>
      rcases ih with h | ⟨pre, d, post, dv, hl, hpre, hd⟩
      · left
        intro x hx
        rcases List.mem_cons.1 hx with h1 | h1
        · rw [h1]; exact hc
        · exact h x h1
      · right
        refine ⟨c :: pre, d, post, dv, by rw [hl]; rfl, ?_, hd⟩
        intro x hx
        rcases List.mem_cons.1 hx with h1 | h1
        · rw [h1]; exact hc
        · exact hpre x h1

theorem sliceAfterFirstByte_of_one_byte {c : Char} (h : c.utf8Size = 1) (rest : List Char) :
    sliceAfterFirstByte c rest = rest := by
  unfold sliceAfterFirstByte
  rw [h]
  rfl

theorem findSome_of_first_digit (pre : List Char) (d : Char) (post : List Char)
    (dv : NoteDuration) (hd : durationDictionary.lookup d = some dv)
    (hpre : ∀ x ∈ pre, durationDictionary.lookup x = none) :
    (pre ++ d :: post).findSome? (fun c => durationDictionary.lookup c) = some dv := by
  rw [List.findSome?_append, List.findSome?_eq_none_iff.2 hpre, List.findSome?_cons, hd]
  rfl


/-- One note of the loop: the duration the note gets, and the phrase state
that is left for the next note. -/
theorem phraseFollows_step (c : Char) (rest : List Char) (st : PhraseState)
    (cur : NoteDuration) (hc : c.utf8Size = 1) (h : PhraseFollows st (c :: rest) cur) :
    (if st.notePerPhrase = 0 then loopDuration (sliceAfterFirstByte c rest) st
        else st).noteDurationForPhrase =
      (rest.findSome? (fun x => durationDictionary.lookup x)).getD cur ∧
    ∀ c2 rest2, rest = c2 :: rest2 →
      PhraseFollows
        { (if st.notePerPhrase = 0 then loopDuration (sliceAfterFirstByte c rest) st
            else st) with
          notePerPhrase := (if st.notePerPhrase = 0 then
            loopDuration (sliceAfterFirstByte c rest) st else st).notePerPhrase - 1 }
        rest ((durationDictionary.lookup c2).getD cur) := by
  rw [sliceAfterFirstByte_of_one_byte hc]
  -- what a phrase of `pre.length` notes up to the digit `d` leaves
  have hphrase : ∀ (pre : List Char) (d : Char) (post : List Char) (dv : NoteDuration),
      rest = pre ++ d :: post → (∀ x ∈ pre, durationDictionary.lookup x = none) →
      durationDictionary.lookup d = some dv →
      ∀ c2 rest2, rest = c2 :: rest2 →
        PhraseFollows { notePerPhrase := (pre.length : Int), noteDurationForPhrase := dv }
          rest ((durationDictionary.lookup c2).getD cur) := by
    intro pre d post dv hl hpre hd c2 rest2 hr
    cases pre with
    | nil =>
      left
      rw [hl, List.nil_append] at hr
      injection hr with h1 _
      rw [← h1, hd]
      exact ⟨rfl, rfl⟩
    | cons p ps =>
      right; left
      exact ⟨p :: ps, d, post, dv, hl, by simp, rfl, hpre, hd, rfl⟩
  have hnone : (∀ x ∈ rest, durationDictionary.lookup x = none) →
      ∀ (n : Int) c2 rest2, rest = c2 :: rest2 →
        PhraseFollows { notePerPhrase := n, noteDurationForPhrase := cur }
          rest ((durationDictionary.lookup c2).getD cur) := by
    intro hall n c2 rest2 hr
    right; right
    refine ⟨hall, ?_⟩
    rw [hall c2 (by rw [hr]; exact List.mem_cons_self _ _)]
    rfl
  rcases h with ⟨h0, hdur⟩ | ⟨pre, d, post, dv, hl, hne, hnpp, hpre, hd, hdur⟩ | ⟨hall, hdur⟩
  · rw [if_pos h0]
    rcases split_at_first_digit rest with hall | ⟨pre, d, post, dv, hl, hpre, hd⟩
    · rw [loopDuration_of_none rest st hall, List.findSome?_eq_none_iff.2 hall]
      refine ⟨hdur, ?_⟩
      intro c2 rest2 hr
      simp only [hdur]
      exact hnone hall _ c2 rest2 hr
    · rw [hl, loopDuration_of_first_digit pre d post dv hd st hpre,
        findSome_of_first_digit pre d post dv hd hpre, ← hl]
      refine ⟨rfl, ?_⟩
      intro c2 rest2 hr
      have hn : st.notePerPhrase + (pre.length : Int) + 1 - 1 = (pre.length : Int) := by
        rw [h0]; ring
      simp only [hn]
      exact hphrase pre d post dv hl hpre hd c2 rest2 hr
  · cases pre with
    | nil => exact absurd rfl hne
    | cons p ps =>
      have hpos : st.notePerPhrase ≠ 0 := by
        rw [hnpp]
        simp only [List.length_cons, Nat.cast_add, Nat.cast_one]
        omega
      rw [if_neg hpos]
      rw [List.cons_append] at hl
      injection hl with _ hl
      have hps : ∀ x ∈ ps, durationDictionary.lookup x = none :=
        fun x hx => hpre x (List.mem_cons_of_mem _ hx)
      refine ⟨?_, ?_⟩
      · rw [hl, findSome_of_first_digit ps d post dv hd hps, hdur]
        rfl
      · intro c2 rest2 hr
        have hn : st.notePerPhrase - 1 = (ps.length : Int) := by
          rw [hnpp]
          simp only [List.length_cons, Nat.cast_add, Nat.cast_one]
          ring
        simp only [hn, hdur]
        exact hphrase ps d post dv hl hps hd c2 rest2 hr
  · have hrest : ∀ x ∈ rest, durationDictionary.lookup x = none :=
      fun x hx => hall x (List.mem_cons_of_mem _ hx)
    have hst1 : (if st.notePerPhrase = 0 then loopDuration rest st
        else st).noteDurationForPhrase = cur := by
      split
      · rw [loopDuration_of_none rest st hrest]; exact hdur
      · exact hdur
    refine ⟨?_, ?_⟩
    · rw [hst1, List.findSome?_eq_none_iff.2 hrest]
      rfl
    · intro c2 rest2 hr
      simp only [hst1]
      exact hnone hrest _ c2 rest2 hr


theorem notesLoop_duration_at (m : Melody) (cls : List Classifier) (l : List Char) :
    ∀ (st : PhraseState) (prev : Option Note) (cur : NoteDuration),
      (∀ c ∈ l, c.utf8Size = 1) → PhraseFollows st l cur →
      ∀ (k : Nat) (n : Note), (notesLoop m cls l st prev)[k]? = some n →
        n.Duration =
          ((l.drop (k + 1)).findSome? (fun x => durationDictionary.lookup x)).getD
            (lastDuration cur ((l.take (k + 1)).drop 1)) := by
  induction l with
  | nil => intro st prev cur _ _ k n hn; simp [notesLoop] at hn
  | cons c rest ih =>
    intro st prev cur hl h k n hn
    rw [notesLoop] at hn
    obtain ⟨hdur, hnext⟩ := phraseFollows_step c rest st cur (hl c (List.mem_cons_self _ _)) h
    cases k with
    | zero =>
      simp only [List.getElem?_cons_zero, Option.some.injEq] at hn
      rw [← hn]
      exact hdur
    | succ k =>
      simp only [List.getElem?_cons_succ] at hn
      cases rest with
      | nil => simp [notesLoop] at hn
      | cons c2 rest2 =>
        rw [ih _ _ _ (fun x hx => hl x (List.mem_cons_of_mem _ hx)) (hnext c2 rest2 rfl) k n hn]
        simp only [List.drop_succ_cons, List.take_succ_cons, List.drop_zero]
        rw [lastDuration_cons]

theorem drop_one_eq_take_drop (t : List Char) (k : Nat) :
    t.drop 1 = (t.take (k + 1)).drop 1 ++ t.drop (k + 1) := by
  cases t with
  | nil => rfl
  | cons c rest =>
    simp only [List.drop_succ_cons, List.take_succ_cons, List.drop_zero]
    exact (List.take_append_drop k rest).symm

theorem utf8Size_of_mem_runes : ∀ c ∈ runes, c.utf8Size = 1 := by
  decide

/-- The note of index `k` of the loop over the whole trimmed hash has the
duration the specification words. -/
theorem notesLoop_specDuration (m : Melody) (cls : List Classifier) (t : List Char)
    (ht : ∀ c ∈ t, c ∈ runes) (k : Nat) (n : Note)
    (hn : (notesLoop m cls t { notePerPhrase := 0, noteDurationForPhrase := 0 } none)[k]? =
      some n) :
    n.Duration = specDuration t k := by
  rw [notesLoop_duration_at m cls t _ _ 0 (fun c hc => utf8Size_of_mem_runes c (ht c hc))
    (Or.inl ⟨rfl, rfl⟩) k n hn]
  unfold specDuration
  cases hf : (t.drop (k + 1)).findSome? (fun x => durationDictionary.lookup x) with
  | some d => rfl
  | none =>
    simp only [Option.getD_none]
    rw [drop_one_eq_take_drop t k, lastDuration_append_of_none _ _ _
      (List.findSome?_eq_none_iff.1 hf)]

/-- C19: for every hash whose trimmed form `t` is over the 16-symbol alphabet
(and whatever the sort returns), the durations of the notes of `NewMelody`, in
order, are those the specification words, index by index: the class of the
first character '0' to '6' after the index of the note, else the class of the
last such character at an index 1 or more, else the unset value 0. -/
theorem C19_duration_of_each_note (sortSlice : List Classifier → List Classifier)
    (hash : String) (ht : ∀ c ∈ TrimLeft hash.data ['0'], c ∈ runes) :
    (NewMelody sortSlice hash).Notes.map Note.Duration =
      (List.range (TrimLeft hash.data ['0']).length).map
        (specDuration (TrimLeft hash.data ['0'])) := by
  unfold NewMelody
  simp only
  apply List.ext_getElem
  · simp [notesLoop_length]
  · intro i h1 h2
    simp only [List.getElem_map, List.getElem_range]
    exact notesLoop_specDuration _ _ _ ht i _ (List.getElem?_eq_getElem _)

/-- C19 at the hash "0a3bc1d": the trimmed hash is "a3bc1d", the notes 0 takes
the class of '3', the notes 1 to 3 that of '1', and the last note, with no
digit after it, keeps that of '1'. -/
theorem C19_duration_of_each_note_witness :
    (∀ c ∈ TrimLeft "0a3bc1d".data ['0'], c ∈ runes) ∧
      (NewMelody stableSort "0a3bc1d").Notes.map Note.Duration =
        [Quaver, CrochtetDot, CrochtetDot, CrochtetDot, CrochtetDot, CrochtetDot] :=
  ⟨by decide, (C19_duration_of_each_note stableSort "0a3bc1d" (by decide)).trans (by decide)⟩

/-! ## The loop over the measures -/

theorem specDuration_of_last_digit (pre : List Char) (d : Char) (dv : NoteDuration)
    (hne : pre ≠ []) (hpre : ∀ x ∈ pre, durationDictionary.lookup x = none)
    (hd : durationDictionary.lookup d = some dv) (k : Nat) :
    specDuration (pre ++ [d]) k = dv := by
  unfold specDuration
  cases pre with
  | nil => exact absurd rfl hne
  | cons p ps =>
    have hlast : lastDuration 0 ((p :: ps ++ [d]).drop 1) = dv := by
      simp only [List.cons_append, List.drop_succ_cons, List.drop_zero]
      unfold lastDuration
      rw [List.reverse_append, List.reverse_singleton, List.singleton_append,
        List.findSome?_cons, hd]
      rfl
    rw [hlast]
    cases hf : ((p :: ps ++ [d]).drop (k + 1)).findSome?
        (fun c => durationDictionary.lookup c) with
    | none => rfl
    | some v =>
      obtain ⟨x, hx, hxv⟩ := List.exists_of_findSome?_eq_some hf
      have hx1 : x ∈ p :: ps ++ [d] := List.mem_of_mem_drop hx
      rcases List.mem_append.1 hx1 with h | h
      · rw [hpre x h] at hxv
        cases hxv
      · rw [List.mem_singleton.1 h, hd] at hxv
        simp only [Option.getD_some]
        exact (Option.some.inj hxv).symm


theorem trimLeft_minimHash :
    TrimLeft minimHash.data ['0'] = List.replicate 253 'c' ++ ['0'] := by
  rfl

theorem timeSignature_minimHash (sortSlice : List Classifier → List Classifier) :
    (NewMelody sortSlice minimHash).TimeSignature = { Numerator := 2, Denominator := 4 } := by
  show NewTimeSignature minimHash = _
  unfold NewTimeSignature
  rw [trimLeft_minimHash]
  have h : minimHash.data = List.replicate 253 'c' ++ ['0'] := rfl
  simp only [h, Nat.sub_self]

theorem notes_minimHash (sortSlice : List Classifier → List Classifier) :
    (NewMelody sortSlice minimHash).Notes.length = 254 ∧
      ∀ n ∈ (NewMelody sortSlice minimHash).Notes, n.Duration = Minim := by
  unfold NewMelody
  simp only
  rw [trimLeft_minimHash]
  refine ⟨by rw [notesLoop_length, List.length_append, List.length_replicate]; rfl, ?_⟩
  intro n hn
  obtain ⟨k, hk⟩ := List.getElem?_of_mem hn
  have ht : ∀ c ∈ List.replicate 253 'c' ++ ['0'], c ∈ runes := by
    intro c hc
    rcases List.mem_append.1 hc with h | h
    · rw [List.eq_of_mem_replicate h]; decide
    · rw [List.mem_singleton.1 h]; decide
  rw [notesLoop_specDuration _ _ _ ht k n hk]
  refine specDuration_of_last_digit _ '0' Minim ?_ ?_ (by decide) k
  · decide
  · intro x hx
    rw [List.eq_of_mem_replicate hx]
    decide


/-- A half note in a measure of two beats: the writer moves by two quarter
notes, and `nextRelativePosition` goes from 0 to 2 and from 2 to 0. -/
theorem melodyStep_minim (m : Melody) (n : Note) (st : MelodyState)
    (hnum : m.TimeSignature.Numerator = 2) (hn : n.Duration = Minim)
    (hres : 0 < st.wr.Resolution) (h4 : 4 ∣ st.wr.Resolution)
    (hpos : st.nextRelativePosition = 0 ∨ st.nextRelativePosition = 2) :
    (melodyStep m n st).wr =
        { Position := st.wr.Position + 2 * st.wr.Resolution, Resolution := st.wr.Resolution } ∧
      ((melodyStep m n st).nextRelativePosition = 0 ∨
        (melodyStep m n st).nextRelativePosition = 2) := by
  have hplay : n.Play st.wr =
      { Position := st.wr.Position + 2 * st.wr.Resolution,
        Resolution := st.wr.Resolution } := by
    unfold Note.Play Note.ApplyMeterDuration SMF.Forward
    rw [hn, if_neg (by decide)]
    simp only [Minim, SMF.mk.injEq, and_true]
    omega
  have hticks := GetTicksOfDuration_eq_beats m.TimeSignature n.Duration st.wr hres h4
  rw [hn] at hticks
  have hb : beats Minim = 2 := by norm_num [beats]
  rcases hpos with h0 | h2
  · have hno : ¬ (st.nextRelativePosition + m.TimeSignature.GetTicksOfDuration n.Duration st.wr >
        (m.TimeSignature.Numerator : ℚ)) := by
      rw [hn, hticks, hb, h0, hnum]; norm_num
    simp only [melodyStep, groove, if_neg hno]
    refine ⟨hplay, Or.inr ?_⟩
    rw [hn, hticks, hb, h0]
    norm_num
  · have hover : st.nextRelativePosition + m.TimeSignature.GetTicksOfDuration n.Duration st.wr >
        (m.TimeSignature.Numerator : ℚ) := by
      rw [hn, hticks, hb, h2, hnum]; norm_num
    simp only [melodyStep, groove, if_pos hover]
    have hrem : (m.TimeSignature.Numerator : ℚ) - st.nextRelativePosition = 0 := by
      rw [h2, hnum]; norm_num
    rw [hrem]
    norm_num
    exact hplay

theorem melodyLoop_minim (m : Melody) (hnum : m.TimeSignature.Numerator = 2) (notes : List Note) :
    ∀ st : MelodyState, (∀ n ∈ notes, n.Duration = Minim) →
      0 < st.wr.Resolution → 4 ∣ st.wr.Resolution →
      (st.nextRelativePosition = 0 ∨ st.nextRelativePosition = 2) →
      (melodyLoop m notes st).wr =
        { Position := st.wr.Position + 2 * st.wr.Resolution * notes.length,
          Resolution := st.wr.Resolution } := by
  induction notes with
  | nil => intro st _ _ _ _; simp [melodyLoop]
  | cons n rest ih =>
    intro st hall hres h4 hpos
    obtain ⟨hwr, hnext⟩ := melodyStep_minim m n st hnum (hall n (List.mem_cons_self _ _))
      hres h4 hpos
    rw [melodyLoop, ih _ (fun x hx => hall x (List.mem_cons_of_mem _ hx))
      (by rw [hwr]; exact hres) (by rw [hwr]; exact h4) hnext, hwr]
    simp only [List.length_cons, SMF.mk.injEq, and_true]
    ring


theorem appendPhrase_nonempty (measure : Nat) (n : Note) :
    ∀ phrases : List (Nat × List Note), (∀ p ∈ phrases, p.2 ≠ []) →
      ∀ p ∈ appendPhrase phrases measure n, p.2 ≠ []
  | [], _, p, hp => by
    rw [appendPhrase, List.mem_singleton] at hp
    rw [hp]
    exact List.cons_ne_nil _ _
  | (k, ns) :: rest, h, p, hp => by
    rw [appendPhrase] at hp
    split at hp
    · rcases List.mem_cons.1 hp with h1 | h1
      · rw [h1]
        simp
      · exact h p (List.mem_cons_of_mem _ h1)
    · rcases List.mem_cons.1 hp with h1 | h1
      · rw [h1]
        exact h (k, ns) (List.mem_cons_self _ _)
      · exact appendPhrase_nonempty measure n rest
          (fun q hq => h q (List.mem_cons_of_mem _ hq)) p h1

theorem groove_phrases_nonempty (m : Melody) (wr : SMF) (phrases : List (Nat × List Note))
    (measure : Nat) (n : Note) (rel next : ℚ) (h : ∀ p ∈ phrases, p.2 ≠ []) :
    ∀ p ∈ (groove m wr phrases measure n rel next).Phrases, p.2 ≠ [] := by
  have hq := appendPhrase_nonempty measure quaverRest phrases h
  unfold groove
  simp only
  split_ifs <;> first | exact h | exact hq

theorem melodyStep_phrases_nonempty (m : Melody) (n : Note) (st : MelodyState)
    (h : ∀ p ∈ st.Phrases, p.2 ≠ []) : ∀ p ∈ (melodyStep m n st).Phrases, p.2 ≠ [] := by
  unfold melodyStep
  exact appendPhrase_nonempty _ _ _ (groove_phrases_nonempty m _ _ _ _ _ _ h)

theorem melodyLoop_phrases_nonempty (m : Melody) (notes : List Note) :
    ∀ st : MelodyState, (∀ p ∈ st.Phrases, p.2 ≠ []) →
      ∀ p ∈ (melodyLoop m notes st).Phrases, p.2 ≠ [] := by
  induction notes with
  | nil => intro st h; exact h
  | cons n rest ih =>
    intro st h
    rw [melodyLoop]
    exact ih _ (melodyStep_phrases_nonempty m n st h)

/-- No measure `BuildMelody` records is empty. -/
theorem BuildMelody_phrases_nonempty (m : Melody) (wr : SMF) :
    ∀ p ∈ (m.BuildMelody wr).1.Phrases, p.2 ≠ [] := by
  unfold Melody.BuildMelody
  exact melodyLoop_phrases_nonempty m _ _ (by intro p hp; simp at hp)

theorem mem_of_lookup_nat {β : Type} {a : Nat} {b : β} :
    ∀ {l : List (Nat × β)}, List.lookup a l = some b → (a, b) ∈ l
  | [], h => by simp at h
  | (k, v) :: es, h => by
    rw [List.lookup_cons] at h
    split at h
    · rename_i hk
      rw [beq_iff_eq] at hk
      rw [hk, Option.some.inj h]
      exact List.mem_cons_self _ _
    · exact List.mem_cons_of_mem _ (mem_of_lookup_nat h)

/-- With 255 measures the condition `i <= m.Measures` holds for every `uint8`,
and the loop over the measures is still running after any number of steps. -/
theorem harmonyMeasures_unfinished (m : Melody) (hM : m.Measures = 255)
    (hne : ∀ p ∈ m.Phrases, p.2 ≠ []) :
    ∀ steps i, i < 256 → harmonyMeasures m steps i = Outcome.unfinished := by
  intro steps
  induction steps with
  | zero => intro i _; rfl
  | succ steps ih =>
    intro i hi
    have hnext := ih ((i + 1) % 256) (Nat.mod_lt _ (by decide))
    rw [harmonyMeasures, if_pos (by rw [hM]; omega)]
    cases hl : m.Phrases.lookup i with
    | none => exact hnext
    | some phrase =>
      have hp := hne _ (mem_of_lookup_nat hl)
      cases phrase with
      | nil => exact absurd rfl hp
      | cons n rest =>
        simp only [harmonyMeasure]
        rw [hnext]
        rfl


/-- With fewer than 255 measures, none of them empty, the loop over the
measures returns: from the counter `i`, after `m.Measures + 2 - i` evaluations
of its condition. -/
theorem harmonyMeasures_returns (m : Melody) (hM : m.Measures < 255)
    (hne : ∀ p ∈ m.Phrases, p.2 ≠ []) :
    ∀ k i, i + k = m.Measures + 1 →
      ∃ calls, harmonyMeasures m (k + 1) i = Outcome.returned calls := by
  intro k
  induction k with
  | zero =>
    intro i hi
    refine ⟨[], ?_⟩
    rw [harmonyMeasures, if_neg (by omega)]
  | succ k ih =>
    intro i hi
    have hmod : (i + 1) % 256 = i + 1 := Nat.mod_eq_of_lt (by omega)
    obtain ⟨later, hlater⟩ := ih (i + 1) (by omega)
    rw [harmonyMeasures, if_pos (by omega), hmod, hlater]
    cases hl : m.Phrases.lookup i with
    | none => exact ⟨later, rfl⟩
    | some phrase =>
      have hp := hne _ (mem_of_lookup_nat hl)
      cases phrase with
      | nil => exact absurd rfl hp
      | cons n rest => exact ⟨_, rfl⟩

/-- 254 half notes in measures of two beats, from the position 0: `BuildMelody`
counts 255 measures. -/
theorem measures_of_minims (m : Melody) (hnum : m.TimeSignature.Numerator = 2)
    (hlen : m.Notes.length = 254) (hdur : ∀ n ∈ m.Notes, n.Duration = Minim) :
    (m.BuildMelody { Position := 0, Resolution := 960 }).1.Measures = 255 := by
  have hwr := melodyLoop_minim m hnum m.Notes
    { wr := { Position := 0, Resolution := 960 }, Phrases := [], nextRelativePosition := 0,
      Notes := [] } hdur (by norm_num) ⟨240, rfl⟩ (Or.inl rfl)
  unfold Melody.BuildMelody
  simp only
  rw [hwr, hlen]
  unfold Melody.CurrentMeasure
  rw [hnum]
  norm_num

theorem measures_minimHash (sortSlice : List Classifier → List Classifier) :
    ((NewMelody sortSlice minimHash).BuildMelody { Position := 0, Resolution := 960 }).1.Measures =
      255 :=
  measures_of_minims _ (by rw [timeSignature_minimHash sortSlice])
    (notes_minimHash sortSlice).1 (notes_minimHash sortSlice).2

/-- C18 fails on the code. The hash of 253 characters 'c' followed by '0' has
254 notes, all half notes in measures of two beats, so `BuildMelody` from the
position 0 (resolution 960) counts 255 measures; the loop of `BuildHarmony`
over the measures, whose counter is a `uint8`, is then still running after any
number of steps. The loop does return for every melody `BuildMelody` leaves
with fewer than 255 measures. -/
theorem C18_harmony_loop_never_ends_at_255 (sortSlice : List Classifier → List Classifier) :
    ((NewMelody sortSlice minimHash).BuildMelody
        { Position := 0, Resolution := 960 }).1.Measures = 255 ∧
      (∀ steps, ((NewMelody sortSlice minimHash).BuildMelody
        { Position := 0, Resolution := 960 }).1.BuildHarmony steps = Outcome.unfinished) ∧
      (∀ (m : Melody) (wr : SMF), (m.BuildMelody wr).1.Measures < 255 →
        ∃ calls, (m.BuildMelody wr).1.BuildHarmony ((m.BuildMelody wr).1.Measures + 1) =
          Outcome.returned calls) := by
  refine ⟨measures_minimHash sortSlice, ?_, ?_⟩
  · intro steps
    exact harmonyMeasures_unfinished _ (measures_minimHash sortSlice)
      (BuildMelody_phrases_nonempty _ _) steps 1 (by decide)
  · intro m wr hM
    exact harmonyMeasures_returns _ hM (BuildMelody_phrases_nonempty _ _) _ 1 (by omega)

/-! ## The pitches of the melody notes -/

theorem mem_of_lookup_char {β : Type} {a : Char} {b : β} :
    ∀ {l : List (Char × β)}, List.lookup a l = some b → (a, b) ∈ l
  | [], h => by simp at h
  | (k, v) :: es, h => by
    by_cases hak : a = k
    · subst hak
      simp [List.lookup] at h
      simp [h]
    · rw [lookup_cons_ne hak] at h
      exact List.mem_cons_of_mem _ (mem_of_lookup_char h)

theorem loopScale_range (l : List Classifier) : 0 ≤ loopScale l ∧ loopScale l ≤ 11 := by
  induction l with
  | nil => decide
  | cons c rest ih =>
    rw [loopScale_cons]
    cases h : scaleDictionary.lookup c.char with
    | none => exact ih
    | some v =>
      have hall : ∀ kv ∈ scaleDictionary, 0 ≤ kv.2 ∧ kv.2 ≤ 11 := by decide
      exact hall _ (mem_of_lookup_char h)

theorem loopMode_le (l : List Classifier) : loopMode l ≤ Locrian := by
  induction l with
  | nil => decide
  | cons c rest ih =>
    rw [loopMode_cons]
    cases h : modeDictionary.lookup c.char with
    | none => exact ih
    | some v =>
      have hall : ∀ kv ∈ modeDictionary, kv.2 ≤ Locrian := by decide
      exact hall _ (mem_of_lookup_char h)

theorem degrees_eq_modeIntervals (m : Melody)
    (hlo : -2147483648 ≤ m.Scale) (hhi : m.Scale ≤ 2147483636) (hmode : m.Mode ≤ Locrian) :
    degrees m = (modeIntervals m.Mode).map (fun k => m.Scale + k) := by
  obtain ⟨notes, scale, mode, ts, measures, phrases⟩ := m
  simp only [Locrian] at hmode hlo hhi
  have w : ∀ k : Int, 0 ≤ k → k ≤ 11 → wrapInt32 (scale + k) = scale + k := fun k h0 h1 =>
    wrapInt32_eq_self _ (by omega) (by omega)
  interval_cases mode <;>
    simp [degrees, modeIntervals, Melody.Tonic, Melody.Second, Melody.Third, Melody.Quarte,
      Melody.Quinte, Melody.Sixte, Melody.Seventh, Ionian, Dorian, Phrygian, Lydian,
      Mixolydian, Aeolian, Locrian, w]

theorem noteOfIndex_zero_or_degree (m : Melody) (k : Nat) :
    noteOfIndex m k = 0 ∨ noteOfIndex m k ∈ degrees m := by
  rw [noteOfIndex_eq_degreeOfRank]
  unfold degreeOfRank degrees
  split_ifs <;> simp

theorem notesLoop_pitch (m : Melody) (cls : List Classifier) :
    ∀ (t : List Char) (st : PhraseState) (prev : Option Note),
      ∀ n ∈ notesLoop m cls t st prev, ∃ c ∈ t, n.Note = noteOfIndex m (indexOfC cls c)
  | [], _, _, n, hn => by simp [notesLoop] at hn
  | c :: rest, st, prev, n, hn => by
    rw [notesLoop] at hn
    rcases List.mem_cons.1 hn with h | h
    · rw [h]
      exact ⟨c, List.mem_cons_self _ _, rfl⟩
    · obtain ⟨x, hx, hn2⟩ := notesLoop_pitch m cls rest _ _ n h
      exact ⟨x, List.mem_cons_of_mem _ hx, hn2⟩


theorem modeIntervals_range (mode : Mode) (hmode : mode ≤ Locrian) :
    ∀ k ∈ modeIntervals mode, 0 ≤ k ∧ k ≤ 11 := by
  simp only [Locrian] at hmode
  interval_cases mode <;> decide

/-- The pitch of every note of `NewMelody` is 0 or the scale plus an interval
of the mode. -/
theorem NewMelody_pitch (sortSlice : List Classifier → List Classifier) (hash : String) :
    ∀ n ∈ (NewMelody sortSlice hash).Notes,
      n.Note = 0 ∨ n.Note ∈ (modeIntervals (NewMelody sortSlice hash).Mode).map
        (fun k => (NewMelody sortSlice hash).Scale + k) := by
  intro n hn
  have hS := loopScale_range (ranking sortSlice hash)
  have hM := loopMode_le (ranking sortSlice hash)
  rw [← NewMelody_Scale] at hS
  rw [← NewMelody_Mode] at hM
  rw [← degrees_eq_modeIntervals _ (by omega) (by omega) hM]
  obtain ⟨c, _, hc⟩ := notesLoop_pitch _ _ _ _ _ n hn
  rw [hc]
  exact noteOfIndex_zero_or_degree _ _

/-- C21, as stated, fails: the hash "fff33" gives F Lydian, whose Quinte is
F + 7 = 12, the value of `Rest`; the three notes of 'f', the first of the
ranking, have that pitch, under either sort. -/
theorem C21_counterexample_note_with_pitch_of_rest :
    (NewMelody stableSort "fff33").Notes.map Note.Note = [12, 12, 12, 9, 9] ∧
      (NewMelody presortedOrReverseSort "fff33").Notes.map Note.Note = [12, 12, 12, 9, 9] ∧
      (NewMelody stableSort "fff33").Scale = F ∧ (NewMelody stableSort "fff33").Mode = Lydian ∧
      (NewMelody stableSort "fff33").Quinte = Rest ∧ Rest = 12 := by
  decide

/-- C21, amended: for every hash (and whatever the sort returns), every note
of `NewMelody(hash).Notes` has pitch 0 or the scale plus an interval of the
mode; a note has the pitch of `Rest` (12) only when the scale is not C and
12 − Scale is an interval of the mode; so no note has the pitch of `Rest` when
the scale is C. -/
theorem C21_pitch_of_rest_only_as_a_degree (sortSlice : List Classifier → List Classifier)
    (hash : String) :
    (∀ n ∈ (NewMelody sortSlice hash).Notes,
        n.Note = 0 ∨ n.Note ∈ (modeIntervals (NewMelody sortSlice hash).Mode).map
          (fun k => (NewMelody sortSlice hash).Scale + k)) ∧
      (∀ n ∈ (NewMelody sortSlice hash).Notes, n.Note = Rest →
        (NewMelody sortSlice hash).Scale ≠ C ∧
          Rest - (NewMelody sortSlice hash).Scale ∈
            modeIntervals (NewMelody sortSlice hash).Mode) ∧
      ((NewMelody sortSlice hash).Scale = C →
        ∀ n ∈ (NewMelody sortSlice hash).Notes, n.Note ≠ Rest) := by
  have hM : (NewMelody sortSlice hash).Mode ≤ Locrian := loopMode_le (ranking sortSlice hash)
  have hrest : ∀ n ∈ (NewMelody sortSlice hash).Notes, n.Note = Rest →
      (NewMelody sortSlice hash).Scale ≠ C ∧
        Rest - (NewMelody sortSlice hash).Scale ∈
          modeIntervals (NewMelody sortSlice hash).Mode := by
    intro n hn hr
    rcases NewMelody_pitch sortSlice hash n hn with h0 | hk
    · rw [hr] at h0
      exact absurd h0 (by decide)
    · obtain ⟨k, hk, hnk⟩ := List.mem_map.1 hk
      have hrange := modeIntervals_range _ hM k hk
      rw [hr] at hnk
      simp only [Rest, C] at hnk ⊢
      constructor
      · omega
      · have hk2 : (12 : Int) - (NewMelody sortSlice hash).Scale = k := by omega
        rw [hk2]
        exact hk
  refine ⟨NewMelody_pitch sortSlice hash, hrest, ?_⟩
  intro hC n hn hr
  exact (hrest n hn hr).1 hC

/-! ## The pitches of a chord -/

/-- The seven degree values are the scale plus one of the seven interval
vectors; a mode that is none of the seven takes the last `return` of every
`switch`, which gives the vector of Dorian. -/
theorem degrees_eq_vector (m : Melody)
    (hlo : -2147483648 ≤ m.Scale) (hhi : m.Scale ≤ 2147483636) :
    ∃ iv ∈ intervalVectors, degrees m = iv.map (fun k => m.Scale + k) := by
  obtain ⟨notes, scale, mode, ts, measures, phrases⟩ := m
  simp only at hlo hhi
  have w : ∀ k : Int, 0 ≤ k → k ≤ 11 → wrapInt32 (scale + k) = scale + k := fun k h0 h1 =>
    wrapInt32_eq_self _ (by omega) (by omega)
  by_cases h0 : mode = Ionian
  · exact ⟨modeIntervals Ionian, by simp [intervalVectors], by
      subst h0
      simp [degrees, modeIntervals, Melody.Tonic, Melody.Second, Melody.Third, Melody.Quarte,
        Melody.Quinte, Melody.Sixte, Melody.Seventh, Ionian, Dorian, Phrygian, Lydian,
        Mixolydian, Aeolian, Locrian, w]⟩
  by_cases h2 : mode = Phrygian
  · exact ⟨modeIntervals Phrygian, by simp [intervalVectors], by
      subst h2
      simp [degrees, modeIntervals, Melody.Tonic, Melody.Second, Melody.Third, Melody.Quarte,
        Melody.Quinte, Melody.Sixte, Melody.Seventh, Ionian, Dorian, Phrygian, Lydian,
        Mixolydian, Aeolian, Locrian, w]⟩
  by_cases h3 : mode = Lydian
  · exact ⟨modeIntervals Lydian, by simp [intervalVectors], by
      subst h3
      simp [degrees, modeIntervals, Melody.Tonic, Melody.Second, Melody.Third, Melody.Quarte,
        Melody.Quinte, Melody.Sixte, Melody.Seventh, Ionian, Dorian, Phrygian, Lydian,
        Mixolydian, Aeolian, Locrian, w]⟩
  by_cases h4 : mode = Mixolydian
  · exact ⟨modeIntervals Mixolydian, by simp [intervalVectors], by
      subst h4
      simp [degrees, modeIntervals, Melody.Tonic, Melody.Second, Melody.Third, Melody.Quarte,
        Melody.Quinte, Melody.Sixte, Melody.Seventh, Ionian, Dorian, Phrygian, Lydian,
        Mixolydian, Aeolian, Locrian, w]⟩
  by_cases h5 : mode = Aeolian
  · exact ⟨modeIntervals Aeolian, by simp [intervalVectors], by
      subst h5
      simp [degrees, modeIntervals, Melody.Tonic, Melody.Second, Melody.Third, Melody.Quarte,
        Melody.Quinte, Melody.Sixte, Melody.Seventh, Ionian, Dorian, Phrygian, Lydian,
        Mixolydian, Aeolian, Locrian, w]⟩
  by_cases h6 : mode = Locrian
  · exact ⟨modeIntervals Locrian, by simp [intervalVectors], by
      subst h6
      simp [degrees, modeIntervals, Melody.Tonic, Melody.Second, Melody.Third, Melody.Quarte,
        Melody.Quinte, Melody.Sixte, Melody.Seventh, Ionian, Dorian, Phrygian, Lydian,
        Mixolydian, Aeolian, Locrian, w]⟩
  · refine ⟨modeIntervals Dorian, by simp [intervalVectors], ?_⟩
    simp only [degrees, Melody.Tonic, Melody.Second, Melody.Third, Melody.Quarte,
      Melody.Quinte, Melody.Sixte, Melody.Seventh, h0, h2, h3, h4, h5, h6, or_self, if_false]
    simp [modeIntervals, Ionian, Dorian, w]


theorem intervalVectors_eq :
    intervalVectors =
      [[0, 2, 4, 5, 7, 9, 11], [0, 2, 3, 5, 7, 9, 10], [0, 1, 3, 5, 7, 8, 10],
        [0, 2, 4, 6, 7, 9, 11], [0, 2, 4, 5, 7, 9, 10], [0, 2, 3, 5, 7, 8, 10],
        [0, 1, 3, 5, 6, 8, 10]] := by
  decide

theorem BuildChord_voices (m : Melody) (d : Degree) (duration : NoteDuration) (hd : d ≤ 6) :
    (m.BuildChord d duration).Notes =
      [chordVoice m d duration 0, chordVoice m d duration 1, chordVoice m d duration 2] := by
  interval_cases d <;> rfl

theorem chordVoice_tone (m : Melody) (iv : List Int) (k j : Nat) (duration : NoteDuration)
    (hdeg : degrees m = iv.map (fun x => m.Scale + x)) :
    (chordVoice m k duration j).GetNoteTone =
      wrapInt32 ((iv.map (fun x => m.Scale + x)).getD ((k + 2 * j) % 7) 0 +
        wrapInt32 (12 * (if k + 2 * j < 7 then 3 else 4))) := by
  unfold chordVoice Note.GetNoteTone
  rw [hdeg]

/-- C23: for every scale (any `int32` value that leaves room for the largest
interval and four octaves), every mode and every degree I..VII, the absolute
pitches `GetNoteTone` of the three voices `BuildChord` builds are strictly
ascending and stacked in thirds: the second voice is 3 or 4 above the first,
the third 3 or 4 above the second and 6 or 7 above the first. -/
theorem C23_chord_is_a_stack_of_thirds (m : Melody) (d : Degree) (duration : NoteDuration)
    (hd : d ≤ VII) (hlo : -2147483648 ≤ m.Scale) (hhi : m.Scale ≤ 2147483588) :
    ∃ v1 v2 v3 : Note, (m.BuildChord d duration).Notes = [v1, v2, v3] ∧
      v1.GetNoteTone < v2.GetNoteTone ∧ v2.GetNoteTone < v3.GetNoteTone ∧
      (v2.GetNoteTone - v1.GetNoteTone = 3 ∨ v2.GetNoteTone - v1.GetNoteTone = 4) ∧
      (v3.GetNoteTone - v2.GetNoteTone = 3 ∨ v3.GetNoteTone - v2.GetNoteTone = 4) ∧
      (v3.GetNoteTone - v1.GetNoteTone = 6 ∨ v3.GetNoteTone - v1.GetNoteTone = 7) := by
  obtain ⟨iv, hiv, hdeg⟩ := degrees_eq_vector m hlo (by omega)
  simp only [VII] at hd
  refine ⟨chordVoice m d duration 0, chordVoice m d duration 1, chordVoice m d duration 2,
    BuildChord_voices m d duration hd, ?_⟩
  rw [chordVoice_tone m iv d 0 duration hdeg, chordVoice_tone m iv d 1 duration hdeg,
    chordVoice_tone m iv d 2 duration hdeg]
  clear hdeg
  rw [intervalVectors_eq] at hiv
  simp only [List.mem_cons, List.mem_singleton, List.not_mem_nil, or_false] at hiv
  generalize m.Scale = s at hlo hhi ⊢
  rcases hiv with h | h | h | h | h | h | h <;> subst h <;> interval_cases d <;>
    simp only [List.map_cons, List.map_nil, List.getD_cons_zero, List.getD_cons_succ,
      Nat.reduceMul, Nat.reduceAdd, Nat.reduceMod, Nat.reduceLT, if_true, if_false,
      wrapInt32] <;>
    omega

/-- C23 at the chord on the degree V of D Dorian: the absolute pitches are 45,
48 and 52, a third of 3 and a third of 4. -/
theorem C23_chord_is_a_stack_of_thirds_witness :
    (V ≤ VII ∧ (-2147483648 : Int) ≤ D ∧ (D : Int) ≤ 2147483588) ∧
      ((Melody.mk [] D Dorian ⟨4, 4⟩ 0 []).BuildChord V Crochtet).Notes.map Note.GetNoteTone =
        [45, 48, 52] ∧
      ∃ v1 v2 v3 : Note,
        ((Melody.mk [] D Dorian ⟨4, 4⟩ 0 []).BuildChord V Crochtet).Notes = [v1, v2, v3] ∧
        v1.GetNoteTone < v2.GetNoteTone ∧ v2.GetNoteTone < v3.GetNoteTone ∧
        (v2.GetNoteTone - v1.GetNoteTone = 3 ∨ v2.GetNoteTone - v1.GetNoteTone = 4) ∧
        (v3.GetNoteTone - v2.GetNoteTone = 3 ∨ v3.GetNoteTone - v2.GetNoteTone = 4) ∧
        (v3.GetNoteTone - v1.GetNoteTone = 6 ∨ v3.GetNoteTone - v1.GetNoteTone = 7) :=
  ⟨⟨by decide, by decide, by decide⟩, by decide,
    C23_chord_is_a_stack_of_thirds (Melody.mk [] D Dorian ⟨4, 4⟩ 0 []) V Crochtet (by decide)
      (by decide) (by decide)⟩


/-! ## The duration of the calls of a run -/

theorem totalBeats_replicate (a : Action) (n : Nat) :
    totalBeats (List.replicate n a) = (n : ℚ) * a.beats := by
  unfold totalBeats
  rw [List.map_replicate, List.sum_replicate]
  simp

theorem totalBeats_minim (d : Degree) (L : Nat) (hne : minimActions d L ≠ []) :
    totalBeats (minimActions d L) = (L : ℚ) * beats Minim := by
  by_cases h : L ≤ 3
  · interval_cases L <;>
      first
      | exact absurd rfl hne
      | norm_num [totalBeats, minimActions, Action.beats, beats, Minim, CrochtetDot, Crochtet,
          Quaver, Semiquaver]
  · exfalso
    apply hne
    rw [minimActions_eq, specPattern, if_pos rfl, if_neg (by omega)]
    rfl


theorem totalBeats_crochtetDot (d : Degree) (L : Nat) (hL : 1 ≤ L) :
    totalBeats (crochtetDotActions d L) = (L : ℚ) * beats CrochtetDot ↔ L ≠ 4 := by
  by_cases h : L ≤ 5
  · interval_cases L <;>
      norm_num [totalBeats, crochtetDotActions, Action.beats, beats, Minim, CrochtetDot,
        Crochtet, Quaver, Semiquaver]
  · have hrep : crochtetDotActions d L = List.replicate L (Action.buildChord d CrochtetDot) := by
      rw [crochtetDotActions_eq, specPattern, if_neg (by decide), if_pos rfl,
        if_neg (by omega)]
      simp [Fill.toAction]
    rw [hrep, totalBeats_replicate]
    simp only [Action.beats, true_iff]
    omega

theorem totalBeats_crochtet (d : Degree) (L : Nat) (hL : 1 ≤ L) :
    totalBeats (crochtetActions d L) = (L : ℚ) * beats Crochtet ↔ L < 6 := by
  by_cases h : L ≤ 5
  · interval_cases L <;>
      norm_num [totalBeats, crochtetActions, Action.beats, beats, Minim, CrochtetDot,
        Crochtet, Quaver, Semiquaver]
  · have hone : crochtetActions d L = [Action.buildChord d Crochtet] := by
      rw [crochtetActions_eq, specPattern, if_neg (by decide), if_neg (by decide), if_pos rfl,
        if_neg (by omega)]
      rfl
    rw [hone]
    have hL6 : (6 : ℚ) ≤ L := by exact_mod_cast (by omega : 6 ≤ L)
    have hb : beats Crochtet = 1 := by norm_num [beats, Minim, CrochtetDot, Crochtet]
    constructor
    · intro heq
      exfalso
      simp only [totalBeats, List.map_cons, List.map_nil, List.sum_cons, List.sum_nil,
        Action.beats, hb] at heq
      linarith
    · intro hlt
      omega

theorem totalBeats_quaver (d : Degree) (L : Nat) (hne : quaverActions d L ≠ []) :
    totalBeats (quaverActions d L) = (L : ℚ) * beats Quaver ↔ L ∉ [4, 7, 8, 9, 10] := by
  by_cases h : L ≤ 10
  · interval_cases L <;>
      first
      | exact absurd rfl hne
      | norm_num [totalBeats, quaverActions, Action.beats, beats, Minim, CrochtetDot,
          Crochtet, Quaver, Semiquaver]
  · exfalso
    apply hne
    rw [quaverActions_eq, specPattern, if_neg (by decide), if_neg (by decide),
      if_neg (by decide), if_pos rfl, if_neg (by omega)]
    rfl

theorem totalBeats_semiquaver (d : Degree) (L : Nat) (hne : semiquaverActions d L ≠ []) :
    totalBeats (semiquaverActions d L) = (L : ℚ) * beats Semiquaver := by
  by_cases h : L ≤ 20
  · interval_cases L <;>
      first
      | exact absurd rfl hne
      | norm_num [totalBeats, semiquaverActions, Action.beats, beats, Minim, CrochtetDot,
          Crochtet, Quaver, Semiquaver]
  · exfalso
    apply hne
    rw [semiquaverActions_eq, specPattern, if_neg (by decide), if_neg (by decide),
      if_neg (by decide), if_neg (by decide), if_pos rfl, if_neg (by omega)]
    rfl


theorem runActions_minim (d : Degree) (L : Nat) : runActions d Minim L = minimActions d L := by
  rw [runActions, if_pos rfl]

theorem runActions_crochtetDot (d : Degree) (L : Nat) :
    runActions d CrochtetDot L = crochtetDotActions d L := by
  rw [runActions, if_neg (by decide), if_pos rfl]

theorem runActions_crochtet (d : Degree) (L : Nat) :
    runActions d Crochtet L = crochtetActions d L := by
  rw [runActions, if_neg (by decide), if_neg (by decide), if_pos rfl]

theorem runActions_quaver (d : Degree) (L : Nat) : runActions d Quaver L = quaverActions d L := by
  rw [runActions, if_neg (by decide), if_neg (by decide), if_neg (by decide), if_pos rfl]

theorem runActions_semiquaver (d : Degree) (L : Nat) :
    runActions d Semiquaver L = semiquaverActions d L := by
  rw [runActions, if_neg (by decide), if_neg (by decide), if_neg (by decide),
    if_neg (by decide), if_pos rfl]

/-- Entries of the table that do not add up: for a run of 7 Quaver notes,
which last 3.5 beats, the calls are a chord of Minim, a silence of Crochtet and
a chord of Crochtet, 4 beats; the calls for 4 notes of Quaver last 2.5 beats,
not 2, those for 4 notes of CrochtetDot 4.5 beats, not 6, and the one chord for
6 notes of Crochtet 1 beat, not 6. -/
theorem uneven_runs_totals :
    runActions I Quaver 7 =
        [Action.buildChord I Minim, Action.silence Crochtet, Action.buildChord I Crochtet] ∧
      totalBeats (runActions I Quaver 7) = 4 ∧ (7 : ℚ) * beats Quaver = 7 / 2 ∧
      totalBeats (runActions I Quaver 4) = 5 / 2 ∧ (4 : ℚ) * beats Quaver = 2 ∧
      totalBeats (runActions I CrochtetDot 4) = 9 / 2 ∧ (4 : ℚ) * beats CrochtetDot = 6 ∧
      totalBeats (runActions I Crochtet 6) = 1 ∧ (6 : ℚ) * beats Crochtet = 6 := by
  refine ⟨rfl, ?_, ?_, ?_, ?_, ?_, ?_, ?_, ?_⟩ <;>
    norm_num [runActions, quaverActions, crochtetDotActions, crochtetActions, totalBeats,
      Action.beats, beats, Minim, CrochtetDot, Crochtet, Quaver, Semiquaver]

/-- The entries of the table that add up: for every duration class D and
every run length L of at least 1 for which `BuildHarmony` emits a non-empty
pattern, other than 4 notes of CrochtetDot, 6 or more notes of Crochtet, and 4,
7, 8, 9 or 10 notes of Quaver, the total duration of the emitted chords and
silences equals L times the duration of D. -/
theorem even_runs_last_as_long_as_the_notes (d : Degree) (D : NoteDuration) (L : Nat)
    (hD : D ∈ durationClasses) (hL : 1 ≤ L) (hne : runActions d D L ≠ [])
    (hu : ¬ UnevenRun D L) :
    totalBeats (runActions d D L) = (L : ℚ) * beats D := by
  simp only [durationClasses, List.mem_cons, List.mem_singleton, List.not_mem_nil,
    or_false] at hD
  rcases hD with h | h | h | h | h <;> subst h
  · rw [runActions_minim] at hne ⊢
    exact totalBeats_minim d L hne
  · rw [runActions_crochtetDot, totalBeats_crochtetDot d L hL]
    intro h4
    exact hu (Or.inl ⟨rfl, h4⟩)
  · rw [runActions_crochtet, totalBeats_crochtet d L hL]
    by_contra h6
    exact hu (Or.inr (Or.inl ⟨rfl, by omega⟩))
  · rw [runActions_quaver] at hne ⊢
    rw [totalBeats_quaver d L hne]
    intro hq
    exact hu (Or.inr (Or.inr ⟨rfl, hq⟩))
  · rw [runActions_semiquaver] at hne ⊢
    exact totalBeats_semiquaver d L hne

/-- The run of 5 Quaver notes on the degree V: a silence of Quaver and a chord
of Minim, 2.5 beats, as long as the five notes. -/
theorem even_runs_at_five_quavers :
    (Quaver ∈ durationClasses ∧ 1 ≤ 5 ∧ runActions V Quaver 5 ≠ [] ∧ ¬ UnevenRun Quaver 5) ∧
      totalBeats (runActions V Quaver 5) = ((5 : Nat) : ℚ) * beats Quaver :=
  ⟨⟨by decide, by decide, by decide, by simp [UnevenRun, Quaver, CrochtetDot, Crochtet]⟩,
    even_runs_last_as_long_as_the_notes V Quaver 5 (by decide) (by decide) (by decide)
      (by simp [UnevenRun, Quaver, CrochtetDot, Crochtet])⟩

/-- The writer moves by the beats of the duration class of the note, chord or
silence played: `ApplyMeterDuration` forwards it by `beats` quarter notes. -/
theorem ApplyMeterDuration_beats (n : Note) (wr : SMF) (hD : n.Duration ∈ durationClasses)
    (h4 : 4 ∣ wr.Resolution) :
    ((n.ApplyMeterDuration wr).Position : ℚ) =
      (wr.Position : ℚ) + beats n.Duration * (wr.Resolution : ℚ) ∧
    (n.ApplyMeterDuration wr).Resolution = wr.Resolution := by
  obtain ⟨pos, res⟩ := wr
  obtain ⟨k, hk⟩ := h4
  simp only at hk
  subst hk
  simp only [durationClasses, List.mem_cons, List.mem_singleton, List.not_mem_nil,
    or_false] at hD
  refine ⟨?_, ?_⟩
  · rcases hD with h | h | h | h | h <;> rw [h] <;>
      simp only [Note.ApplyMeterDuration, SMF.Forward, h, Minim, CrochtetDot, Crochtet, Quaver,
        Semiquaver, beats] <;> norm_num
    · rw [show 4 * (4 * k) / 2 = 8 * k by omega]; push_cast; ring
    · rw [show 4 * (4 * k) * 3 / 8 = 6 * k by omega]; push_cast; ring
    · rw [show 4 * (4 * k) / 8 = 2 * k by omega]; push_cast; ring
    · rw [show 4 * (4 * k) / 16 = k by omega]; ring
  · unfold Note.ApplyMeterDuration SMF.Forward
    split <;> rfl


/-! ## The note after a measure that is exactly full -/

/-- A note of a duration class, with a writer whose resolution is a positive
multiple of 4: the body of the loop of `BuildMelody` in a measure the note
does not overrun. -/
theorem melodyStep_inside (m : Melody) (n : Note) (st : MelodyState)
    (hin : ¬ st.nextRelativePosition + m.TimeSignature.GetTicksOfDuration n.Duration st.wr >
      (m.TimeSignature.Numerator : ℚ))
    (hd : 0 < m.TimeSignature.GetTicksOfDuration n.Duration st.wr) :
    (melodyStep m n st).nextRelativePosition =
        st.nextRelativePosition + m.TimeSignature.GetTicksOfDuration n.Duration st.wr ∧
      (melodyStep m n st).wr = n.Play st.wr := by
  simp only [melodyStep, groove, if_neg hin]
  refine ⟨?_, trivial⟩
  rw [if_neg]
  intro h
  linarith

theorem melodyStep_after_full_position (m : Melody) (n : Note) (st : MelodyState)
    (hfull : st.nextRelativePosition = (m.TimeSignature.Numerator : ℚ))
    (hd : 0 < m.TimeSignature.GetTicksOfDuration n.Duration st.wr) :
    (melodyStep m n st).nextRelativePosition = 0 := by
  have hover : st.nextRelativePosition + m.TimeSignature.GetTicksOfDuration n.Duration st.wr >
      (m.TimeSignature.Numerator : ℚ) := by
    rw [hfull]; linarith
  simp only [melodyStep, groove, if_pos hover]
  split_ifs <;> rfl

theorem Play_resolution (n : Note) (wr : SMF) : (n.Play wr).Resolution = wr.Resolution := by
  unfold Note.Play Note.ApplyMeterDuration SMF.Forward
  split <;> rfl

theorem melodyStep_resolution (m : Melody) (n : Note) (st : MelodyState) :
    (melodyStep m n st).wr.Resolution = st.wr.Resolution := by
  unfold melodyStep
  simp only [Play_resolution]
  unfold groove
  simp only
  split_ifs <;> rfl

/-- Three Crochtet notes in 2/4 from the start of a measure: the first two fill
the measure, and the third leaves `nextRelativePosition` at 0. -/
theorem crochtets_in_two_four (m : Melody) (hnum : m.TimeSignature.Numerator = 2) (c : Note)
    (hc : c.Duration = Crochtet) (st : MelodyState) (hres : 0 < st.wr.Resolution)
    (h4 : 4 ∣ st.wr.Resolution) (h0 : st.nextRelativePosition = 0) :
    (melodyStep m c (melodyStep m c st)).nextRelativePosition = 2 ∧
      (melodyStep m c (melodyStep m c (melodyStep m c st))).nextRelativePosition = 0 := by
  have hticks : ∀ s : MelodyState, s.wr.Resolution = st.wr.Resolution →
      m.TimeSignature.GetTicksOfDuration c.Duration s.wr = 1 := by
    intro s hs
    rw [GetTicksOfDuration_eq_beats _ _ _ (by rw [hs]; exact hres) (by rw [hs]; exact h4), hc]
    norm_num [beats, Minim, CrochtetDot, Crochtet]
  have r1 := melodyStep_resolution m c st
  have r2 := (melodyStep_resolution m c (melodyStep m c st)).trans r1
  have s1 := (melodyStep_inside m c st (by rw [hticks st rfl, h0, hnum]; norm_num)
    (by rw [hticks st rfl]; norm_num)).1
  rw [hticks st rfl, h0] at s1
  have s2 := (melodyStep_inside m c (melodyStep m c st)
    (by rw [hticks _ r1, s1, hnum]; norm_num) (by rw [hticks _ r1]; norm_num)).1
  rw [hticks _ r1, s1] at s2
  have hfull : (melodyStep m c (melodyStep m c st)).nextRelativePosition =
      (m.TimeSignature.Numerator : ℚ) := by
    rw [s2, hnum]; norm_num
  refine ⟨by rw [s2]; norm_num, ?_⟩
  exact melodyStep_after_full_position m c _ hfull (by rw [hticks _ r2]; norm_num)

/-- C25, as stated, fails: in 2/4, from the position 0 (resolution 960), two
Crochtet notes fill the first measure exactly, `nextRelativePosition` is 2, the
numerator; after a third Crochtet note, 1 beat long, `nextRelativePosition` is
0 and not 1. -/
theorem C25_counterexample_note_not_counted :
    (Melody.mk [] C Ionian ⟨2, 4⟩ 0 []).TimeSignature.Numerator = 2 ∧
      TimeSignature.GetTicksOfDuration ⟨2, 4⟩ Crochtet ⟨1920, 960⟩ = 1 ∧
      (melodyLoop (Melody.mk [] C Ionian ⟨2, 4⟩ 0 [])
        [⟨7, 100, Crochtet, 5⟩, ⟨7, 100, Crochtet, 5⟩]
        ⟨⟨0, 960⟩, [], 0, []⟩).nextRelativePosition = 2 ∧
      (melodyLoop (Melody.mk [] C Ionian ⟨2, 4⟩ 0 [])
        [⟨7, 100, Crochtet, 5⟩, ⟨7, 100, Crochtet, 5⟩, ⟨7, 100, Crochtet, 5⟩]
        ⟨⟨0, 960⟩, [], 0, []⟩).nextRelativePosition = 0 := by
  have h := crochtets_in_two_four (Melody.mk [] C Ionian ⟨2, 4⟩ 0 []) rfl
    ⟨7, 100, Crochtet, 5⟩ rfl ⟨⟨0, 960⟩, [], 0, []⟩ (by decide) (by decide) rfl
  refine ⟨rfl, ?_, h.1, h.2⟩
  rw [GetTicksOfDuration_eq_beats _ _ _ (by decide) (by decide)]
  norm_num [beats, Minim, CrochtetDot, Crochtet]

/-- C25, amended: in `BuildMelody`, when the notes processed so far fill the
current measure exactly (`nextRelativePosition` equals the numerator), the next
note, of a duration d > 0, is handled as an overrun with the remainder 0: it is
recorded and played unchanged, no rest is inserted, and after it is processed
`nextRelativePosition` is 0. -/
theorem C25_note_after_a_full_measure (m : Melody) (n : Note) (st : MelodyState)
    (hfull : st.nextRelativePosition = (m.TimeSignature.Numerator : ℚ))
    (hd : 0 < m.TimeSignature.GetTicksOfDuration n.Duration st.wr) :
    (melodyStep m n st).nextRelativePosition = 0 ∧
      (melodyStep m n st).Notes = st.Notes ++ [n] ∧
      (melodyStep m n st).Phrases = appendPhrase st.Phrases (m.CurrentMeasure st.wr).1 n ∧
      (melodyStep m n st).wr = n.Play st.wr := by
  have hover : st.nextRelativePosition + m.TimeSignature.GetTicksOfDuration n.Duration st.wr >
      (m.TimeSignature.Numerator : ℚ) := by
    rw [hfull]; linarith
  have hrem : (m.TimeSignature.Numerator : ℚ) - st.nextRelativePosition = 0 := by
    rw [hfull]; ring
  have h1 : ¬ ((m.TimeSignature.Numerator : ℚ) - st.nextRelativePosition = 0.25) := by
    rw [hrem]; norm_num
  have h2 : ¬ ((m.TimeSignature.Numerator : ℚ) - st.nextRelativePosition = 0.5) := by
    rw [hrem]; norm_num
  have h3 : ¬ ((m.TimeSignature.Numerator : ℚ) - st.nextRelativePosition = 0.75) := by
    rw [hrem]; norm_num
  have h4 : ¬ ((m.TimeSignature.Numerator : ℚ) - st.nextRelativePosition = 1) := by
    rw [hrem]; norm_num
  have h5 : ¬ ((m.TimeSignature.Numerator : ℚ) - st.nextRelativePosition = 1.5) := by
    rw [hrem]; norm_num
  simp only [melodyStep, groove, if_pos hover, if_neg h1, if_neg h2, if_neg h3, if_neg h4,
    if_neg h5]
  refine ⟨?_, trivial, trivial, trivial⟩
  split_ifs <;> rfl

/-- C25 amended, at a Crochtet note after a full measure of 2/4. -/
theorem C25_note_after_a_full_measure_witness :
    (melodyStep (Melody.mk [] C Ionian ⟨2, 4⟩ 0 []) ⟨7, 100, Crochtet, 5⟩
        ⟨⟨1920, 960⟩, [(1, [⟨7, 100, Crochtet, 5⟩, ⟨7, 100, Crochtet, 5⟩])], 2,
          [⟨7, 100, Crochtet, 5⟩, ⟨7, 100, Crochtet, 5⟩]⟩).nextRelativePosition = 0 ∧
      (melodyStep (Melody.mk [] C Ionian ⟨2, 4⟩ 0 []) ⟨7, 100, Crochtet, 5⟩
        ⟨⟨1920, 960⟩, [(1, [⟨7, 100, Crochtet, 5⟩, ⟨7, 100, Crochtet, 5⟩])], 2,
          [⟨7, 100, Crochtet, 5⟩, ⟨7, 100, Crochtet, 5⟩]⟩).Phrases =
        [(1, [⟨7, 100, Crochtet, 5⟩, ⟨7, 100, Crochtet, 5⟩]), (2, [⟨7, 100, Crochtet, 5⟩])] :=
  have h := C25_note_after_a_full_measure (Melody.mk [] C Ionian ⟨2, 4⟩ 0 [])
    ⟨7, 100, Crochtet, 5⟩
    ⟨⟨1920, 960⟩, [(1, [⟨7, 100, Crochtet, 5⟩, ⟨7, 100, Crochtet, 5⟩])], 2,
      [⟨7, 100, Crochtet, 5⟩, ⟨7, 100, Crochtet, 5⟩]⟩
    (by norm_num)
    (by
      rw [GetTicksOfDuration_eq_beats _ _ _ (by decide) (by decide)]
      norm_num [beats, Minim, CrochtetDot, Crochtet])
  ⟨h.1, h.2.2.1.trans (by decide)⟩

/-! ## The ranks of the symbols that occur -/

/-- In a list in descending order of count, with distinct symbols, a symbol
with a positive count stands before the number of positive counts. -/
theorem indexOf_lt_positive_counts :
    ∀ (l : List Classifier), l.Pairwise (fun x y => x.count ≥ y.count) →
      (l.map Classifier.char).Nodup →
      ∀ x ∈ l, 0 < x.count →
        (l.map Classifier.char).indexOf x.char < (l.filter (fun y => 0 < y.count)).length
  | [], _, _, x, hx, _ => by simp at hx
  | a :: rest, hp, hn, x, hx, hpos => by
    rw [List.pairwise_cons] at hp
    rw [List.map_cons, List.nodup_cons] at hn
    rw [List.map_cons]
    by_cases hax : a.char = x.char
    · have hxa : x = a := by
        rcases List.mem_cons.1 hx with h | h
        · exact h
        · exact absurd (hax ▸ List.mem_map_of_mem Classifier.char h) hn.1
      rw [List.indexOf_cons_eq _ hax, List.filter_cons_of_pos (by simpa [hxa] using hpos)]
      simp
    · have hxr : x ∈ rest := by
        rcases List.mem_cons.1 hx with h | h
        · exact absurd (h ▸ rfl) hax
        · exact h
      have ha : 0 < a.count := lt_of_lt_of_le hpos (hp.1 x hxr)
      rw [List.indexOf_cons_ne _ hax, List.filter_cons_of_pos (by simpa using ha),
        List.length_cons]
      exact Nat.succ_lt_succ (indexOf_lt_positive_counts rest hp.2 hn.2 x hxr hpos)

theorem runes_nodup : runes.Nodup := by
  decide

/-- A symbol of the trimmed hash has a rank below the number of distinct
symbols of the trimmed hash. -/
theorem rankIndex_lt_distinct {sortSlice : List Classifier → List Classifier}
    (hs : SliceSorts sortSlice) (hash : String) (c : Char)
    (hct : c ∈ TrimLeft hash.data ['0']) (hcr : c ∈ runes) :
    rankIndex (ranking sortSlice hash) c < (TrimLeft hash.data ['0']).dedup.length := by
  have hperm := ranking_perm hs hash
  have hchars := ranking_chars_perm hs hash
  have hnodup : ((ranking sortSlice hash).map Classifier.char).Nodup :=
    hchars.nodup_iff.2 runes_nodup
  have hcount : ∀ y ∈ ranking sortSlice hash,
      y.count = (TrimLeft hash.data ['0']).count y.char :=
    fun y hy => count_of_mem_classify (hperm.mem_iff.1 hy)
  obtain ⟨x, hx, hxc⟩ := List.mem_map.1 (hchars.mem_iff.2 hcr)
  have hpos : 0 < x.count := by
    rw [hcount x hx, hxc]
    exact List.count_pos_iff.2 hct
  have hlt := indexOf_lt_positive_counts _ (ranking_sorted hs hash) hnodup x hx hpos
  rw [hxc] at hlt
  refine lt_of_lt_of_le hlt ?_
  have hsub : ((ranking sortSlice hash).filter (fun y => 0 < y.count)).map Classifier.char ⊆
      (TrimLeft hash.data ['0']).dedup := by
    intro ch hch
    obtain ⟨y, hy, hyc⟩ := List.mem_map.1 hch
    rw [List.mem_filter] at hy
    have hy2 : 0 < y.count := by simpa using hy.2
    rw [hcount y hy.1, hyc] at hy2
    exact List.mem_dedup.2 (List.count_pos_iff.1 hy2)
  have hnd : (((ranking sortSlice hash).filter (fun y => 0 < y.count)).map
      Classifier.char).Nodup :=
    ((List.filter_sublist _).map _).nodup hnodup
  have hle := (List.subperm_of_subset hnd hsub).length_le
  rw [List.length_map] at hle
  exact hle


theorem noteOfIndex_degree (m : Melody) (k : Nat) (hk : k ≤ 12) : noteOfIndex m k ∈ degrees m := by
  interval_cases k <;> simp [noteOfIndex, degrees]

theorem degrees_range (m : Melody) (hlo : -2147483648 ≤ m.Scale) (hhi : m.Scale ≤ 2147483636)
    (hmode : m.Mode ≤ Locrian) : ∀ p ∈ degrees m, m.Scale ≤ p ∧ p ≤ m.Scale + 11 := by
  intro p hp
  rw [degrees_eq_modeIntervals m hlo hhi hmode] at hp
  obtain ⟨k, hk, hpk⟩ := List.mem_map.1 hp
  have hr := modeIntervals_range _ hmode k hk
  omega

/-- The register stays 5 between two pitches that are at most 13 apart. -/
theorem toneOf_of_close (prev : Option Note) (note : Int)
    (h : ∀ p, prev = some p → -13 ≤ p.Note - note ∧ p.Note - note ≤ 13) :
    toneOf prev note = 5 := by
  unfold toneOf
  cases prev with
  | none => rfl
  | some p =>
    obtain ⟨h1, h2⟩ := h p rfl
    have hw : wrapInt32 (p.Note - note) = p.Note - note :=
      wrapInt32_eq_self _ (by omega) (by omega)
    simp only [hw]
    split_ifs <;> first | rfl | omega

/-- When every pitch of the loop lies within an octave above `lo`, every note
of the loop has register 5. -/
theorem notesLoop_tone_five (m : Melody) (cls : List Classifier) (lo : Int) :
    ∀ (t : List Char) (st : PhraseState) (prev : Option Note),
      (∀ c ∈ t, lo ≤ noteOfIndex m (indexOfC cls c) ∧ noteOfIndex m (indexOfC cls c) ≤ lo + 11) →
      (∀ p, prev = some p → lo ≤ p.Note ∧ p.Note ≤ lo + 11) →
      ∀ n ∈ notesLoop m cls t st prev, n.Tone = 5
  | [], _, _, _, _, n, hn => by simp [notesLoop] at hn
  | c :: rest, st, prev, ht, hprev, n, hn => by
    rw [notesLoop] at hn
    have hc := ht c (List.mem_cons_self _ _)
    have htone : toneOf prev (noteOfIndex m (indexOfC cls c)) = 5 := by
      apply toneOf_of_close
      intro p hp
      have := hprev p hp
      omega
    rcases List.mem_cons.1 hn with h | h
    · rw [h]
      exact htone
    · refine notesLoop_tone_five m cls lo rest _ _
        (fun x hx => ht x (List.mem_cons_of_mem _ hx)) ?_ n h
      intro p hp
      injection hp with hp
      rw [← hp]
      exact hc

/-- C22: for every hash over the 16-symbol alphabet whose trimmed form has at
most 13 distinct symbols, and every sort that meets the contract of
`sort.Slice`, the symbols that occur have ranks 0 to 12, every note of
`NewMelody(hash).Notes` has a pitch in [Scale, Scale + 11], and every note has
the register 5. -/
theorem C22_register_five_with_few_symbols (sortSlice : List Classifier → List Classifier)
    (hs : SliceSorts sortSlice) (hash : String) (halpha : ∀ c ∈ hash.data, c ∈ runes)
    (hfew : (TrimLeft hash.data ['0']).dedup.length ≤ 13) :
    (∀ c ∈ TrimLeft hash.data ['0'], rankIndex (ranking sortSlice hash) c ≤ 12) ∧
      (∀ n ∈ (NewMelody sortSlice hash).Notes,
        (NewMelody sortSlice hash).Scale ≤ n.Note ∧
          n.Note ≤ (NewMelody sortSlice hash).Scale + 11) ∧
      ∀ n ∈ (NewMelody sortSlice hash).Notes, n.Tone = 5 := by
  have hrunes : ∀ c ∈ TrimLeft hash.data ['0'], c ∈ runes :=
    fun c hc => halpha c ((List.dropWhile_sublist _).subset hc)
  have hrank : ∀ c ∈ TrimLeft hash.data ['0'], rankIndex (ranking sortSlice hash) c ≤ 12 := by
    intro c hc
    have := rankIndex_lt_distinct hs hash c hc (hrunes c hc)
    omega
  have hS := loopScale_range (ranking sortSlice hash)
  have hM := loopMode_le (ranking sortSlice hash)
  have hpitch : ∀ c ∈ TrimLeft hash.data ['0'],
      (NewMelody sortSlice hash).Scale ≤
          noteOfIndex (NewMelody sortSlice hash) (indexOfC (ranking sortSlice hash) c) ∧
        noteOfIndex (NewMelody sortSlice hash) (indexOfC (ranking sortSlice hash) c) ≤
          (NewMelody sortSlice hash).Scale + 11 := by
    intro c hc
    have hmem : c ∈ (ranking sortSlice hash).map Classifier.char :=
      (ranking_chars_perm hs hash).mem_iff.2 (hrunes c hc)
    rw [indexOfC_eq_rankIndex hmem]
    exact degrees_range _ (by rw [NewMelody_Scale]; omega) (by rw [NewMelody_Scale]; omega)
      (by rw [NewMelody_Mode]; exact hM) _ (noteOfIndex_degree _ _ (hrank c hc))
  refine ⟨hrank, ?_, ?_⟩
  · intro n hn
    obtain ⟨c, hc, hnc⟩ := notesLoop_pitch _ _ _ _ _ n hn
    rw [hnc]
    exact hpitch c hc
  · intro n hn
    refine notesLoop_tone_five _ _ (NewMelody sortSlice hash).Scale _ _ _ ?_ ?_ n hn
    · exact hpitch
    · intro p hp
      cases hp

/-- C22 at the hash "bbb66" under the stable sort: two distinct symbols, the
notes have the pitches of B Locrian's Quinte and Third and the register 5. -/
theorem C22_register_five_witness :
    ((∀ c ∈ "bbb66".data, c ∈ runes) ∧ (TrimLeft "bbb66".data ['0']).dedup.length ≤ 13) ∧
      (NewMelody stableSort "bbb66").Notes.map Note.Tone = [5, 5, 5, 5, 5] ∧
      ∀ n ∈ (NewMelody stableSort "bbb66").Notes, n.Tone = 5 :=
  ⟨⟨by decide, by decide⟩, by decide,
    (C22_register_five_with_few_symbols stableSort stableSort_sorts "bbb66" (by decide)
      (by decide)).2.2⟩

/-! ## A run of four Quaver notes, from the hash to the calls -/

/-- The body of the loop of `BuildMelody` for a note that does not overrun the
measure: the note is played and recorded unchanged. -/
theorem melodyStep_inside_eq (m : Melody) (n : Note) (st : MelodyState)
    (hin : ¬ st.nextRelativePosition + m.TimeSignature.GetTicksOfDuration n.Duration st.wr >
      (m.TimeSignature.Numerator : ℚ))
    (hd : 0 < m.TimeSignature.GetTicksOfDuration n.Duration st.wr) :
    melodyStep m n st =
      { wr := n.Play st.wr,
        Phrases := appendPhrase st.Phrases (m.CurrentMeasure st.wr).1 n,
        nextRelativePosition :=
          st.nextRelativePosition + m.TimeSignature.GetTicksOfDuration n.Duration st.wr,
        Notes := st.Notes ++ [n] } := by
  have hne : ¬ st.nextRelativePosition +
      m.TimeSignature.GetTicksOfDuration n.Duration st.wr = st.nextRelativePosition := by
    intro h
    linarith
  simp only [melodyStep, groove, if_neg hin, if_neg hne]

/-- A Quaver note in 4/4, resolution 960, at most 3.5 beats into the measure
and before the fourth quarter note of the track. -/
theorem melodyStep_quaver (m : Melody) (hnum : m.TimeSignature.Numerator = 4) (n : Note)
    (hn : n.Duration = Quaver) (pos : Nat) (phrases : List (Nat × List Note)) (r : ℚ)
    (notes : List Note) (hr : r ≤ 7 / 2) (hpos : pos < 3840) :
    melodyStep m n ⟨⟨pos, 960⟩, phrases, r, notes⟩ =
      ⟨⟨pos + 480, 960⟩, appendPhrase phrases 1 n, r + 1 / 2, notes ++ [n]⟩ := by
  have hticks : m.TimeSignature.GetTicksOfDuration n.Duration
      { Position := pos, Resolution := 960 } = 1 / 2 := by
    rw [GetTicksOfDuration_eq_beats _ _ _ (by norm_num) ⟨240, rfl⟩, hn]
    norm_num [beats, Minim, CrochtetDot, Crochtet, Quaver]
  have hplay : n.Play { Position := pos, Resolution := 960 } =
      { Position := pos + 480, Resolution := 960 } := by
    unfold Note.Play Note.ApplyMeterDuration SMF.Forward
    rw [hn, if_neg (by decide)]
    simp only [Quaver, SMF.mk.injEq, and_true]
  have hmeasure : (m.CurrentMeasure { Position := pos, Resolution := 960 }).1 = 1 := by
    unfold Melody.CurrentMeasure
    simp only
    rw [if_pos (by rw [hnum]; omega)]
  rw [melodyStep_inside_eq m n _ (by simp only [hticks, hnum]; norm_num; linarith)
    (by simp only [hticks]; norm_num)]
  simp only [hticks, hplay, hmeasure]


/-- The ranking of "00aaa3" starts with 'a', of count 3, then '3', of count
1, whatever the sort does with ties: the other symbols have the count 0. -/
theorem ranking_00aaa3 {sortSlice : List Classifier → List Classifier}
    (hs : SliceSorts sortSlice) :
    ∃ rest, ranking sortSlice "00aaa3" = ⟨'a', 3⟩ :: ⟨'3', 1⟩ :: rest := by
  have hperm := ranking_perm hs "00aaa3"
  have hsorted := ranking_sorted hs "00aaa3"
  have hnodup : (ranking sortSlice "00aaa3").Nodup := hperm.nodup_iff.2 (by decide)
  have hmema : (⟨'a', 3⟩ : Classifier) ∈ ranking sortSlice "00aaa3" :=
    hperm.mem_iff.2 (by decide)
  have hmem3 : (⟨'3', 1⟩ : Classifier) ∈ ranking sortSlice "00aaa3" :=
    hperm.mem_iff.2 (by decide)
  have hthree : ∀ d ∈ classify (TrimLeft ("00aaa3" : String).data ['0']), 3 ≤ d.count →
      d = ⟨'a', 3⟩ := by decide
  have hone : ∀ d ∈ classify (TrimLeft ("00aaa3" : String).data ['0']), 1 ≤ d.count →
      d = ⟨'a', 3⟩ ∨ d = ⟨'3', 1⟩ := by decide
  cases hl : ranking sortSlice "00aaa3" with
  | nil => rw [hl] at hmema; simp at hmema
  | cons x0 t0 =>
    rw [hl] at hperm hsorted hmema hmem3 hnodup
    rw [List.pairwise_cons] at hsorted
    rw [List.nodup_cons] at hnodup
    have hx0 : x0 = ⟨'a', 3⟩ := by
      rcases List.mem_cons.1 hmema with h | h
      · exact h.symm
      · exact hthree x0 (hperm.mem_iff.1 (List.mem_cons_self _ _)) (hsorted.1 _ h)
    subst hx0
    have hmem3t : (⟨'3', 1⟩ : Classifier) ∈ t0 := by
      rcases List.mem_cons.1 hmem3 with h | h
      · exact absurd h (by decide)
      · exact h
    cases t0 with
    | nil => simp at hmem3t
    | cons x1 t1 =>
      have hs1 := hsorted.2
      rw [List.pairwise_cons] at hs1
      have hx1 : x1 = ⟨'3', 1⟩ := by
        rcases List.mem_cons.1 hmem3t with h | h
        · exact h.symm
        · rcases hone x1 (hperm.mem_iff.1 (List.mem_cons_of_mem _ (List.mem_cons_self _ _)))
            (hs1.1 _ h) with h1 | h1
          · exact absurd (h1 ▸ List.mem_cons_self _ _) hnodup.1
          · exact h1
      subst hx1
      exact ⟨t1, rfl⟩

/-- The hash "00aaa3", whatever the sort does with ties: 4/4, A Lydian, and
four Quaver notes, three on the Quinte and one on the Third. -/
theorem newMelody_00aaa3 {sortSlice : List Classifier → List Classifier}
    (hs : SliceSorts sortSlice) :
    (NewMelody sortSlice "00aaa3").Notes =
        [⟨16, 100, Quaver, 5⟩, ⟨16, 100, Quaver, 5⟩, ⟨16, 100, Quaver, 5⟩,
          ⟨13, 100, Quaver, 5⟩] ∧
      (NewMelody sortSlice "00aaa3").Scale = A ∧
      (NewMelody sortSlice "00aaa3").Mode = Lydian ∧
      (NewMelody sortSlice "00aaa3").TimeSignature = ⟨4, 4⟩ := by
  obtain ⟨rest, hl⟩ := ranking_00aaa3 hs
  have hscale : (NewMelody sortSlice "00aaa3").Scale = A := by
    rw [NewMelody_Scale, hl]
    rfl
  have hmode : (NewMelody sortSlice "00aaa3").Mode = Lydian := by
    rw [NewMelody_Mode, hl]
    rfl
  have hts : (NewMelody sortSlice "00aaa3").TimeSignature = ⟨4, 4⟩ := by
    show NewTimeSignature "00aaa3" = _
    decide
  refine ⟨?_, hscale, hmode, hts⟩
  have htrim : TrimLeft ("00aaa3" : String).data ['0'] = ['a', 'a', 'a', '3'] := by decide
  unfold NewMelody
  simp only
  rw [show sortSlice (classify (TrimLeft ("00aaa3" : String).data ['0'])) =
    ranking sortSlice "00aaa3" from rfl, hl, htrim]
  rfl


/-- `BuildMelody` on the melody of "00aaa3", from the position 0 with the
resolution 960: the four notes are recorded unchanged in the measure 1, the
only measure. -/
theorem buildMelody_00aaa3 {sortSlice : List Classifier → List Classifier}
    (hs : SliceSorts sortSlice) :
    ((NewMelody sortSlice "00aaa3").BuildMelody ⟨0, 960⟩).1 =
      Melody.mk
        [⟨16, 100, Quaver, 5⟩, ⟨16, 100, Quaver, 5⟩, ⟨16, 100, Quaver, 5⟩,
          ⟨13, 100, Quaver, 5⟩]
        A Lydian ⟨4, 4⟩ 1
        [(1, [⟨16, 100, Quaver, 5⟩, ⟨16, 100, Quaver, 5⟩, ⟨16, 100, Quaver, 5⟩,
          ⟨13, 100, Quaver, 5⟩])] := by
  obtain ⟨hnotes, hscale, hmode, hts⟩ := newMelody_00aaa3 hs
  have hnum : (NewMelody sortSlice "00aaa3").TimeSignature.Numerator = 4 := by rw [hts]
  have hst : melodyLoop (NewMelody sortSlice "00aaa3") (NewMelody sortSlice "00aaa3").Notes
      ⟨⟨0, 960⟩, [], 0, []⟩ =
      ⟨⟨1920, 960⟩,
        [(1, [⟨16, 100, Quaver, 5⟩, ⟨16, 100, Quaver, 5⟩, ⟨16, 100, Quaver, 5⟩,
          ⟨13, 100, Quaver, 5⟩])], 2,
        [⟨16, 100, Quaver, 5⟩, ⟨16, 100, Quaver, 5⟩, ⟨16, 100, Quaver, 5⟩,
          ⟨13, 100, Quaver, 5⟩]⟩ := by
    rw [hnotes]
    simp only [melodyLoop]
    rw [melodyStep_quaver _ hnum _ rfl _ _ _ _ (by norm_num) (by norm_num),
      melodyStep_quaver _ hnum _ rfl _ _ _ _ (by norm_num) (by norm_num),
      melodyStep_quaver _ hnum _ rfl _ _ _ _ (by norm_num) (by norm_num),
      melodyStep_quaver _ hnum _ rfl _ _ _ _ (by norm_num) (by norm_num)]
    rw [MelodyState.mk.injEq]
    refine ⟨rfl, by decide, by norm_num, rfl⟩
  have hmeasure : ((NewMelody sortSlice "00aaa3").CurrentMeasure ⟨1920, 960⟩).1 = 1 := by
    unfold Melody.CurrentMeasure
    simp only
    rw [if_pos (by rw [hnum]; decide)]
  unfold Melody.BuildMelody
  simp only [hst, hmeasure, hscale, hmode, hts]

/-- C24 fails on the code. The hash "00aaa3" gives, whatever the sort does
with ties, one measure of 4/4 with a run of four Quaver notes, 2 beats; for it
`BuildHarmony` calls a silence of Crochtet and a chord of CrochtetDot on the
degree V, 2.5 beats, where the comment of the case reads "1 Minim". The table
is uneven as well at 7, 8, 9 and 10 notes of Quaver, at 4 notes of CrochtetDot
and at 6 notes of Crochtet. -/
theorem C24_four_quavers_get_two_and_a_half_beats
    (sortSlice : List Classifier → List Classifier) (hs : SliceSorts sortSlice) :
    ((NewMelody sortSlice "00aaa3").BuildMelody ⟨0, 960⟩).1.BuildHarmony 2 =
        Outcome.returned [Action.silence Crochtet, Action.buildChord V CrochtetDot] ∧
      totalBeats [Action.silence Crochtet, Action.buildChord V CrochtetDot] = 5 / 2 ∧
      (((NewMelody sortSlice "00aaa3").Notes.map (fun n => beats n.Duration)).sum = 2) ∧
      totalBeats (runActions V Quaver 7) = 4 ∧ (7 : ℚ) * beats Quaver = 7 / 2 ∧
      totalBeats (runActions V Quaver 8) = 9 / 2 ∧ (8 : ℚ) * beats Quaver = 4 ∧
      totalBeats (runActions V Quaver 9) = 5 ∧ (9 : ℚ) * beats Quaver = 9 / 2 ∧
      totalBeats (runActions V Quaver 10) = 6 ∧ (10 : ℚ) * beats Quaver = 5 ∧
      totalBeats (runActions V CrochtetDot 4) = 9 / 2 ∧ (4 : ℚ) * beats CrochtetDot = 6 ∧
      totalBeats (runActions V Crochtet 6) = 1 ∧ (6 : ℚ) * beats Crochtet = 6 := by
  refine ⟨?_, ?_, ?_, ?_, ?_, ?_, ?_, ?_, ?_, ?_, ?_, ?_, ?_, ?_, ?_⟩
  · rw [buildMelody_00aaa3 hs]
    decide
  · norm_num [totalBeats, Action.beats, beats, Minim, CrochtetDot, Crochtet, Quaver]
  · rw [(newMelody_00aaa3 hs).1]
    norm_num [beats, Minim, CrochtetDot, Crochtet, Quaver]
  all_goals
    norm_num [runActions, quaverActions, crochtetDotActions, crochtetActions, totalBeats,
      Action.beats, beats, Minim, CrochtetDot, Crochtet, Quaver, Semiquaver]

/-- C24 at the hash "00aaa3" under the stable sort. -/
theorem C24_four_quavers_witness :
    SliceSorts stableSort ∧
      ((NewMelody stableSort "00aaa3").BuildMelody ⟨0, 960⟩).1.BuildHarmony 2 =
        Outcome.returned [Action.silence Crochtet, Action.buildChord V CrochtetDot] :=
  ⟨stableSort_sorts, (C24_four_quavers_get_two_and_a_half_beats stableSort stableSort_sorts).1⟩

end Dubdutduc
